import Mathlib

/-!
# GoCycled: the trash store of `pkg/trash/trash.go`

A shallow embedding of the trash manager (`Manager.Put`, `List`, `Restore`,
`Remove`, `Empty`, `Size`) over a small model of the file system calls it makes,
and of the key-value access to the configuration (`Config.Get`, `Config.Set` of
`pkg/config/config.go`).

Modelling decisions, all of them about code outside the repository:

* The file system is a tree of regular files and directories.  Symbolic links,
  permissions, devices and I/O errors are not modelled, so a system call fails
  only for the structural reasons POSIX gives (a missing entry, a non-directory
  on the way, a busy root, a non-empty directory, a name that is too long).
* A file name has at most `nameMax` = 255 bytes, the limit of ext4, tmpfs and the
  other common file systems.  No system call makes an entry with a longer name,
  and the walk of a path reports `ENAMETOOLONG` where it meets a longer name that
  has no entry.  (A tree value that holds such an entry is not a state of a real
  file system; the definitions treat the entry like any other.)  The length of a
  whole path (`PATH_MAX`) is not limited.
* Paths handed to system calls are absolute and lexically clean; they are lists
  of components.  `filepath.Clean`, `Join`, `Abs`, `Base`, `Dir` and `Ext` are
  modelled on the characters of Go strings.
* `encoding/json` is a parameter: a `Codec` with a `marshal` and an `unmarshal`
  function for `Item`.  Theorems that need a record to be read back assume the
  codec is lawful (`unmarshal (marshal i) = some i`).
* `time.Now()` is an input of `Put` (it is read twice, once for the name and once
  for `DeletedAt`).
* The `for` loop of `Put` is run with fuel; `Err.hang` stands for a call that
  never returns.  The fuel is one more than the number of entries under the payload
  directory, which `probe_total` shows to be enough: when the loop does not return
  with that fuel, it does not return with any.
* Go strings are modelled by Lean strings, so file names are sequences of Unicode
  characters; names that are not valid UTF-8 are outside the model.
* A Go `interface{}` value is a `Value`: `nil`, a `string`, a `bool`, an `int`, or a
  value of another dynamic type.  The `int` fields of `Config` are only stored and
  read back, never computed with, so they are integers without a width.
-/

namespace GoCycled

/-! ## File-system tree -/

/-- A file-system entry: a regular file with its bytes, or a directory with the
size `stat` reports for it and its named entries. -/
inductive Node where
  | file (bytes : List Nat)
  | dir (size : Nat) (entries : List (String × Node))

/-- An absolute, lexically clean path: its components from the root. -/
abbrev Path := List String

/-- Error numbers of the modelled system calls. -/
inductive Errno where
  | ENOENT
  | ENOTDIR
  | EISDIR
  | EEXIST
  | EINVAL
  | ENOTEMPTY
  | EBUSY
  | ENAMETOOLONG
  deriving DecidableEq, Repr

namespace Node

/-- The `IsDir()` of `os.FileInfo`. -/
def isDir : Node → Bool
  | file _ => false
  | dir _ _ => true

/-- The `Size()` of `os.FileInfo`: the length of a regular file, the
system-dependent size of the directory entry itself for a directory. -/
def size : Node → Nat
  | file b => b.length
  | dir s _ => s

mutual
/-- Sum of the sizes of all regular files in a tree (`filepath.Walk` adding
`info.Size()` for every entry that is not a directory). -/
def du : Node → Nat
  | file b => b.length
  | dir _ es => duList es
/-- The sum of `du` over the entries of a directory. -/
def duList : List (String × Node) → Nat
  | [] => 0
  | e :: rest => du e.2 + duList rest
end

mutual
/-- The regular files under a tree, each given by its bytes; a directory is not one
of them, only the files in it are.  This follows the words of the specification
of `Size` ("every file under the payload area"); `du` is the walk of the code. -/
def regularFiles : Node → List (List Nat)
  | file b => [b]
  | dir _ es => regularFilesList es
/-- The regular files under the entries of a directory. -/
def regularFilesList : List (String × Node) → List (List Nat)
  | [] => []
  | e :: rest => regularFiles e.2 ++ regularFilesList rest
end

mutual
/-- Number of entries in a tree, the tree's root included. -/
def count : Node → Nat
  | file _ => 1
  | dir _ es => 1 + countList es
/-- The sum of `count` over the entries of a directory. -/
def countList : List (String × Node) → Nat
  | [] => 0
  | e :: rest => count e.2 + countList rest
end

end Node

/-- The entry named `c` of a directory listing. -/
def lookupEntry (c : String) : List (String × Node) → Option Node
  | [] => none
  | e :: rest => if e.1 = c then some e.2 else lookupEntry c rest

/-- Binds the name `c` to `n`: replaces the entry in place, or appends it. -/
def setEntry (c : String) (n : Node) : List (String × Node) → List (String × Node)
  | [] => [(c, n)]
  | e :: rest => if e.1 = c then (c, n) :: rest else e :: setEntry c n rest

/-- Unlinks the name `c`. -/
def eraseEntry (c : String) : List (String × Node) → List (String × Node)
  | [] => []
  | e :: rest => if e.1 = c then eraseEntry c rest else e :: eraseEntry c rest

/-- Links the name `c` to `n` (`some n`) or unlinks it (`none`). -/
def bindEntry (v : Option Node) (c : String) (es : List (String × Node)) :
    List (String × Node) :=
  match v with
  | some n => setEntry c n es
  | none => eraseEntry c es

/-- The longest file name the file system takes, in bytes (`NAME_MAX`). -/
def nameMax : Nat := 255

/-- The length of a file name in bytes (UTF-8, as in a Go string). -/
def nameBytes (s : String) : Nat := s.utf8ByteSize

/-- The error of a path walk at a name that has no entry in its directory:
`ENAMETOOLONG` for a name beyond `nameMax`, `ENOENT` otherwise. -/
def missing (c : String) : Errno :=
  if nameMax < nameBytes c then .ENAMETOOLONG else .ENOENT

/-- Path resolution: the entry at path `p` under `n` (`os.Stat`). -/
def stat : Node → Path → Except Errno Node
  | n, [] => .ok n
  | .file _, _ :: _ => .error .ENOTDIR
  | .dir _ es, c :: cs =>
    match lookupEntry c es with
    | none => .error (missing c)
    | some m => stat m cs

/-- Links (`some n`) or unlinks (`none`) the last component of `p` in its parent
directory, which must exist.  The root itself cannot be replaced.  The system
calls below call it after `stat` has resolved the path, so the length of the
names is checked there. -/
def updateAt (v : Option Node) : Node → Path → Except Errno Node
  | _, [] => .error .EBUSY
  | .file _, _ :: _ => .error .ENOTDIR
  | .dir s es, [c] => .ok (.dir s (bindEntry v c es))
  | .dir s es, c :: d :: cs =>
    match lookupEntry c es with
    | none => .error .ENOENT
    | some m =>
      match updateAt v m (d :: cs) with
      | .ok m1 => .ok (.dir s (setEntry c m1 es))
      | .error e => .error e

/-- The `os.IsNotExist` test on the result of a system call. -/
def isNotExist {α : Type} : Except Errno α → Bool
  | .error .ENOENT => true
  | _ => false

/-- Size `stat` reports for a directory made by `mkdir`. -/
def freshDirSize : Nat := 4096

/-- Slow path of `os.MkdirAll`: walks down `p`, making every missing directory;
a directory whose name is beyond `nameMax` cannot be made. -/
def mkdirChain : Node → Path → Except Errno Node
  | .file _, _ => .error .ENOTDIR
  | .dir s es, [] => .ok (.dir s es)
  | .dir s es, c :: cs =>
    if (lookupEntry c es).isNone && decide (nameMax < nameBytes c) then .error .ENAMETOOLONG
    else
      match mkdirChain ((lookupEntry c es).getD (.dir freshDirSize [])) cs with
      | .ok m => .ok (.dir s (setEntry c m es))
      | .error e => .error e

/-- The call `os.MkdirAll(p, 0755)`. -/
def mkdirAll (fs : Node) (p : Path) : Except Errno Node :=
  match stat fs p with
  | .ok (.dir _ _) => .ok fs
  | .ok (.file _) => .error .ENOTDIR
  | .error _ => mkdirChain fs p

/-- The call `os.Rename(src, dst)`.  An existing directory at `dst` is refused
(`EEXIST`, as Go does before the system call), a directory cannot be moved into
itself (`EINVAL`), and nothing can be moved below a regular file (`ENOTDIR`). -/
def rename (fs : Node) (src dst : Path) : Except Errno Node :=
  match stat fs src with
  | .error e => .error e
  | .ok node =>
    if src = [] then .error .EBUSY
    else if src = dst then .ok fs
    else if src <+: dst then (if node.isDir then .error .EINVAL else .error .ENOTDIR)
    else
      match stat fs dst with
      | .ok (.dir _ _) => .error .EEXIST
      | .ok (.file _) =>
        if node.isDir then .error .ENOTDIR
        else
          match updateAt none fs src with
          | .error e => .error e
          | .ok fs1 => updateAt (some node) fs1 dst
      | .error .ENOENT =>
        match updateAt none fs src with
        | .error e => .error e
        | .ok fs1 => updateAt (some node) fs1 dst
      | .error e => .error e

/-- The call `os.RemoveAll(p)`: the state it leaves and the error it returns.
A missing path is not an error. -/
def removeAll (fs : Node) (p : Path) : Node × Option Errno :=
  match p with
  | [] =>
    match fs with
    | .dir s _ => (.dir s [], some .EBUSY)
    | .file b => (.file b, some .EBUSY)
  | _ :: _ =>
    match stat fs p with
    | .error .ENOENT => (fs, none)
    | .error e => (fs, some e)
    | .ok _ =>
      match updateAt none fs p with
      | .ok fs1 => (fs1, none)
      | .error e => (fs, some e)

/-- The call `os.Remove(p)`: unlinks a file or an empty directory. -/
def remove (fs : Node) (p : Path) : Except Errno Node :=
  match p with
  | [] => .error .EBUSY
  | _ :: _ =>
    match stat fs p with
    | .error e => .error e
    | .ok (.file _) => updateAt none fs p
    | .ok (.dir _ []) => updateAt none fs p
    | .ok (.dir _ (_ :: _)) => .error .ENOTEMPTY

/-- The call `os.ReadFile(p)`. -/
def readFile (fs : Node) (p : Path) : Except Errno (List Nat) :=
  match stat fs p with
  | .error e => .error e
  | .ok (.file b) => .ok b
  | .ok (.dir _ _) => .error .EISDIR

/-- The call `os.WriteFile(p, data, 0644)`: creates or truncates the file. -/
def writeFile (fs : Node) (p : Path) (data : List Nat) : Except Errno Node :=
  match stat fs p with
  | .ok (.dir _ _) => .error .EISDIR
  | .ok (.file _) => updateAt (some (.file data)) fs p
  | .error .ENOENT => updateAt (some (.file data)) fs p
  | .error e => .error e

/-- Order of directory entries in `os.ReadDir`: by file name. -/
def nameLE (a b : String × Node) : Prop := a.1.data ≤ b.1.data

instance : DecidableRel nameLE := fun a b => inferInstanceAs (Decidable (a.1.data ≤ b.1.data))

/-- The call `os.ReadDir(p)`: the entries of the directory, sorted by name. -/
def readDir (fs : Node) (p : Path) : Except Errno (List (String × Node)) :=
  match stat fs p with
  | .error e => .error e
  | .ok (.file _) => .error .ENOTDIR
  | .ok (.dir _ es) => .ok (es.insertionSort nameLE)

/-! ## Paths as Go strings (`path/filepath`) -/

/-- Cuts a string at every slash; `cur` is the piece being read. -/
def splitSlash (cur : List Char) : List Char → List (List Char)
  | [] => [cur]
  | c :: rest => if c = '/' then cur :: splitSlash [] rest else splitSlash (cur ++ [c]) rest

/-- The path elements of a string: its pieces between slashes, without the empty
ones and the dots. -/
def components (s : String) : List String :=
  ((splitSlash [] s.data).map String.mk).filter (fun c => decide (c ≠ "" ∧ c ≠ "."))

/-- Lexical processing of `..` as in `filepath.Clean` on a rooted path: each
element is pushed on `stack`, `..` pops one (and is dropped at the root). -/
def resolve : Path → List String → Path
  | stack, [] => stack
  | stack, c :: rest =>
    if c = ".." then resolve stack.dropLast rest else resolve (stack ++ [c]) rest

/-- The function `filepath.Clean` on a rooted path. -/
def clean (s : String) : Path := resolve [] (components s)

/-- The function `filepath.IsAbs`. -/
def isAbs (s : String) : Bool := s.data.head? = some '/'

/-- The function `filepath.Abs`, with the working directory `wd` that
`os.Getwd` returns. -/
def abs (wd path : String) : Path :=
  if isAbs path then clean path else clean (wd ++ "/" ++ path)

/-- The function `filepath.Join(dir, elem)` for a clean rooted `dir`. -/
def join (dir : Path) (elem : String) : Path := resolve dir (components elem)

/-- The function `filepath.Base`. -/
def base (p : Path) : String := p.getLast?.getD "/"

/-- The function `filepath.Dir`. -/
def dirOf (p : Path) : Path := p.dropLast

/-- Suffix of a name from its last dot, when no slash follows that dot. -/
def extChars : List Char → Option (List Char)
  | [] => none
  | c :: rest =>
    match extChars rest with
    | some e => some e
    | none => if c = '.' ∧ '/' ∉ rest then some (c :: rest) else none

/-- The function `filepath.Ext`. -/
def ext (name : String) : String :=
  match extChars name.data with
  | some e => String.mk e
  | none => ""

/-! ## Names -/

/-- A plain file name: a single path element. -/
def PlainName (s : String) : Prop := '/' ∉ s.data ∧ s ≠ "" ∧ s ≠ "." ∧ s ≠ ".."

/-! ## The trash manager -/

/-- A wall-clock reading of `time.Now()`. -/
structure Time where
  year : Nat
  month : Nat
  day : Nat
  hour : Nat
  minute : Nat
  second : Nat
  deriving DecidableEq, Repr

/-- Decimal digits of `n`, zero-padded to width `w`. -/
def padDec (w n : Nat) : List Char :=
  List.replicate (w - (Nat.toDigits 10 n).length) '0' ++ Nat.toDigits 10 n

/-- The call `t.Format("20060102_150405")`. -/
def Time.format (t : Time) : String :=
  String.mk (padDec 4 t.year ++ padDec 2 t.month ++ padDec 2 t.day ++ ['_'] ++
    padDec 2 t.hour ++ padDec 2 t.minute ++ padDec 2 t.second)

/-- Item represents a trashed item. -/
structure Item where
  originalPath : Path
  trashPath : Path
  deletedAt : Time
  size : Nat
  deriving DecidableEq, Repr

/-- The JSON encoding of `Item` (`json.MarshalIndent`, `json.Unmarshal`). -/
structure Codec where
  marshal : Item → List Nat
  unmarshal : List Nat → Option Item

/-- A codec reads back what it wrote. -/
def Codec.Lawful (j : Codec) : Prop := ∀ i : Item, j.unmarshal (j.marshal i) = some i

/-- Errors returned by the manager. -/
inductive Err where
  | sys (e : Errno)
  | conflict (path : Path)
  | unmarshal
  | hang
  deriving DecidableEq, Repr

/-- Manager handles trash operations. -/
structure Manager where
  trashDir : Path
  filesDir : Path
  infoDir : Path
  deriving DecidableEq, Repr

/-- The manager `NewManager` returns for the root `trashDir`. -/
def mkManager (trashDir : Path) : Manager :=
  { trashDir := trashDir, filesDir := trashDir ++ ["files"], infoDir := trashDir ++ ["info"] }

/-- NewManager creates a new trash manager. -/
def NewManager (fs : Node) (trashDir : Path) : Node × Except Errno Manager :=
  match mkdirAll fs (trashDir ++ ["files"]) with
  | .error e => (fs, .error e)
  | .ok fs1 =>
    match mkdirAll fs1 (trashDir ++ ["info"]) with
    | .error e => (fs1, .error e)
    | .ok fs2 => (fs2, .ok (mkManager trashDir))

/-- The function `getSize`: the size of a file or directory as `stat` gives it. -/
def getSize (info : Node) : Nat := info.size

/-- The function `saveItemInfo`: writes the record of `item` at `path`. -/
def saveItemInfo (j : Codec) (fs : Node) (path : Path) (item : Item) : Node × Option Err :=
  match writeFile fs path (j.marshal item) with
  | .error e => (fs, some (.sys e))
  | .ok fs1 => (fs1, none)

/-- The function `loadItemInfo`: reads and decodes the record at `path`. -/
def loadItemInfo (j : Codec) (fs : Node) (path : Path) : Except Err Item :=
  match readFile fs path with
  | .error e => .error (.sys e)
  | .ok data =>
    match j.unmarshal data with
    | none => .error .unmarshal
    | some item => .ok item

/-- The name-probing loop of `Put`: `trashName` is the current candidate and
`counter` the next suffix; `none` when the fuel runs out. -/
def probe (fs : Node) (filesDir : Path) (timestamp baseName : String) :
    Nat → Nat → String → Option String
  | 0, _, _ => none
  | fuel + 1, counter, trashName =>
    if isNotExist (stat fs (join filesDir trashName)) then some trashName
    else probe fs filesDir timestamp baseName fuel (counter + 1)
      (timestamp ++ "_" ++ baseName ++ "_" ++ Nat.repr counter)

/-- Fuel given to the probing loop: one more than the number of entries under the
payload directory. -/
def probeFuel (fs : Node) (filesDir : Path) : Nat :=
  match stat fs filesDir with
  | .ok n => n.count + 1
  | .error _ => 1

namespace Manager

/-- Put moves a file or directory to trash. -/
def Put (j : Codec) (m : Manager) (wd : String) (fs : Node) (path : String)
    (now now2 : Time) : Node × Option Err :=
  let absPath := abs wd path
  match stat fs absPath with
  | .error e => (fs, some (.sys e))
  | .ok fileInfo =>
    let baseName := base absPath
    let timestamp := now.format
    match probe fs m.filesDir timestamp baseName (probeFuel fs m.filesDir) 1
        (timestamp ++ "_" ++ baseName) with
    | none => (fs, some .hang)
    | some trashName =>
      let trashPath := join m.filesDir trashName
      match rename fs absPath trashPath with
      | .error e => (fs, some (.sys e))
      | .ok fs1 =>
        saveItemInfo j fs1 (join m.infoDir (trashName ++ ".json"))
          { originalPath := absPath, trashPath := trashPath, deletedAt := now2,
            size := getSize fileInfo }

/-- Restore restores a file from trash to its original location. -/
def Restore (j : Codec) (m : Manager) (fs : Node) (trashName : String) : Node × Option Err :=
  let trashPath := join m.filesDir trashName
  let infoPath := join m.infoDir (trashName ++ ".json")
  match loadItemInfo j fs infoPath with
  | .error e => (fs, some e)
  | .ok item =>
    let originalDir := dirOf item.originalPath
    match (if isNotExist (stat fs originalDir) then mkdirAll fs originalDir else .ok fs) with
    | .error e => (fs, some (.sys e))
    | .ok fs1 =>
      match stat fs1 item.originalPath with
      | .ok _ => (fs1, some (.conflict item.originalPath))
      | .error _ =>
        match rename fs1 trashPath item.originalPath with
        | .error e => (fs1, some (.sys e))
        | .ok fs2 =>
          match remove fs2 infoPath with
          | .error e => (fs2, some (.sys e))
          | .ok fs3 => (fs3, none)

/-- Remove permanently deletes an item from trash. -/
def Remove (m : Manager) (fs : Node) (trashName : String) : Node × Option Err :=
  let trashPath := join m.filesDir trashName
  let infoPath := join m.infoDir (trashName ++ ".json")
  match removeAll fs trashPath with
  | (fs1, some e) => (fs1, some (.sys e))
  | (fs1, none) =>
    match remove fs1 infoPath with
    | .error e => (fs1, some (.sys e))
    | .ok fs2 => (fs2, none)

/-- Empty removes all items from trash. -/
def Empty (m : Manager) (fs : Node) : Node × Option Err :=
  match removeAll fs m.filesDir with
  | (fs1, some e) => (fs1, some (.sys e))
  | (fs1, none) =>
    match removeAll fs1 m.infoDir with
    | (fs2, some e) => (fs2, some (.sys e))
    | (fs2, none) =>
      match mkdirAll fs2 m.filesDir with
      | .error e => (fs2, some (.sys e))
      | .ok fs3 =>
        match mkdirAll fs3 m.infoDir with
        | .error e => (fs3, some (.sys e))
        | .ok fs4 => (fs4, none)

/-- Size returns the total size of trash in bytes. -/
def Size (m : Manager) (fs : Node) : Nat × Option Err :=
  match stat fs m.filesDir with
  | .error e => (0, some (.sys e))
  | .ok n => (n.du, none)

/-- The record a directory entry of the metadata area contributes to `List`. -/
def listEntry (j : Codec) (m : Manager) (fs : Node) (entry : String × Node) : Option Item :=
  if entry.2.isDir || ext entry.1 != ".json" then none
  else
    match loadItemInfo j fs (join m.infoDir entry.1) with
    | .error _ => none
    | .ok item => some item

/-- List returns all items in trash. -/
def List (j : Codec) (m : Manager) (fs : Node) : Except Err (List Item) :=
  match readDir fs m.infoDir with
  | .error e => .error (.sys e)
  | .ok entries => .ok (entries.filterMap (listEntry j m fs))

end Manager

/-! ## Store states and sequences of calls -/

/-- A freshly initialized store: both directories exist and are empty. -/
def Fresh (m : Manager) (fs : Node) : Prop :=
  ∃ s1 s2, stat fs m.filesDir = .ok (.dir s1 []) ∧ stat fs m.infoDir = .ok (.dir s2 [])

/-- The store has a metadata record for the trash name: a file named
`trashName.json` in the metadata area that decodes to an item. -/
def HasRecord (j : Codec) (m : Manager) (fs : Node) (trashName : String) : Prop :=
  ∃ s es data item, stat fs m.infoDir = .ok (.dir s es) ∧
    lookupEntry (trashName ++ ".json") es = some (.file data) ∧ j.unmarshal data = some item

/-- A sequence of `Put` calls, one per request (path and the two clock readings):
the final state, and whether every call succeeded. -/
def putMany (j : Codec) (m : Manager) (wd : String) :
    Node → List (String × Time × Time) → Node × Bool
  | fs, [] => (fs, true)
  | fs, r :: rest =>
    match m.Put j wd fs r.1 r.2.1 r.2.2 with
    | (fs1, none) => putMany j m wd fs1 rest
    | (fs1, some _) => (fs1, false)

/-- Byte size of the entry at a path, 0 when there is none. -/
def sizeAt (fs : Node) (p : Path) : Nat :=
  match stat fs p with
  | .ok n => n.size
  | .error _ => 0

/-- One call on the store. -/
inductive Op where
  | put (path : String) (now now2 : Time)
  | restore (trashName : String)
  | remove (trashName : String)
  | empty

/-- The effect of one call. -/
def step (j : Codec) (m : Manager) (wd : String) (fs : Node) : Op → Node × Option Err
  | .put path now now2 => m.Put j wd fs path now now2
  | .restore trashName => m.Restore j fs trashName
  | .remove trashName => m.Remove fs trashName
  | .empty => m.Empty fs

/-- Runs a sequence of calls; `some` of the final state when every call succeeded. -/
def runAll (j : Codec) (m : Manager) (wd : String) : Node → List Op → Option Node
  | fs, [] => some fs
  | fs, op :: rest =>
    match step j m wd fs op with
    | (fs1, none) => runAll j m wd fs1 rest
    | (_, some _) => none

/-- The payload and the metadata area pair up one to one, and every record
satisfies `P`: both directories exist, no name occurs twice in either, every payload
entry `n` has the metadata entry `n.json`, and every metadata entry is a file
`n.json` that decodes to an item whose trash path is the payload entry `n`. -/
def LockstepWith (P : Item → Prop) (j : Codec) (m : Manager) (fs : Node) : Prop :=
  ∃ s1 es1 s2 es2, stat fs m.filesDir = .ok (.dir s1 es1) ∧
    stat fs m.infoDir = .ok (.dir s2 es2) ∧
    (es1.map Prod.fst).Nodup ∧ (es2.map Prod.fst).Nodup ∧
    (∀ n, n ∈ es1.map Prod.fst → n ++ ".json" ∈ es2.map Prod.fst) ∧
    ∀ e ∈ es2, ∃ n data item, e = (n ++ ".json", Node.file data) ∧ n ∈ es1.map Prod.fst ∧
      j.unmarshal data = some item ∧ item.trashPath = m.filesDir ++ [n] ∧ P item

/-- The lockstep invariant of the store. -/
def Lockstep (j : Codec) (m : Manager) (fs : Node) : Prop :=
  LockstepWith (fun _ => True) j m fs

/-- The calls the lockstep invariant is proved for: `Put` of a source outside the
payload and the metadata directory, `Restore` and `Remove` of a plain name. -/
def Op.Regular (m : Manager) (wd : String) : Op → Prop
  | .put path _ _ => ¬ m.filesDir <+: abs wd path ∧ ¬ m.infoDir <+: abs wd path
  | .restore trashName => PlainName trashName
  | .remove trashName => PlainName trashName
  | .empty => True

/-- The entries of the directory at `d`, when there is one. -/
def entriesAt (fs : Node) (d : Path) : Option (List (String × Node)) :=
  match stat fs d with
  | .ok (.dir _ es) => some es
  | _ => none

/-- The state reached by `Remove` of every listed item, by the base name of its
trash path, in the order of the list. -/
def removeListed (m : Manager) (fs : Node) (items : List Item) : Node :=
  items.foldl (fun cur item => (m.Remove cur (base item.trashPath)).1) fs

/-- The trash name a call of `Put` assigns: the value of its variable `trashName`
when the call returns without error, `none` when the call fails. -/
def Manager.assignedName (j : Codec) (m : Manager) (wd : String) (fs : Node) (path : String)
    (now now2 : Time) : Option String :=
  match stat fs (abs wd path) with
  | .error _ => none
  | .ok _ =>
    match probe fs m.filesDir now.format (base (abs wd path)) (probeFuel fs m.filesDir) 1
        (now.format ++ "_" ++ base (abs wd path)) with
    | none => none
    | some trashName =>
      if (m.Put j wd fs path now now2).2.isNone then some trashName else none

/-- The trash names assigned by the successful calls of `Put` in a sequence of
calls, in order; every call runs on the state the one before it left. -/
def assignedNames (j : Codec) (m : Manager) (wd : String) : Node → List Op → List String
  | _, [] => []
  | fs, .put path now now2 :: rest =>
    (m.assignedName j wd fs path now now2).toList ++
      assignedNames j m wd (step j m wd fs (.put path now now2)).1 rest
  | fs, op :: rest => assignedNames j m wd (step j m wd fs op).1 rest

/-- The item a directory entry holds when it is a well-formed record: a regular
file whose name has the extension `.json` and whose bytes decode. -/
def recordOf (j : Codec) (entry : String × Node) : Option Item :=
  match entry.2 with
  | .dir _ _ => none
  | .file data => if ext entry.1 = ".json" then j.unmarshal data else none

/-! ## Configuration (`pkg/config/config.go`) -/

/-- A Go value of type `interface{}`: `nil`, a `string`, a `bool`, an `int`, or a
value of any other dynamic type (`int64`, `float64`, a slice and so on), of which
only the type name is kept. -/
inductive Value where
  | nil
  | str (s : String)
  | bool (b : Bool)
  | int (n : Int)
  | other (typeName : String)
  deriving DecidableEq

/-- Config represents the application configuration. -/
structure Config where
  /-- Field `TrashDir`, key `trash_dir`. -/
  TrashDir : String
  /-- Field `ConfirmDelete`, key `confirm_delete`. -/
  ConfirmDelete : Bool
  /-- Field `UseFancyUI`, key `use_fancy_ui`. -/
  UseFancyUI : Bool
  /-- Field `AutoEmptyDays`, key `auto_empty_days`. -/
  AutoEmptyDays : Int
  /-- Field `MaxTrashSizeMB`, key `max_trash_size_mb`. -/
  MaxTrashSizeMB : Int
  deriving DecidableEq

namespace Config

/-- Get gets a config value by key. -/
def Get (c : Config) (key : String) : Value :=
  if key = "trash_dir" then .str c.TrashDir
  else if key = "confirm_delete" then .bool c.ConfirmDelete
  else if key = "use_fancy_ui" then .bool c.UseFancyUI
  else if key = "auto_empty_days" then .int c.AutoEmptyDays
  else if key = "max_trash_size_mb" then .int c.MaxTrashSizeMB
  else .nil

/-- Set sets a config value by key: the configuration after the call and the
boolean the call returns. -/
def Set (c : Config) (key : String) (value : Value) : Config × Bool :=
  if key = "trash_dir" then
    match value with
    | .str v => ({ c with TrashDir := v }, true)
    | _ => (c, false)
  else if key = "confirm_delete" then
    match value with
    | .bool v => ({ c with ConfirmDelete := v }, true)
    | _ => (c, false)
  else if key = "use_fancy_ui" then
    match value with
    | .bool v => ({ c with UseFancyUI := v }, true)
    | _ => (c, false)
  else if key = "auto_empty_days" then
    match value with
    | .int v => ({ c with AutoEmptyDays := v }, true)
    | _ => (c, false)
  else if key = "max_trash_size_mb" then
    match value with
    | .int v => ({ c with MaxTrashSizeMB := v }, true)
    | _ => (c, false)
  else (c, false)

end Config

/-! ## A concrete codec and concrete states, for the examples -/

/-- Length-prefixed character codes of a string. -/
def encStr (s : String) : List Nat := s.data.length :: s.data.map Char.toNat

/-- Reads back one string written by `encStr`. -/
def decStr : List Nat → Option (String × List Nat)
  | [] => none
  | n :: rest =>
    if n ≤ rest.length then some (String.mk ((rest.take n).map Char.ofNat), rest.drop n)
    else none

/-- The strings of a list, one after the other. -/
def encStrs : List String → List Nat
  | [] => []
  | s :: ss => encStr s ++ encStrs ss

/-- Reads back `k` strings. -/
def decStrs : Nat → List Nat → Option (List String × List Nat)
  | 0, rest => some ([], rest)
  | k + 1, rest =>
    match decStr rest with
    | none => none
    | some (s, r1) =>
      match decStrs k r1 with
      | none => none
      | some (ss, r2) => some (s :: ss, r2)

/-- Length-prefixed components of a path. -/
def encPath (p : Path) : List Nat := p.length :: encStrs p

/-- Reads back one path written by `encPath`. -/
def decPath : List Nat → Option (Path × List Nat)
  | [] => none
  | n :: rest => decStrs n rest

/-- A concrete lawful codec, used in the examples. -/
def demoCodec : Codec where
  marshal := fun i =>
    encPath i.originalPath ++ (encPath i.trashPath ++
      [i.deletedAt.year, i.deletedAt.month, i.deletedAt.day, i.deletedAt.hour,
        i.deletedAt.minute, i.deletedAt.second, i.size])
  unmarshal := fun b =>
    match decPath b with
    | none => none
    | some (p1, r1) =>
      match decPath r1 with
      | none => none
      | some (p2, r2) =>
        match r2 with
        | [y, mo, d, h, mi, s, sz] => some ⟨p1, p2, ⟨y, mo, d, h, mi, s⟩, sz⟩
        | _ => none

/-- A clock reading: 2024-01-02 03:04:05. -/
def demoTime : Time := ⟨2024, 1, 2, 3, 4, 5⟩

/-- A file system with a fresh store at `/t` and one file `/w/a.txt`. -/
def demoFs : Node :=
  .dir 4096 [("t", .dir 4096 [("files", .dir 4096 []), ("info", .dir 4096 [])]),
    ("w", .dir 4096 [("a.txt", .file [104, 105, 10])])]

/-- The state after `Put` of `/w/a.txt` on `demoFs`. -/
def demoTrashed : Node :=
  ((mkManager ["t"]).Put demoCodec "/w" demoFs "a.txt" demoTime demoTime).1

/-- The state `demoTrashed` with a new file written at `/w/a.txt`. -/
def demoOccupied : Node :=
  match writeFile demoTrashed ["w", "a.txt"] [1] with
  | .ok fs => fs
  | .error _ => demoTrashed

/-- A file system with a fresh store at `/t` and one file `/w/a.json`. -/
def demoJsonFs : Node :=
  .dir 4096 [("t", .dir 4096 [("files", .dir 4096 []), ("info", .dir 4096 [])]),
    ("w", .dir 4096 [("a.json", .file [123, 125])])]

/-- The state after `Put` of `/w/a.json` on `demoJsonFs`. -/
def demoJsonTrashed : Node :=
  ((mkManager ["t"]).Put demoCodec "/w" demoJsonFs "a.json" demoTime demoTime).1

/-- A file system with a fresh store at `/t` and two files of the same base name,
`/w/a.txt` and `/v/a.txt`. -/
def demoTwoFs : Node :=
  .dir 4096 [("t", .dir 4096 [("files", .dir 4096 []), ("info", .dir 4096 [])]),
    ("w", .dir 4096 [("a.txt", .file [104, 105, 10])]),
    ("v", .dir 4096 [("a.txt", .file [1, 2])])]

/-- A file system with a fresh store at `/t`, a directory `/w/x` and in it a file
`/w/x/x`. -/
def demoNestedFs : Node :=
  .dir 4096 [("t", .dir 4096 [("files", .dir 4096 []), ("info", .dir 4096 [])]),
    ("w", .dir 4096 [("x", .dir 4096 [("x", .file [7])])])]

/-- A file system with a fresh store at `/t` and two files `/w/a` and `/w/a.json`. -/
def demoPairFs : Node :=
  .dir 4096 [("t", .dir 4096 [("files", .dir 4096 []), ("info", .dir 4096 [])]),
    ("w", .dir 4096 [("a", .file [1]), ("a.json", .file [2])])]

/-- The state after `Put` of `/w/a.txt` and then `Put` of the metadata record the
first call wrote. -/
def demoBroken : Node :=
  ((mkManager ["t"]).Put demoCodec "/" demoTrashed "/t/info/20240102_030405_a.txt.json"
    demoTime demoTime).1

/-- The state `demoTwoFs` after both files were put, the first restored, the second
removed and the store emptied. -/
def demoFinal : Node :=
  .dir 4096 [("t", .dir 4096 [("files", .dir 4096 []), ("info", .dir 4096 [])]),
    ("w", .dir 4096 [("a.txt", .file [104, 105, 10])]),
    ("v", .dir 4096 [])]

/-- A file system with a fresh store at `/t` and a directory `/w/d` holding one
file of three bytes. -/
def demoDirFs : Node :=
  .dir 4096 [("t", .dir 4096 [("files", .dir 4096 []), ("info", .dir 4096 [])]),
    ("w", .dir 4096 [("d", .dir 4096 [("a.txt", .file [104, 105, 10])])])]

/-- The state after `Put` of the directory `/w/d` on `demoDirFs`. -/
def demoDirTrashed : Node :=
  ((mkManager ["t"]).Put demoCodec "/w" demoDirFs "d" demoTime demoTime).1

/-- The state `demoTrashed` with three more entries in the metadata area: a
subdirectory, a file without the extension `.json`, and a file `bad.json` whose
bytes do not decode. -/
def demoForeign : Node :=
  .dir 4096 [("t", .dir 4096 [("files", .dir 4096 [("20240102_030405_a.txt",
      .file [104, 105, 10])]),
    ("info", .dir 4096 [("sub", .dir 4096 []),
      ("20240102_030405_a.txt.json", .file (demoCodec.marshal
        ⟨["w", "a.txt"], ["t", "files", "20240102_030405_a.txt"], demoTime, 3⟩)),
      ("notes.txt", .file [1]), ("bad.json", .file [9, 9])])]),
    ("w", .dir 4096 [])]

/-- A file name of `n` bytes: the letter `a`, `n` times. -/
def longName (n : Nat) : String := String.mk (List.replicate n 'a')

/-- A file system with a fresh store at `/t` and one file of one byte in `/w`, whose
name has `n` bytes. -/
def demoLongFs (n : Nat) : Node :=
  .dir 4096 [("t", .dir 4096 [("files", .dir 4096 []), ("info", .dir 4096 [])]),
    ("w", .dir 4096 [(longName n, .file [1])])]

/-- A file system whose store at `/t` holds one item named `20240102_030405_a.txt`
already, with two more files of that base name, `/w/a.txt` and `/v/a.txt`. -/
def demoBusyFs : Node :=
  .dir 4096 [("t", .dir 4096 [("files", .dir 4096 [("20240102_030405_a.txt", .file [9])]),
    ("info", .dir 4096 [("20240102_030405_a.txt.json", .file (demoCodec.marshal
      ⟨["u", "a.txt"], ["t", "files", "20240102_030405_a.txt"], demoTime, 1⟩))])]),
    ("w", .dir 4096 [("a.txt", .file [104, 105, 10])]),
    ("v", .dir 4096 [("a.txt", .file [1, 2])])]

/-- A file system with a fresh store at `/t` and two files of the same name of `n`
bytes, in `/w` and in `/v`. -/
def demoLongTwoFs (n : Nat) : Node :=
  .dir 4096 [("t", .dir 4096 [("files", .dir 4096 []), ("info", .dir 4096 [])]),
    ("w", .dir 4096 [(longName n, .file [1])]),
    ("v", .dir 4096 [(longName n, .file [2])])]

/-- A file system whose store at `/t` has an empty payload area and, in the metadata
area, a directory of the name `20240102_030405_a.txt.json`, with two files `/w/a.txt`
and `/v/a.txt`. -/
def demoRecordDirFs : Node :=
  .dir 4096 [("t", .dir 4096 [("files", .dir 4096 []),
    ("info", .dir 4096 [("20240102_030405_a.txt.json", .dir 4096 [])])]),
    ("w", .dir 4096 [("a.txt", .file [104, 105, 10])]),
    ("v", .dir 4096 [("a.txt", .file [1, 2])])]

/-- The state after `Put` of both files of `demoTwoFs`, in the same second. -/
def demoTwoTrashed : Node :=
  (putMany demoCodec (mkManager ["t"]) "/w" demoTwoFs
    [("a.txt", demoTime, demoTime), ("/v/a.txt", demoTime, demoTime)]).1

/-- The configuration `DefaultConfig` returns for the home directory `/home/u`. -/
def demoConfig : Config :=
  { TrashDir := "/home/u/.local/share/Trash", ConfirmDelete := true, UseFancyUI := false,
    AutoEmptyDays := 30, MaxTrashSizeMB := 1024 }

/-! ## Auxiliary definitions for the proofs -/

/-- Rewrites the listing of the directory at path `d` with `f`. -/
def modifyAt (f : List (String × Node) → List (String × Node)) : Node → Path → Except Errno Node
  | .file _, _ => .error .ENOTDIR
  | .dir s es, [] => .ok (.dir s (f es))
  | .dir s es, c :: cs =>
    match lookupEntry c es with
    | none => .error .ENOENT
    | some m =>
      match modifyAt f m cs with
      | .ok m1 => .ok (.dir s (setEntry c m1 es))
      | .error e => .error e

/-- The listing of the store root after `Empty`: both directories unlinked and
made again, empty. -/
def emptyListing (es : List (String × Node)) : List (String × Node) :=
  setEntry "info" (.dir freshDirSize []) (setEntry "files" (.dir freshDirSize [])
    (eraseEntry "info" (eraseEntry "files" es)))

/-- Two paths neither of which is the other or lies under the other. -/
def Apart (p q : Path) : Prop := ¬ p <+: q ∧ ¬ q <+: p

/-- The names the probing loop of `Put` tries, in order: the plain name first, then
the names with the suffixes 1, 2, 3 and so on. -/
def candidate (timestamp baseName : String) : Nat → String
  | 0 => timestamp ++ "_" ++ baseName
  | k + 1 => timestamp ++ "_" ++ baseName ++ "_" ++ Nat.repr (k + 1)

/-- Value of a string of decimal digits. -/
def decimalValue (cs : List Char) : Nat :=
  cs.foldl (fun a c => 10 * a + (c.toNat - 48)) 0

/-! ## Lemmas on names and paths -/

theorem splitSlash_of_not_mem (s cur : List Char) (h : '/' ∉ s) :
    splitSlash cur s = [cur ++ s] := by
  induction s generalizing cur with
  | nil => simp [splitSlash]
  | cons c rest ih =>
    have hc : c ≠ '/' := fun e => h (by simp [e])
    have hr : '/' ∉ rest := fun e => h (by simp [e])
    simp [splitSlash, hc, ih _ hr]

theorem splitSlash_noSlash (s cur : List Char) (hcur : '/' ∉ cur) :
    ∀ piece ∈ splitSlash cur s, '/' ∉ piece := by
  induction s generalizing cur with
  | nil => simp [splitSlash, hcur]
  | cons c rest ih =>
    intro piece hp
    by_cases hc : c = '/'
    · simp only [splitSlash, hc, if_true, List.mem_cons] at hp
      rcases hp with rfl | hp
      · exact hcur
      · exact ih [] (by simp) piece hp
    · simp only [splitSlash, hc, if_false] at hp
      refine ih (cur ++ [c]) ?_ piece hp
      simp only [List.mem_append, List.mem_singleton, not_or]
      exact ⟨hcur, fun e => hc e.symm⟩

theorem components_plain (s : String) (h : PlainName s) : components s = [s] := by
  obtain ⟨h1, h2, h3, _⟩ := h
  simp [components, splitSlash_of_not_mem _ _ h1, h2, h3]

theorem mem_components (s c : String) (h : c ∈ components s) :
    '/' ∉ c.data ∧ c ≠ "" ∧ c ≠ "." := by
  simp only [components, List.mem_filter, List.mem_map, decide_eq_true_eq] at h
  obtain ⟨⟨piece, hp, rfl⟩, h2, h3⟩ := h
  exact ⟨splitSlash_noSlash _ _ (by simp) piece hp, h2, h3⟩

theorem resolve_single (st : Path) (s : String) (h : s ≠ "..") : resolve st [s] = st ++ [s] := by
  simp [resolve, h]

theorem mem_resolve (cs : List String) (st : Path) (c : String) (h : c ∈ resolve st cs) :
    c ∈ st ∨ (c ∈ cs ∧ c ≠ "..") := by
  induction cs generalizing st with
  | nil => left; simpa [resolve] using h
  | cons d rest ih =>
    by_cases hd : d = ".."
    · simp only [resolve, hd, if_true] at h
      rcases ih _ h with h1 | h1
      · left; exact List.mem_of_mem_dropLast h1
      · right; exact ⟨List.mem_cons_of_mem _ h1.1, h1.2⟩
    · simp only [resolve, hd, if_false] at h
      rcases ih _ h with h1 | h1
      · simp only [List.mem_append, List.mem_singleton] at h1
        rcases h1 with h1 | rfl
        · left; exact h1
        · right; exact ⟨List.mem_cons_self _ _, hd⟩
      · right; exact ⟨List.mem_cons_of_mem _ h1.1, h1.2⟩

theorem clean_plain (s c : String) (h : c ∈ clean s) : PlainName c := by
  rcases mem_resolve _ _ _ h with h1 | ⟨h1, h2⟩
  · simp at h1
  · obtain ⟨a, b, d⟩ := mem_components _ _ h1
    exact ⟨a, b, d, h2⟩

theorem abs_plain (wd path c : String) (h : c ∈ abs wd path) : PlainName c := by
  unfold abs at h
  split at h <;> exact clean_plain _ _ h

theorem join_plain (d : Path) (s : String) (h : PlainName s) : join d s = d ++ [s] := by
  simp [join, components_plain s h, resolve_single _ _ h.2.2.2]

theorem base_mem (p : Path) (h : p ≠ []) : base p ∈ p := by
  unfold base
  cases hl : p.getLast? with
  | none => simp [List.getLast?_eq_none_iff] at hl; exact absurd hl h
  | some x => simpa using List.mem_of_getLast?_eq_some hl

theorem base_append_singleton (d : Path) (c : String) : base (d ++ [c]) = c := by
  simp [base]

theorem dirOf_append_singleton (d : Path) (c : String) : dirOf (d ++ [c]) = d := by
  simp [dirOf]

theorem digitChar_ne_slash (d : Nat) : Nat.digitChar d ≠ '/' := by
  by_cases h : d < 16
  · interval_cases d <;> decide
  · unfold Nat.digitChar
    iterate 16 rw [if_neg (by omega)]
    decide

theorem toDigitsCore_noSlash (fuel n : Nat) (acc : List Char) (hacc : '/' ∉ acc) :
    '/' ∉ Nat.toDigitsCore 10 fuel n acc := by
  induction fuel generalizing n acc with
  | zero => simpa [Nat.toDigitsCore] using hacc
  | succ f ih =>
    have hcons : '/' ∉ Nat.digitChar (n % 10) :: acc := by
      simp only [List.mem_cons, not_or]
      exact ⟨fun e => digitChar_ne_slash _ e.symm, hacc⟩
    simp only [Nat.toDigitsCore]
    split
    · exact hcons
    · exact ih _ _ hcons

theorem toDigits_noSlash (n : Nat) : '/' ∉ Nat.toDigits 10 n :=
  toDigitsCore_noSlash _ _ _ (by simp)

theorem repr_noSlash (n : Nat) : '/' ∉ (Nat.repr n).data := by
  simpa [Nat.repr, List.asString] using toDigits_noSlash n

theorem padDec_noSlash (w n : Nat) : '/' ∉ padDec w n := by
  simp only [padDec, List.mem_append, List.mem_replicate, not_or]
  exact ⟨fun h => by simp at h, toDigits_noSlash n⟩

theorem format_noSlash (t : Time) : '/' ∉ t.format.data := by
  simp only [Time.format, List.mem_append, List.mem_singleton, not_or]
  exact ⟨⟨⟨⟨⟨⟨padDec_noSlash _ _, padDec_noSlash _ _⟩, padDec_noSlash _ _⟩, by decide⟩,
    padDec_noSlash _ _⟩, padDec_noSlash _ _⟩, padDec_noSlash _ _⟩

/-- A string containing an underscore is none of the special names. -/
theorem plain_of_underscore (s : String) (h1 : '/' ∉ s.data) (h2 : '_' ∈ s.data) :
    PlainName s := by
  refine ⟨h1, ?_, ?_, ?_⟩ <;> rintro rfl <;> simp at h2

theorem trashName_plain (ts b : String) (hts : '/' ∉ ts.data) (hb : '/' ∉ b.data) :
    PlainName (ts ++ "_" ++ b) := by
  apply plain_of_underscore
  · simp [String.data_append, hts, hb]
  · simp [String.data_append]

theorem trashName_counter_plain (ts b : String) (k : Nat) (hts : '/' ∉ ts.data)
    (hb : '/' ∉ b.data) : PlainName (ts ++ "_" ++ b ++ "_" ++ Nat.repr k) := by
  apply plain_of_underscore
  · simp [String.data_append, hts, hb, repr_noSlash]
  · simp [String.data_append]

theorem json_plain (n : String) (h : '/' ∉ n.data) : PlainName (n ++ ".json") := by
  refine ⟨by simp [String.data_append, h], ?_, ?_, ?_⟩ <;> intro e <;>
    · have := congrArg (fun s => 'j' ∈ String.data s) e
      simp [String.data_append] at this

theorem json_inj (a b : String) (h : a ++ ".json" = b ++ ".json") : a = b := by
  have := congrArg String.data h
  simp only [String.data_append] at this
  exact String.ext (List.append_cancel_right this)

theorem extChars_json (cs : List Char) : extChars (cs ++ ".json".data) = some ".json".data := by
  induction cs with
  | nil => decide
  | cons c rest ih => simp [extChars, ih]

theorem ext_json (n : String) : ext (n ++ ".json") = ".json" := by
  have h := extChars_json n.data
  simp only [ext, String.data_append, h]

/-! ## The concrete codec is lawful -/

theorem decStr_encStr (s : String) (rest : List Nat) :
    decStr (encStr s ++ rest) = some (s, rest) := by
  have h1 : (s.data.map Char.toNat).length = s.data.length := by simp
  have h2 : ((s.data.map Char.toNat ++ rest).take s.data.length).map Char.ofNat = s.data := by
    rw [← h1, List.take_left, List.map_map]
    have : (Char.ofNat ∘ Char.toNat) = id := by
      funext c
      simp [Char.ofNat_toNat]
    rw [this, List.map_id]
  have h3 : (s.data.map Char.toNat ++ rest).drop s.data.length = rest := by
    rw [← h1, List.drop_left]
  simp only [encStr, List.cons_append, decStr, List.length_append, List.length_map,
    Nat.le_add_right, if_true, h2, h3]

theorem decStrs_encStrs (p : List String) (rest : List Nat) :
    decStrs p.length (encStrs p ++ rest) = some (p, rest) := by
  induction p with
  | nil => rfl
  | cons s ss ih =>
    simp only [List.length_cons, encStrs, List.append_assoc, decStrs, decStr_encStr, ih]

theorem decPath_encPath (p : Path) (rest : List Nat) :
    decPath (encPath p ++ rest) = some (p, rest) := by
  simp only [encPath, List.cons_append, decPath, decStrs_encStrs]

theorem demoCodec_lawful : demoCodec.Lawful := by
  intro i
  simp only [demoCodec, decPath_encPath]


/-! ## Lemmas on the file-system tree -/

theorem lookupEntry_setEntry (c c2 : String) (n : Node) (es : List (String × Node)) :
    lookupEntry c2 (setEntry c n es) = if c2 = c then some n else lookupEntry c2 es := by
  induction es with
  | nil =>
    by_cases h : c2 = c
    · simp [setEntry, lookupEntry, h]
    · simp [setEntry, lookupEntry, h, Ne.symm h]
  | cons e rest ih =>
    by_cases he : e.1 = c
    · by_cases h : c2 = c
      · simp [setEntry, lookupEntry, he, h]
      · simp [setEntry, lookupEntry, he, h, Ne.symm h]
    · by_cases h : c2 = c
      · subst h
        simp [setEntry, lookupEntry, he, ih]
      · by_cases h2 : e.1 = c2
        · simp [setEntry, lookupEntry, he, h, h2]
        · simp [setEntry, lookupEntry, he, h, h2, ih]

theorem lookupEntry_eraseEntry (c c2 : String) (es : List (String × Node)) :
    lookupEntry c2 (eraseEntry c es) = if c2 = c then none else lookupEntry c2 es := by
  induction es with
  | nil => simp [eraseEntry, lookupEntry]
  | cons e rest ih =>
    by_cases h : c2 = c
    · subst h
      simp only [if_true] at ih ⊢
      by_cases he : e.1 = c2
      · simp only [eraseEntry, he, if_true, ih]
      · simp only [eraseEntry, he, if_false, lookupEntry, ih]
    · simp only [h, if_false] at ih ⊢
      by_cases he : e.1 = c
      · have h3 : ¬ e.1 = c2 := fun x => h (x.symm.trans he)
        simp only [eraseEntry, he, if_true, ih, lookupEntry, h3, if_false]
        rw [if_neg (fun x => h x.symm)]
      · simp only [eraseEntry, he, if_false, lookupEntry, ih]

theorem lookupEntry_bindEntry (v : Option Node) (c c2 : String) (es : List (String × Node)) :
    lookupEntry c2 (bindEntry v c es) = if c2 = c then v else lookupEntry c2 es := by
  cases v with
  | none => simp [bindEntry, lookupEntry_eraseEntry]
  | some n => simp [bindEntry, lookupEntry_setEntry]

theorem missing_of_le (c : String) (h : nameBytes c ≤ nameMax) : missing c = .ENOENT := by
  simp [missing, Nat.not_lt.mpr h]

theorem missing_of_lt (c : String) (h : nameMax < nameBytes c) : missing c = .ENAMETOOLONG := by
  simp [missing, h]

theorem missing_eq_enoent (c : String) (h : missing c = .ENOENT) : nameBytes c ≤ nameMax := by
  unfold missing at h
  split at h
  · cases h
  · omega

theorem nameBytes_append (a b : String) : nameBytes (a ++ b) = nameBytes a + nameBytes b := by
  show String.utf8Len (a ++ b).data = String.utf8Len a.data + String.utf8Len b.data
  rw [String.data_append, String.utf8Len_append]

theorem nameBytes_json (n : String) : nameBytes (n ++ ".json") = nameBytes n + 5 := by
  rw [nameBytes_append]
  rfl

theorem stat_nil (fs : Node) : stat fs [] = .ok fs := by
  cases fs <;> rfl

theorem stat_file_cons (b : List Nat) (c : String) (cs : Path) :
    stat (.file b) (c :: cs) = .error .ENOTDIR := rfl

theorem stat_dir_cons (s : Nat) (es : List (String × Node)) (c : String) (cs : Path) :
    stat (.dir s es) (c :: cs) =
      match lookupEntry c es with
      | none => .error (missing c)
      | some m => stat m cs := rfl

theorem stat_append (p q : Path) (fs : Node) :
    stat fs (p ++ q) =
      match stat fs p with
      | .ok n => stat n q
      | .error e => .error e := by
  induction p generalizing fs with
  | nil => simp [stat_nil]
  | cons c cs ih =>
    cases fs with
    | file b => simp [stat_file_cons]
    | dir s es =>
      simp only [List.cons_append, stat_dir_cons]
      cases lookupEntry c es with
      | none => rfl
      | some m => exact ih m

theorem updateAt_dir_cons (v : Option Node) (s : Nat) (es : List (String × Node)) (c : String)
    (cs : Path) (h : cs ≠ []) :
    updateAt v (.dir s es) (c :: cs) =
      match lookupEntry c es with
      | none => .error .ENOENT
      | some m =>
        match updateAt v m cs with
        | .ok m1 => .ok (.dir s (setEntry c m1 es))
        | .error e => .error e := by
  cases cs with
  | nil => exact absurd rfl h
  | cons d ds => rfl

theorem updateAt_dir_single (v : Option Node) (s : Nat) (es : List (String × Node)) (c : String) :
    updateAt v (.dir s es) [c] = .ok (.dir s (bindEntry v c es)) := rfl

/-- Linking or unlinking a name in an existing directory succeeds and changes
exactly that name in the listing of the directory. -/
theorem updateAt_snoc (v : Option Node) (c : String) (d : Path) (fs : Node) (s : Nat)
    (es : List (String × Node)) (h : stat fs d = .ok (.dir s es)) :
    ∃ fs1, updateAt v fs (d ++ [c]) = .ok fs1 ∧ stat fs1 d = .ok (.dir s (bindEntry v c es)) := by
  induction d generalizing fs with
  | nil =>
    rw [stat_nil] at h
    cases h
    exact ⟨_, rfl, stat_nil _⟩
  | cons a d1 ih =>
    cases fs with
    | file b => simp [stat_file_cons] at h
    | dir s0 es0 =>
      rw [stat_dir_cons] at h
      cases hl : lookupEntry a es0 with
      | none => simp [hl] at h
      | some m =>
        simp only [hl] at h
        obtain ⟨m1, hm1, hs1⟩ := ih m h
        refine ⟨.dir s0 (setEntry a m1 es0), ?_, ?_⟩
        · rw [List.cons_append, updateAt_dir_cons _ _ _ _ _ (by simp)]
          simp [hl, hm1]
        · rw [stat_dir_cons, lookupEntry_setEntry]
          simpa using hs1

/-- An update leaves every path alone that is neither above nor below it. -/
theorem updateAt_frame (v : Option Node) (p : Path) (fs fs1 : Node) (q : Path)
    (h : updateAt v fs p = .ok fs1) (h1 : ¬ p <+: q) (h2 : ¬ q <+: p) :
    stat fs1 q = stat fs q := by
  induction p generalizing fs fs1 q with
  | nil => exact absurd List.nil_prefix h1
  | cons c cs ih =>
    cases fs with
    | file b => cases cs <;> simp [updateAt] at h
    | dir s es =>
      cases q with
      | nil => exact absurd List.nil_prefix h2
      | cons c2 r =>
        by_cases hcs : cs = []
        · subst hcs
          rw [updateAt_dir_single] at h
          cases h
          have hne : c2 ≠ c := by
            intro e
            subst e
            exact h1 (by simp [List.prefix_cons_inj])
          simp [stat_dir_cons, lookupEntry_bindEntry, hne]
        · rw [updateAt_dir_cons _ _ _ _ _ hcs] at h
          cases hl : lookupEntry c es with
          | none => simp [hl] at h
          | some m =>
            simp only [hl] at h
            cases hu : updateAt v m cs with
            | error e => simp [hu] at h
            | ok m1 =>
              simp only [hu] at h
              cases h
              simp only [stat_dir_cons, lookupEntry_setEntry]
              by_cases hc : c2 = c
              · subst hc
                simp only [if_true, hl]
                apply ih m m1 r hu
                · intro hp; exact h1 ((List.prefix_cons_inj _).mpr hp)
                · intro hp; exact h2 ((List.prefix_cons_inj _).mpr hp)
              · simp [hc]

/-- An update keeps every proper ancestor of its path a directory. -/
theorem updateAt_ancestor (v : Option Node) (q t : Path) (fs fs1 : Node)
    (h : updateAt v fs (q ++ t) = .ok fs1) (ht : t ≠ []) :
    ∃ s es es1, stat fs q = .ok (.dir s es) ∧ stat fs1 q = .ok (.dir s es1) := by
  induction q generalizing fs fs1 with
  | nil =>
    cases fs with
    | file b =>
      cases t with
      | nil => exact absurd rfl ht
      | cons a r => cases r <;> simp [updateAt] at h
    | dir s es =>
      cases t with
      | nil => exact absurd rfl ht
      | cons a r =>
        by_cases hr : r = []
        · subst hr
          simp only [List.nil_append, updateAt_dir_single] at h
          cases h
          exact ⟨s, es, _, stat_nil _, stat_nil _⟩
        · simp only [List.nil_append, updateAt_dir_cons _ _ _ _ _ hr] at h
          cases hl : lookupEntry a es with
          | none => simp [hl] at h
          | some m =>
            simp only [hl] at h
            cases hu : updateAt v m r with
            | error e => simp [hu] at h
            | ok m1 =>
              simp only [hu] at h
              cases h
              exact ⟨s, es, _, stat_nil _, stat_nil _⟩
  | cons c cs ih =>
    cases fs with
    | file b => simp [updateAt] at h
    | dir s es =>
      rw [List.cons_append, updateAt_dir_cons _ _ _ _ _ (by simp [ht])] at h
      cases hl : lookupEntry c es with
      | none => simp [hl] at h
      | some m =>
        simp only [hl] at h
        cases hu : updateAt v m (cs ++ t) with
        | error e => simp [hu] at h
        | ok m1 =>
          simp only [hu] at h
          cases h
          obtain ⟨s1, e1, e2, ha, hb⟩ := ih m m1 hu
          refine ⟨s1, e1, e2, ?_, ?_⟩
          · simpa [stat_dir_cons, hl] using ha
          · simpa [stat_dir_cons, lookupEntry_setEntry] using hb

theorem setEntry_of_lookup_none (c : String) (n : Node) (es : List (String × Node))
    (h : lookupEntry c es = none) : setEntry c n es = es ++ [(c, n)] := by
  induction es with
  | nil => rfl
  | cons e rest ih =>
    by_cases he : e.1 = c
    · simp [lookupEntry, he] at h
    · simp only [lookupEntry, he, if_false] at h
      simp [setEntry, he, ih h]

theorem eraseEntry_of_lookup_none (c : String) (es : List (String × Node))
    (h : lookupEntry c es = none) : eraseEntry c es = es := by
  induction es with
  | nil => rfl
  | cons e rest ih =>
    by_cases he : e.1 = c
    · simp [lookupEntry, he] at h
    · simp only [lookupEntry, he, if_false] at h
      simp [eraseEntry, he, ih h]

theorem setEntry_of_lookup_some (c : String) (n : Node) (es : List (String × Node))
    (h : lookupEntry c es = some n) : setEntry c n es = es := by
  induction es with
  | nil => simp [lookupEntry] at h
  | cons e rest ih =>
    by_cases he : e.1 = c
    · simp only [lookupEntry, he, if_true, Option.some.injEq] at h
      simp only [setEntry, he, if_true]
      rw [← he, ← h]
    · simp only [lookupEntry, he, if_false] at h
      simp [setEntry, he, ih h]

theorem setEntry_setEntry (c : String) (n1 n2 : Node) (es : List (String × Node)) :
    setEntry c n2 (setEntry c n1 es) = setEntry c n2 es := by
  induction es with
  | nil => simp [setEntry]
  | cons e rest ih =>
    by_cases he : e.1 = c
    · simp [setEntry, he]
    · simp [setEntry, he, ih]

theorem eraseEntry_append (c : String) (xs ys : List (String × Node)) :
    eraseEntry c (xs ++ ys) = eraseEntry c xs ++ eraseEntry c ys := by
  induction xs with
  | nil => rfl
  | cons e rest ih =>
    by_cases he : e.1 = c
    · simp [eraseEntry, he, ih]
    · simp [eraseEntry, he, ih]

theorem modifyAt_eq_updateAt (v : Option Node) (c : String) (d : Path) (fs : Node) :
    updateAt v fs (d ++ [c]) = modifyAt (bindEntry v c) fs d := by
  induction d generalizing fs with
  | nil =>
    cases fs with
    | file b => rfl
    | dir s es => rfl
  | cons a d1 ih =>
    cases fs with
    | file b => rfl
    | dir s es =>
      rw [List.cons_append, updateAt_dir_cons _ _ _ _ _ (by simp)]
      simp only [modifyAt]
      cases lookupEntry a es with
      | none => rfl
      | some m =>
        dsimp only
        rewrite [ih m]
        rfl

theorem modifyAt_comp (f g : List (String × Node) → List (String × Node)) (d : Path)
    (fs fs1 : Node) (h : modifyAt f fs d = .ok fs1) :
    modifyAt g fs1 d = modifyAt (g ∘ f) fs d := by
  induction d generalizing fs fs1 with
  | nil =>
    cases fs with
    | file b => simp [modifyAt] at h
    | dir s es =>
      simp only [modifyAt, Except.ok.injEq] at h
      subst h
      rfl
  | cons c cs ih =>
    cases fs with
    | file b => simp [modifyAt] at h
    | dir s es =>
      simp only [modifyAt] at h
      cases hl : lookupEntry c es with
      | none => simp [hl] at h
      | some m =>
        simp only [hl] at h
        cases hu : modifyAt f m cs with
        | error e => simp [hu] at h
        | ok m1 =>
          simp only [hu, Except.ok.injEq] at h
          subst h
          simp only [modifyAt, lookupEntry_setEntry, if_true, hl, ih m m1 hu]
          cases modifyAt (g ∘ f) m cs with
          | error e => rfl
          | ok m2 => simp [setEntry_setEntry]

theorem modifyAt_stat (f : List (String × Node) → List (String × Node)) (d : Path)
    (fs : Node) (s : Nat) (es : List (String × Node)) (h : stat fs d = .ok (.dir s es)) :
    ∃ fs1, modifyAt f fs d = .ok fs1 ∧ stat fs1 d = .ok (.dir s (f es)) := by
  induction d generalizing fs with
  | nil =>
    rw [stat_nil] at h
    cases h
    exact ⟨_, rfl, stat_nil _⟩
  | cons a d1 ih =>
    cases fs with
    | file b => simp [stat_file_cons] at h
    | dir s0 es0 =>
      rw [stat_dir_cons] at h
      cases hl : lookupEntry a es0 with
      | none => simp [hl] at h
      | some m =>
        simp only [hl] at h
        obtain ⟨m1, hm1, hs1⟩ := ih m h
        refine ⟨.dir s0 (setEntry a m1 es0), ?_, ?_⟩
        · simp [modifyAt, hl, hm1]
        · rw [stat_dir_cons, lookupEntry_setEntry]
          simpa using hs1

theorem modifyAt_id (f : List (String × Node) → List (String × Node)) (d : Path)
    (fs : Node) (s : Nat) (es : List (String × Node)) (h : stat fs d = .ok (.dir s es))
    (hf : f es = es) : modifyAt f fs d = .ok fs := by
  induction d generalizing fs with
  | nil =>
    rw [stat_nil] at h
    cases h
    simp [modifyAt, hf]
  | cons a d1 ih =>
    cases fs with
    | file b => simp [stat_file_cons] at h
    | dir s0 es0 =>
      rw [stat_dir_cons] at h
      cases hl : lookupEntry a es0 with
      | none => simp [hl] at h
      | some m =>
        simp only [hl] at h
        simp [modifyAt, hl, ih m h, setEntry_of_lookup_some _ _ _ hl]

theorem prefix_snoc_iff (p d : Path) (c : String) :
    p <+: d ++ [c] ↔ p = d ++ [c] ∨ p <+: d := by
  simpa using @List.prefix_concat_iff _ p d c

theorem stat_ok_of_prefix (fs : Node) (p q : Path) (n : Node) (h : stat fs q = .ok n)
    (hp : p <+: q) : ∃ m, stat fs p = .ok m := by
  obtain ⟨t, rfl⟩ := hp
  rw [stat_append] at h
  cases hs : stat fs p with
  | error e => simp [hs] at h
  | ok m => exact ⟨m, rfl⟩

theorem file_prefix_eq (fs : Node) (p q : Path) (b : List Nat) (n : Node)
    (hp : stat fs p = .ok (.file b)) (hq : stat fs q = .ok n) (h : p <+: q) : p = q := by
  obtain ⟨t, rfl⟩ := h
  rw [stat_append, hp] at hq
  cases t with
  | nil => simp
  | cons a r => simp [stat_file_cons] at hq

theorem stat_snoc_of_parent (fs : Node) (d : Path) (s : Nat) (es : List (String × Node))
    (c : String) (r : Path) (h : stat fs d = .ok (.dir s es)) :
    stat fs (d ++ c :: r) =
      match lookupEntry c es with
      | none => .error (missing c)
      | some m => stat m r := by
  rw [stat_append, h]
  rfl

theorem stat_snoc_parent (fs : Node) (d : Path) (c : String) (n : Node)
    (h : stat fs (d ++ [c]) = .ok n) :
    ∃ s es, stat fs d = .ok (.dir s es) ∧ lookupEntry c es = some n := by
  rw [stat_append] at h
  cases hs : stat fs d with
  | error e => simp [hs] at h
  | ok m =>
    simp only [hs] at h
    cases m with
    | file b => simp [stat_file_cons] at h
    | dir s es =>
      rw [stat_dir_cons] at h
      cases hl : lookupEntry c es with
      | none => simp [hl] at h
      | some k =>
        simp only [hl, stat_nil, Except.ok.injEq] at h
        exact ⟨s, es, rfl, by rw [hl, h]⟩

theorem sibling_not_prefix (d : Path) (a b : String) (x y : Path) (h : a ≠ b) :
    ¬ (d ++ a :: x) <+: (d ++ b :: y) := by
  intro hp
  rw [List.prefix_append_right_inj] at hp
  obtain ⟨t, ht⟩ := hp
  simp only [List.cons_append, List.cons.injEq] at ht
  exact h ht.1

/-- A successful update of the name `c` in directory `d`: the directory existed and
its listing changed at that name only. -/
theorem updateAt_ok_listing (v : Option Node) (c : String) (d : Path) (fs fs1 : Node)
    (h : updateAt v fs (d ++ [c]) = .ok fs1) :
    ∃ s es, stat fs d = .ok (.dir s es) ∧ stat fs1 d = .ok (.dir s (bindEntry v c es)) := by
  obtain ⟨s, es, _, h1, _⟩ := updateAt_ancestor v d [c] fs fs1 h (by simp)
  obtain ⟨fs2, h2, h3⟩ := updateAt_snoc v c d fs s es h1
  rw [h] at h2
  cases h2
  exact ⟨s, es, h1, h3⟩

theorem updateAt_self (v : Option Node) (c : String) (d r : Path) (fs fs1 : Node)
    (h : updateAt v fs (d ++ [c]) = .ok fs1) :
    stat fs1 (d ++ c :: r) =
      match v with
      | none => .error (missing c)
      | some n => stat n r := by
  obtain ⟨s, es, _, h2⟩ := updateAt_ok_listing v c d fs fs1 h
  rw [stat_snoc_of_parent _ _ _ _ _ _ h2, lookupEntry_bindEntry]
  cases v <;> simp

theorem path_eq_snoc (p : Path) (h : p ≠ []) : p = p.dropLast ++ [base p] := by
  unfold base
  have := List.dropLast_append_getLast? (l := p)
  cases hl : p.getLast? with
  | none => simp [List.getLast?_eq_none_iff] at hl; exact absurd hl h
  | some x => simpa using (this x hl).symm

theorem rename_ok_intro (fs fs1 fs2 : Node) (src dst : Path) (node : Node)
    (h1 : stat fs src = .ok node) (h2 : src ≠ []) (h3 : ¬ src <+: dst)
    (h4 : stat fs dst = .error .ENOENT) (h5 : updateAt none fs src = .ok fs1)
    (h6 : updateAt (some node) fs1 dst = .ok fs2) : rename fs src dst = .ok fs2 := by
  have h7 : src ≠ dst := fun e => h3 (e ▸ List.prefix_refl _)
  simp [rename, h1, h2, h3, h4, h5, h6, h7]

theorem rename_ok_inv (fs fs2 : Node) (src dst : Path) (e : Errno)
    (h : rename fs src dst = .ok fs2) (hd : stat fs dst = .error e) :
    ∃ node fs1, stat fs src = .ok node ∧ src ≠ [] ∧ ¬ src <+: dst ∧
      stat fs dst = .error .ENOENT ∧
      updateAt none fs src = .ok fs1 ∧ updateAt (some node) fs1 dst = .ok fs2 := by
  unfold rename at h
  cases hs : stat fs src with
  | error e1 => simp [hs] at h
  | ok node =>
    simp only [hs] at h
    by_cases h2 : src = []
    · simp [h2] at h
    · by_cases h7 : src = dst
      · subst h7
        rw [hs] at hd
        cases hd
      · by_cases h3 : src <+: dst
        · simp only [h2, h7, h3, if_false, if_true] at h
          split at h <;> cases h
        · simp only [h2, h7, h3, if_false, hd] at h
          cases e with
          | ENOENT =>
            simp only at h
            cases hu : updateAt none fs src with
            | error e1 => simp [hu] at h
            | ok fs1 =>
              simp only [hu] at h
              exact ⟨node, fs1, rfl, h2, h3, hd, rfl, h⟩
          | _ => simp at h

theorem stat_child (fs : Node) (d : Path) (s : Nat) (es : List (String × Node)) (c : String)
    (n : Node) (h : stat fs d = .ok (.dir s es)) (hl : lookupEntry c es = some n) :
    stat fs (d ++ [c]) = .ok n := by
  rw [stat_snoc_of_parent _ _ _ _ _ _ h, hl]
  exact stat_nil n

theorem updateAt_none_stat (p : Path) (fs fs1 : Node) (h : updateAt none fs p = .ok fs1) :
    stat fs1 p = .error (missing (base p)) := by
  have hp : p ≠ [] := by
    intro e
    subst e
    cases fs <;> simp [updateAt] at h
  have heq := path_eq_snoc p hp
  have h2 := h
  rw [heq] at h2
  exact (congrArg (stat fs1) heq).trans (updateAt_self none _ _ [] _ _ h2)

theorem updateAt_some_stat (n : Node) (p : Path) (fs fs1 : Node)
    (h : updateAt (some n) fs p = .ok fs1) : stat fs1 p = .ok n := by
  have hp : p ≠ [] := by
    intro e
    subst e
    cases fs <;> simp [updateAt] at h
  have heq := path_eq_snoc p hp
  have h2 := h
  rw [heq] at h2
  exact (congrArg (stat fs1) heq).trans ((updateAt_self (some n) _ _ [] _ _ h2).trans (stat_nil n))

theorem not_prefix_of_error (fs : Node) (p q : Path) (e : Errno) (n : Node)
    (hp : stat fs p = .error e) (hq : stat fs q = .ok n) : ¬ p <+: q := by
  intro h
  obtain ⟨m, hm⟩ := stat_ok_of_prefix _ _ _ _ hq h
  rw [hp] at hm
  cases hm

/-- An update keeps every directory that is not at or below its path. -/
theorem updateAt_keeps_dir (v : Option Node) (p q : Path) (fs fs1 : Node) (s : Nat)
    (es : List (String × Node)) (h : updateAt v fs p = .ok fs1)
    (hq : stat fs q = .ok (.dir s es)) (hpq : ¬ p <+: q) :
    ∃ es1, stat fs1 q = .ok (.dir s es1) := by
  by_cases hqp : q <+: p
  · obtain ⟨t, ht⟩ := hqp
    have htne : t ≠ [] := by
      intro e
      subst e
      rw [List.append_nil] at ht
      exact hpq (ht ▸ List.prefix_refl _)
    rw [← ht] at h
    obtain ⟨s0, es0, es1, h1, h2⟩ := updateAt_ancestor _ _ _ _ _ h htne
    rw [hq] at h1
    cases h1
    exact ⟨es1, h2⟩
  · exact ⟨es, by rw [updateAt_frame _ _ _ _ _ h hpq hqp, hq]⟩

theorem not_prefix_of_snoc (p d : Path) (c : String) (h : ¬ d <+: p) : ¬ (d ++ [c]) <+: p :=
  fun hp => h ((List.prefix_append d [c]).trans hp)

/-! ## The steps of `Put` -/

theorem isNotExist_iff {α : Type} (r : Except Errno α) :
    isNotExist r = true ↔ r = .error .ENOENT := by
  cases r with
  | ok a => simp [isNotExist]
  | error e => cases e <;> simp [isNotExist]

theorem probe_some (fs : Node) (fd : Path) (ts b : String) (fuel k : Nat) (name tn : String)
    (h : probe fs fd ts b fuel k name = some tn) :
    stat fs (join fd tn) = .error .ENOENT ∧
      (tn = name ∨ ∃ i, tn = ts ++ "_" ++ b ++ "_" ++ Nat.repr i) := by
  induction fuel generalizing k name with
  | zero => simp [probe] at h
  | succ f ih =>
    simp only [probe] at h
    split at h
    · rename_i hne
      cases h
      exact ⟨(isNotExist_iff _).mp hne, Or.inl rfl⟩
    · obtain ⟨h1, h2⟩ := ih _ _ h
      refine ⟨h1, Or.inr ?_⟩
      rcases h2 with h2 | h2
      · exact ⟨k, h2⟩
      · exact h2

theorem probe_free (fs : Node) (fd : Path) (ts b : String) (fuel k : Nat) (name : String)
    (h : stat fs (join fd name) = .error .ENOENT) :
    probe fs fd ts b (fuel + 1) k name = some name := by
  simp [probe, h, isNotExist]

theorem lookup_none_of_enoent (fs : Node) (d : Path) (s : Nat) (es : List (String × Node))
    (c : String) (h : stat fs d = .ok (.dir s es)) (h2 : stat fs (d ++ [c]) = .error .ENOENT) :
    lookupEntry c es = none := by
  rw [stat_snoc_of_parent _ _ _ _ _ _ h] at h2
  cases hl : lookupEntry c es with
  | none => rfl
  | some m => simp [hl, stat_nil] at h2

theorem missing_of_lookup_none (fs : Node) (d : Path) (s : Nat) (es : List (String × Node))
    (c : String) (r : Path) (h : stat fs d = .ok (.dir s es)) (h2 : lookupEntry c es = none) :
    stat fs (d ++ c :: r) = .error (missing c) := by
  rw [stat_snoc_of_parent _ _ _ _ _ _ h, h2]

theorem enoent_of_lookup_none (fs : Node) (d : Path) (s : Nat) (es : List (String × Node))
    (c : String) (r : Path) (h : stat fs d = .ok (.dir s es)) (h2 : lookupEntry c es = none)
    (hc : nameBytes c ≤ nameMax) : stat fs (d ++ c :: r) = .error .ENOENT := by
  rw [missing_of_lookup_none _ _ _ _ _ _ h h2, missing_of_le _ hc]

/-- A name that `stat` reports as not existing in an existing directory has no
entry there and is within the length limit. -/
theorem short_of_enoent (fs : Node) (d : Path) (s : Nat) (es : List (String × Node))
    (c : String) (h : stat fs d = .ok (.dir s es)) (h2 : stat fs (d ++ [c]) = .error .ENOENT) :
    nameBytes c ≤ nameMax := by
  rw [stat_snoc_of_parent _ _ _ _ _ _ h] at h2
  cases hl : lookupEntry c es with
  | none =>
    simp only [hl, Except.error.injEq] at h2
    exact missing_eq_enoent _ h2
  | some m => simp [hl, stat_nil] at h2

/-- What a successful name probe in `Put` gives: a plain name, free in the payload
directory. -/
theorem probe_plain (fs : Node) (fd : Path) (t : Time) (a : Path) (fuel : Nat) (tn : String)
    (ha : a ≠ []) (hpl : ∀ c ∈ a, PlainName c)
    (h : probe fs fd t.format (base a) fuel 1 (t.format ++ "_" ++ base a) = some tn) :
    PlainName tn ∧ stat fs (fd ++ [tn]) = .error .ENOENT := by
  obtain ⟨h1, h2⟩ := probe_some _ _ _ _ _ _ _ _ h
  have hb : '/' ∉ (base a).data := (hpl _ (base_mem a ha)).1
  have hp : PlainName tn := by
    rcases h2 with rfl | ⟨i, rfl⟩
    · exact trashName_plain _ _ (format_noSlash t) hb
    · exact trashName_counter_plain _ _ _ (format_noSlash t) hb
  rw [join_plain _ _ hp] at h1
  exact ⟨hp, h1⟩

theorem writeFile_eq (fs : Node) (p : Path) (data : List Nat)
    (h : ∀ s es, stat fs p ≠ .ok (.dir s es))
    (h2 : ∀ e, stat fs p = .error e → e = .ENOENT) :
    writeFile fs p data = updateAt (some (.file data)) fs p := by
  unfold writeFile
  split
  · rename_i s es hs
    exact absurd hs (h s es)
  · rfl
  · rfl
  · rename_i e hne hs
    exact absurd (h2 e hs) hne

/-- The status of a record name in the metadata directory: a file, or missing with
a name within the length limit, can be written. -/
theorem writeFile_child (fs : Node) (d : Path) (s : Nat) (es : List (String × Node))
    (c : String) (data : List Nat) (h : stat fs d = .ok (.dir s es))
    (hrec : ∀ s1 es1, lookupEntry c es ≠ some (.dir s1 es1))
    (hc : lookupEntry c es = none → nameBytes c ≤ nameMax) :
    writeFile fs (d ++ [c]) data = updateAt (some (.file data)) fs (d ++ [c]) := by
  apply writeFile_eq
  · intro s1 es1 hs
    obtain ⟨s3, es3, h3, h4⟩ := stat_snoc_parent _ _ _ _ hs
    rw [h] at h3
    cases h3
    exact hrec _ _ h4
  · intro e he
    rw [stat_snoc_of_parent _ _ _ _ _ _ h] at he
    cases hl : lookupEntry c es with
    | none =>
      simp only [hl, Except.error.injEq] at he
      rw [← he, missing_of_le _ (hc hl)]
    | some m => simp [hl, stat_nil] at he

/-- A record whose name is beyond the length limit and has no entry cannot be
written. -/
theorem writeFile_long (fs : Node) (d : Path) (s : Nat) (es : List (String × Node))
    (c : String) (data : List Nat) (h : stat fs d = .ok (.dir s es))
    (hl : lookupEntry c es = none) (hc : nameMax < nameBytes c) :
    writeFile fs (d ++ [c]) data = .error .ENAMETOOLONG := by
  have hs : stat fs (d ++ [c]) = .error .ENAMETOOLONG := by
    rw [missing_of_lookup_none _ _ _ _ _ _ h hl, missing_of_lt _ hc]
  simp only [writeFile, hs]

theorem files_info_not_prefix (root x y : Path) :
    ¬ (root ++ ["files"] ++ x) <+: (root ++ ["info"] ++ y) := by
  simp

theorem info_files_not_prefix (root x y : Path) :
    ¬ (root ++ ["info"] ++ x) <+: (root ++ ["files"] ++ y) := by
  simp

/-- The move of `Put`, once the probe has found the name `tn`, for a source that is
neither inside nor above the two store directories. -/
theorem put_rename_spec (root : Path) (wd path : String) (fs : Node) (now : Time)
    (node : Node) (s1 s2 : Nat) (es1 es2 : List (String × Node)) (tn : String)
    (hsrc : stat fs (abs wd path) = .ok node)
    (hfd : stat fs (root ++ ["files"]) = .ok (.dir s1 es1))
    (hid : stat fs (root ++ ["info"]) = .ok (.dir s2 es2))
    (ho1 : ¬ (root ++ ["files"]) <+: abs wd path) (ho2 : ¬ (root ++ ["info"]) <+: abs wd path)
    (ha1 : ¬ abs wd path <+: (root ++ ["files"])) (ha2 : ¬ abs wd path <+: (root ++ ["info"]))
    (hprobe : probe fs (root ++ ["files"]) now.format (base (abs wd path))
      (probeFuel fs (root ++ ["files"])) 1 (now.format ++ "_" ++ base (abs wd path)) = some tn) :
    ∃ fs2, rename fs (abs wd path) (root ++ ["files"] ++ [tn]) = .ok fs2 ∧
      PlainName tn ∧ lookupEntry tn es1 = none ∧ nameBytes tn ≤ nameMax ∧
      stat fs2 (root ++ ["files"]) = .ok (.dir s1 (es1 ++ [(tn, node)])) ∧
      stat fs2 (root ++ ["info"]) = .ok (.dir s2 es2) ∧
      stat fs2 (abs wd path) = .error .ENOENT ∧
      (∀ q, ¬ abs wd path <+: q → ¬ q <+: abs wd path →
        ¬ (root ++ ["files"] ++ [tn]) <+: q → ¬ q <+: (root ++ ["files"] ++ [tn]) →
        stat fs2 q = stat fs q) ∧
      ∀ q s es, stat fs q = .ok (.dir s es) → ¬ abs wd path <+: q →
        ¬ (root ++ ["files"] ++ [tn]) <+: q → ∃ es3, stat fs2 q = .ok (.dir s es3) := by
  have hane : abs wd path ≠ [] := fun e => ha1 (e ▸ List.nil_prefix)
  obtain ⟨hpl, hfree⟩ := probe_plain fs _ now _ _ tn hane (fun c hc => abs_plain wd path c hc) hprobe
  have hl1 : lookupEntry tn es1 = none := lookup_none_of_enoent _ _ _ _ _ hfd hfree
  have hshort : nameBytes tn ≤ nameMax := short_of_enoent _ _ _ _ _ hfd hfree
  have hbase : nameBytes (base (abs wd path)) ≤ nameMax := by
    have h1 := (probe_some _ _ _ _ _ _ _ _ hprobe).2
    rcases h1 with h1 | ⟨i, h1⟩
    · rw [h1, nameBytes_append] at hshort
      omega
    · rw [h1, nameBytes_append, nameBytes_append, nameBytes_append] at hshort
      omega
  have hnp : ¬ abs wd path <+: (root ++ ["files"] ++ [tn]) := by
    intro hp
    rcases (prefix_snoc_iff _ _ _).mp hp with h | h
    · rw [h, hfree] at hsrc; cases hsrc
    · exact ha1 h
  have hnp2 : ¬ (root ++ ["files"] ++ [tn]) <+: abs wd path := not_prefix_of_snoc _ _ _ ho1
  -- unlink the source
  obtain ⟨sd, sesd, hsd, _⟩ :=
    stat_snoc_parent fs _ _ node (by rw [← path_eq_snoc _ hane]; exact hsrc)
  obtain ⟨fs1, hu1, _⟩ := updateAt_snoc none (base (abs wd path)) _ fs sd sesd hsd
  have hu1s := hu1
  rw [← path_eq_snoc _ hane] at hu1
  have hfd1 : stat fs1 (root ++ ["files"]) = .ok (.dir s1 es1) := by
    rw [updateAt_frame none _ fs fs1 _ hu1 ha1 ho1]; exact hfd
  -- link it in the payload directory
  obtain ⟨fs2, hu2, hfd2⟩ := updateAt_snoc (some node) tn _ fs1 s1 es1 hfd1
  have hren : rename fs (abs wd path) (root ++ ["files"] ++ [tn]) = .ok fs2 :=
    rename_ok_intro fs fs1 fs2 _ _ node hsrc hane hnp hfree hu1 hu2
  have hid2 : stat fs2 (root ++ ["info"]) = .ok (.dir s2 es2) := by
    rw [updateAt_frame _ _ fs1 fs2 _ hu2 (by simp)
      (by simp)]
    rw [updateAt_frame none _ fs fs1 _ hu1 ha2 ho2]; exact hid
  refine ⟨fs2, hren, hpl, hl1, hshort, ?_, hid2, ?_, ?_, ?_⟩
  · rw [hfd2]
    simp [bindEntry, setEntry_of_lookup_none _ _ _ hl1]
  · rw [updateAt_frame _ _ fs1 fs2 _ hu2 hnp2 hnp]
    have hself : stat fs1 ((abs wd path).dropLast ++ [base (abs wd path)]) = .error .ENOENT :=
      (updateAt_self none _ _ [] fs fs1 hu1s).trans (congrArg Except.error (missing_of_le _ hbase))
    exact (congrArg (stat fs1) (path_eq_snoc _ hane)).trans hself
  · intro q h1 h2 h3 h4
    rw [updateAt_frame _ _ fs1 fs2 _ hu2 h3 h4, updateAt_frame _ _ fs fs1 _ hu1 h1 h2]
  · intro q s es hq h1 h2
    obtain ⟨e1, hq1⟩ := updateAt_keeps_dir _ _ _ _ _ _ _ hu1 hq h1
    exact updateAt_keeps_dir _ _ _ _ _ _ _ hu2 hq1 h2

/-- What `Put` does once the probe has found the name `tn`, for a source that is
neither inside nor above the two store directories, when the record can be written:
its name is within the length limit, or a file of that name is there already. -/
theorem put_spec (j : Codec) (root : Path) (wd path : String) (fs : Node) (now now2 : Time)
    (node : Node) (s1 s2 : Nat) (es1 es2 : List (String × Node)) (tn : String)
    (hsrc : stat fs (abs wd path) = .ok node)
    (hfd : stat fs (root ++ ["files"]) = .ok (.dir s1 es1))
    (hid : stat fs (root ++ ["info"]) = .ok (.dir s2 es2))
    (ho1 : ¬ (root ++ ["files"]) <+: abs wd path) (ho2 : ¬ (root ++ ["info"]) <+: abs wd path)
    (ha1 : ¬ abs wd path <+: (root ++ ["files"])) (ha2 : ¬ abs wd path <+: (root ++ ["info"]))
    (hrec : ∀ s es, lookupEntry (tn ++ ".json") es2 ≠ some (.dir s es))
    (hprobe : probe fs (root ++ ["files"]) now.format (base (abs wd path))
      (probeFuel fs (root ++ ["files"])) 1 (now.format ++ "_" ++ base (abs wd path)) = some tn)
    (hfit : lookupEntry (tn ++ ".json") es2 = none → nameBytes (tn ++ ".json") ≤ nameMax) :
    ∃ fs3, (mkManager root).Put j wd fs path now now2 = (fs3, none) ∧
      PlainName tn ∧ lookupEntry tn es1 = none ∧
      stat fs3 (root ++ ["files"]) = .ok (.dir s1 (es1 ++ [(tn, node)])) ∧
      stat fs3 (root ++ ["info"]) = .ok (.dir s2 (setEntry (tn ++ ".json")
        (.file (j.marshal ⟨abs wd path, root ++ ["files"] ++ [tn], now2, node.size⟩)) es2)) ∧
      stat fs3 (abs wd path) = .error .ENOENT ∧
      (∀ q, ¬ abs wd path <+: q → ¬ q <+: abs wd path →
        ¬ (root ++ ["files"] ++ [tn]) <+: q → ¬ q <+: (root ++ ["files"] ++ [tn]) →
        ¬ (root ++ ["info"] ++ [tn ++ ".json"]) <+: q →
        ¬ q <+: (root ++ ["info"] ++ [tn ++ ".json"]) → stat fs3 q = stat fs q) ∧
      ∀ q s es, stat fs q = .ok (.dir s es) → ¬ abs wd path <+: q →
        ¬ (root ++ ["files"] ++ [tn]) <+: q → ¬ (root ++ ["info"] ++ [tn ++ ".json"]) <+: q →
        ∃ es3, stat fs3 q = .ok (.dir s es3) := by
  obtain ⟨fs2, hren, hpl, hl1, _, hfd2, hid2, hgone, hframe, hkeep⟩ :=
    put_rename_spec root wd path fs now node s1 s2 es1 es2 tn hsrc hfd hid ho1 ho2 ha1 ha2 hprobe
  have hjson : PlainName (tn ++ ".json") := json_plain _ hpl.1
  have hni : ¬ abs wd path <+: (root ++ ["info"] ++ [tn ++ ".json"]) := by
    intro hp
    rcases (prefix_snoc_iff _ _ _).mp hp with h | h
    · exact ho2 (h ▸ List.prefix_append _ _)
    · exact ha2 h
  have hni2 : ¬ (root ++ ["info"] ++ [tn ++ ".json"]) <+: abs wd path :=
    not_prefix_of_snoc _ _ _ ho2
  -- write the record
  obtain ⟨fs3, hu3, hid3⟩ := updateAt_snoc (some (.file (j.marshal
    ⟨abs wd path, root ++ ["files"] ++ [tn], now2, node.size⟩))) (tn ++ ".json") _ fs2 s2 es2 hid2
  have hwr := writeFile_child fs2 _ s2 es2 (tn ++ ".json") (j.marshal
    ⟨abs wd path, root ++ ["files"] ++ [tn], now2, node.size⟩) hid2 hrec hfit
  refine ⟨fs3, ?_, hpl, hl1, ?_, ?_, ?_, ?_, ?_⟩
  · simp only [Manager.Put, mkManager, hsrc, hprobe, join_plain _ _ hpl, join_plain _ _ hjson,
      hren, saveItemInfo, hwr, hu3, getSize]
  · rw [updateAt_frame _ _ fs2 fs3 _ hu3 (by simp)
      (by simp), hfd2]
  · rw [hid3]; rfl
  · rw [updateAt_frame _ _ fs2 fs3 _ hu3 hni2 hni, hgone]
  · intro q h1 h2 h3 h4 h5 h6
    rw [updateAt_frame _ _ fs2 fs3 _ hu3 h5 h6, hframe q h1 h2 h3 h4]
  · intro q s es hq h1 h2 h3
    obtain ⟨e2, hq2⟩ := hkeep q s es hq h1 h2
    exact updateAt_keeps_dir _ _ _ _ _ _ _ hu3 hq2 h3

/-- What `Put` does once the probe has found the name `tn` when the record cannot
be written, its name `tn.json` being beyond the length limit: the source has been
moved to the payload directory, no record is written, and `Put` returns the error
`ENAMETOOLONG`. -/
theorem put_unfit_spec (j : Codec) (root : Path) (wd path : String) (fs : Node)
    (now now2 : Time) (node : Node) (s1 s2 : Nat) (es1 es2 : List (String × Node))
    (tn : String)
    (hsrc : stat fs (abs wd path) = .ok node)
    (hfd : stat fs (root ++ ["files"]) = .ok (.dir s1 es1))
    (hid : stat fs (root ++ ["info"]) = .ok (.dir s2 es2))
    (ho1 : ¬ (root ++ ["files"]) <+: abs wd path) (ho2 : ¬ (root ++ ["info"]) <+: abs wd path)
    (ha1 : ¬ abs wd path <+: (root ++ ["files"])) (ha2 : ¬ abs wd path <+: (root ++ ["info"]))
    (hprobe : probe fs (root ++ ["files"]) now.format (base (abs wd path))
      (probeFuel fs (root ++ ["files"])) 1 (now.format ++ "_" ++ base (abs wd path)) = some tn)
    (hno : lookupEntry (tn ++ ".json") es2 = none)
    (hlong : nameMax < nameBytes (tn ++ ".json")) :
    ∃ fs2, (mkManager root).Put j wd fs path now now2 = (fs2, some (.sys .ENAMETOOLONG)) ∧
      PlainName tn ∧
      stat fs2 (root ++ ["files"]) = .ok (.dir s1 (es1 ++ [(tn, node)])) ∧
      stat fs2 (root ++ ["info"]) = .ok (.dir s2 es2) ∧
      stat fs2 (abs wd path) = .error .ENOENT := by
  obtain ⟨fs2, hren, hpl, _, _, hfd2, hid2, hgone, _, _⟩ :=
    put_rename_spec root wd path fs now node s1 s2 es1 es2 tn hsrc hfd hid ho1 ho2 ha1 ha2 hprobe
  have hwr := writeFile_long fs2 _ s2 es2 (tn ++ ".json") (j.marshal
    ⟨abs wd path, root ++ ["files"] ++ [tn], now2, node.size⟩) hid2 hno hlong
  refine ⟨fs2, ?_, hpl, hfd2, hid2, hgone⟩
  simp only [Manager.Put, mkManager, hsrc, hprobe, join_plain _ _ hpl,
    join_plain _ _ (json_plain _ hpl.1), hren, saveItemInfo, hwr, getSize]

/-! ## The steps of `List` and `Restore` -/

theorem list_eq (j : Codec) (root : Path) (fs : Node) (s2 : Nat) (es2 : List (String × Node))
    (hid : stat fs (root ++ ["info"]) = .ok (.dir s2 es2)) :
    (mkManager root).List j fs =
      .ok ((es2.insertionSort nameLE).filterMap ((mkManager root).listEntry j fs)) := by
  simp [Manager.List, readDir, mkManager, hid]

theorem listEntry_record (j : Codec) (root : Path) (fs : Node) (s2 : Nat)
    (es2 : List (String × Node)) (n : String) (data : List Nat)
    (hid : stat fs (root ++ ["info"]) = .ok (.dir s2 es2)) (hn : '/' ∉ n.data)
    (hl : lookupEntry (n ++ ".json") es2 = some (.file data)) :
    (mkManager root).listEntry j fs (n ++ ".json", .file data) = j.unmarshal data := by
  have hs : stat fs (root ++ ["info"] ++ [n ++ ".json"]) = .ok (.file data) := by
    exact stat_child _ _ _ _ _ _ hid hl
  simp only [Manager.listEntry, Node.isDir, ext_json, mkManager, join_plain _ _ (json_plain n hn),
    loadItemInfo, readFile, hs]
  cases j.unmarshal data <;> simp

theorem remove_inv (fs fs1 : Node) (p : Path) (h : remove fs p = .ok fs1) :
    updateAt none fs p = .ok fs1 ∧ ∃ n, stat fs p = .ok n := by
  unfold remove at h
  split at h
  · cases h
  · split at h
    · cases h
    · exact ⟨h, _, by assumption⟩
    · exact ⟨h, _, by assumption⟩
    · cases h

theorem remove_file (fs : Node) (p : Path) (b : List Nat) (hp : p ≠ [])
    (h : stat fs p = .ok (.file b)) : remove fs p = updateAt none fs p := by
  cases p with
  | nil => exact absurd rfl hp
  | cons c cs => simp only [remove, h]

/-- The move back and the deletion of the record in `Restore`, when they succeed. -/
theorem restore_steps (root : Path) (tn : String) (fs1 fs2 fs3 : Node) (s1 s2 : Nat)
    (es1 es2 : List (String × Node)) (orig : Path) (e : Errno)
    (hfd : stat fs1 (root ++ ["files"]) = .ok (.dir s1 es1))
    (hid : stat fs1 (root ++ ["info"]) = .ok (.dir s2 es2))
    (horig : stat fs1 orig = .error e)
    (ho1 : ¬ (root ++ ["files"]) <+: orig) (ho2 : ¬ (root ++ ["info"]) <+: orig)
    (hren : rename fs1 (root ++ ["files"] ++ [tn]) orig = .ok fs2)
    (hrem : remove fs2 (root ++ ["info"] ++ [tn ++ ".json"]) = .ok fs3) :
    ∃ node, lookupEntry tn es1 = some node ∧ stat fs3 orig = .ok node ∧
      stat fs3 (root ++ ["files"]) = .ok (.dir s1 (eraseEntry tn es1)) ∧
      stat fs3 (root ++ ["info"]) = .ok (.dir s2 (eraseEntry (tn ++ ".json") es2)) ∧
      (∀ q, ¬ orig <+: q → ¬ q <+: orig →
        ¬ (root ++ ["files"] ++ [tn]) <+: q → ¬ q <+: (root ++ ["files"] ++ [tn]) →
        ¬ (root ++ ["info"] ++ [tn ++ ".json"]) <+: q →
        ¬ q <+: (root ++ ["info"] ++ [tn ++ ".json"]) → stat fs3 q = stat fs1 q) ∧
      ∀ q s es, stat fs1 q = .ok (.dir s es) → ¬ orig <+: q →
        ¬ (root ++ ["files"] ++ [tn]) <+: q → ¬ (root ++ ["info"] ++ [tn ++ ".json"]) <+: q →
        ∃ es3, stat fs3 q = .ok (.dir s es3) := by
  obtain ⟨node, fsa, hsrc, _, hnp, _, hua, hub⟩ := rename_ok_inv _ _ _ _ _ hren horig
  obtain ⟨huc, _⟩ := remove_inv _ _ _ hrem
  have hone : orig ≠ [] := by
    intro h
    rw [h, stat_nil] at horig
    cases horig
  have hof : ¬ orig <+: (root ++ ["files"]) := not_prefix_of_error _ _ _ _ _ horig hfd
  have hoi : ¬ orig <+: (root ++ ["info"]) := not_prefix_of_error _ _ _ _ _ horig hid
  have hoip : ¬ orig <+: (root ++ ["info"] ++ [tn ++ ".json"]) := by
    intro hp
    rcases (prefix_snoc_iff _ _ _).mp hp with h | h
    · exact ho2 (h ▸ List.prefix_append _ _)
    · exact hoi h
  obtain ⟨s, es, h1, h2⟩ := updateAt_ok_listing _ _ _ _ _ hua
  rw [hfd] at h1
  cases h1
  obtain ⟨s3, es3, h3, h4⟩ := updateAt_ok_listing _ _ _ _ _ huc
  have hid2 : stat fs2 (root ++ ["info"]) = .ok (.dir s2 es2) := by
    rw [updateAt_frame _ _ _ _ _ hub hoi ho2, updateAt_frame _ _ _ _ _ hua (by simp) (by simp), hid]
  rw [hid2] at h3
  cases h3
  have hl : lookupEntry tn es1 = some node := by
    obtain ⟨s5, es5, h5, h6⟩ := stat_snoc_parent _ _ _ _ hsrc
    rw [hfd] at h5
    cases h5
    exact h6
  refine ⟨node, hl, ?_, ?_, h4, ?_, ?_⟩
  · rw [updateAt_frame _ _ _ _ _ huc (not_prefix_of_snoc _ _ _ ho2) hoip]
    exact updateAt_some_stat _ _ _ _ hub
  · rw [updateAt_frame _ _ _ _ _ huc (by simp) (by simp),
      updateAt_frame _ _ _ _ _ hub hof ho1, h2]
    rfl
  · intro q q1 q2 q3 q4 q5 q6
    rw [updateAt_frame _ _ _ _ _ huc q5 q6, updateAt_frame _ _ _ _ _ hub q1 q2,
      updateAt_frame _ _ _ _ _ hua q3 q4]
  · intro q s es hq q1 q2 q3
    obtain ⟨e1, hq1⟩ := updateAt_keeps_dir _ _ _ _ _ _ _ hua hq q2
    obtain ⟨e2, hq2⟩ := updateAt_keeps_dir _ _ _ _ _ _ _ hub hq1 q1
    exact updateAt_keeps_dir _ _ _ _ _ _ _ huc hq2 q3

/-- The move back and the deletion of the record in `Restore` succeed when the
payload and its record are there, the target is free and its parent exists. -/
theorem restore_steps_exist (root : Path) (tn : String) (fs1 : Node) (s1 s2 sp : Nat)
    (es1 es2 esp : List (String × Node)) (orig : Path) (e : Errno) (node : Node)
    (data : List Nat)
    (hfd : stat fs1 (root ++ ["files"]) = .ok (.dir s1 es1))
    (hid : stat fs1 (root ++ ["info"]) = .ok (.dir s2 es2))
    (hpay : lookupEntry tn es1 = some node)
    (hrec : lookupEntry (tn ++ ".json") es2 = some (.file data))
    (hpar : stat fs1 (dirOf orig) = .ok (.dir sp esp))
    (horig : stat fs1 orig = .error e)
    (ho1 : ¬ (root ++ ["files"]) <+: orig) (ho2 : ¬ (root ++ ["info"]) <+: orig)
    (hshort : nameBytes (base orig) ≤ nameMax) :
    ∃ fs2 fs3, rename fs1 (root ++ ["files"] ++ [tn]) orig = .ok fs2 ∧
      remove fs2 (root ++ ["info"] ++ [tn ++ ".json"]) = .ok fs3 := by
  have hone : orig ≠ [] := by
    intro h
    rw [h, stat_nil] at horig
    cases horig
  have heq := path_eq_snoc _ hone
  have hoi : ¬ orig <+: (root ++ ["info"]) := not_prefix_of_error _ _ _ _ _ horig hid
  have hoip : ¬ orig <+: (root ++ ["info"] ++ [tn ++ ".json"]) := by
    intro hp
    rcases (prefix_snoc_iff _ _ _).mp hp with h | h
    · exact ho2 (h ▸ List.prefix_append _ _)
    · exact hoi h
  have hsrc : stat fs1 (root ++ ["files"] ++ [tn]) = .ok node :=
    stat_child _ _ _ _ _ _ hfd hpay
  have hrecs : stat fs1 (root ++ ["info"] ++ [tn ++ ".json"]) = .ok (.file data) :=
    stat_child _ _ _ _ _ _ hid hrec
  have henoent : stat fs1 orig = .error .ENOENT := by
    cases hl : lookupEntry (base orig) esp with
    | none =>
      have := enoent_of_lookup_none _ _ _ _ _ [] hpar hl hshort
      exact (congrArg (stat fs1) heq).trans this
    | some m =>
      have := stat_child _ _ _ _ _ _ hpar hl
      rw [show dirOf orig ++ [base orig] = orig from heq.symm, horig] at this
      cases this
  have hnp : ¬ (root ++ ["files"] ++ [tn]) <+: orig := not_prefix_of_snoc _ _ _ ho1
  obtain ⟨fsa, hua, _⟩ := updateAt_snoc none tn _ fs1 s1 es1 hfd
  have hpar2 : ∃ esp2, stat fsa (dirOf orig) = .ok (.dir sp esp2) := by
    by_cases hpre : dirOf orig <+: (root ++ ["files"] ++ [tn])
    · obtain ⟨t, ht⟩ := hpre
      have htne : t ≠ [] := by
        intro h
        subst h
        rw [List.append_nil] at ht
        apply hnp
        rw [heq]
        show root ++ ["files"] ++ [tn] <+: dirOf orig ++ [base orig]
        rw [ht]
        exact List.prefix_append _ _
      rw [← ht] at hua
      obtain ⟨s, es, es9, h1, h2⟩ := updateAt_ancestor _ _ _ _ _ hua htne
      rw [hpar] at h1
      cases h1
      exact ⟨_, h2⟩
    · refine ⟨esp, ?_⟩
      rw [updateAt_frame _ _ _ _ _ hua ?_ hpre, hpar]
      intro hp
      apply hnp
      rw [heq]
      exact hp.trans (List.prefix_append _ _)
  obtain ⟨esp2, hpar2⟩ := hpar2
  obtain ⟨fs2, hub, _⟩ := updateAt_snoc (some node) (base orig) _ fsa sp esp2 hpar2
  rw [show dirOf orig ++ [base orig] = orig from heq.symm] at hub
  have hren := rename_ok_intro fs1 fsa fs2 _ _ node hsrc (by simp) hnp henoent hua hub
  have hid2 : stat fs2 (root ++ ["info"]) = .ok (.dir s2 es2) := by
    rw [updateAt_frame _ _ _ _ _ hub hoi ho2, updateAt_frame _ _ _ _ _ hua (by simp) (by simp), hid]
  have hrec2 : stat fs2 (root ++ ["info"] ++ [tn ++ ".json"]) = .ok (.file data) :=
    stat_child _ _ _ _ _ _ hid2 hrec
  obtain ⟨fs3, huc, _⟩ := updateAt_snoc none (tn ++ ".json") _ fs2 s2 es2 hid2
  refine ⟨fs2, fs3, hren, ?_⟩
  rw [remove_file _ _ _ (by simp) hrec2]
  exact huc

theorem restore_intro (j : Codec) (root : Path) (tn : String) (fs fs2 fs3 : Node) (item : Item)
    (n : Node) (e : Errno) (hpl : PlainName tn)
    (hload : loadItemInfo j fs (root ++ ["info"] ++ [tn ++ ".json"]) = .ok item)
    (hpar : stat fs (dirOf item.originalPath) = .ok n)
    (horig : stat fs item.originalPath = .error e)
    (hren : rename fs (root ++ ["files"] ++ [tn]) item.originalPath = .ok fs2)
    (hrem : remove fs2 (root ++ ["info"] ++ [tn ++ ".json"]) = .ok fs3) :
    (mkManager root).Restore j fs tn = (fs3, none) := by
  have hne : isNotExist (stat fs (dirOf item.originalPath)) = false := by rw [hpar]; rfl
  simp only [Manager.Restore, mkManager, join_plain _ _ hpl, join_plain _ _ (json_plain _ hpl.1),
    hload, hne, Bool.false_eq_true, if_false, horig, hren, hrem]

theorem loadItemInfo_record (j : Codec) (fs : Node) (p : Path) (data : List Nat) (item : Item)
    (h : stat fs p = .ok (.file data)) (hd : j.unmarshal data = some item) :
    loadItemInfo j fs p = .ok item := by
  simp [loadItemInfo, readFile, h, hd]

theorem fresh_outside (fs : Node) (d a : Path) (s : Nat) (n : Node)
    (hd : stat fs d = .ok (.dir s [])) (ha : stat fs a = .ok n) (hne : ¬ a <+: d) :
    ¬ d <+: a := by
  rintro ⟨t, rfl⟩
  cases t with
  | nil => exact hne (by simp)
  | cons c r =>
    rw [missing_of_lookup_none _ _ _ _ c r hd rfl] at ha
    cases ha

theorem file_not_above (fs : Node) (a d : Path) (b : List Nat) (s : Nat)
    (es : List (String × Node)) (ha : stat fs a = .ok (.file b))
    (hd : stat fs d = .ok (.dir s es)) : ¬ a <+: d := by
  intro h
  have := file_prefix_eq _ _ _ _ _ ha hd h
  subst this
  rw [ha] at hd
  cases hd

theorem probeFuel_pos (fs : Node) (d : Path) : ∃ f, probeFuel fs d = f + 1 := by
  unfold probeFuel
  split
  · exact ⟨_, rfl⟩
  · exact ⟨0, rfl⟩

/-- `Put` of a regular file into a fresh store: the whole outcome. -/
theorem put_fresh (j : Codec) (root : Path) (wd path : String) (fs : Node)
    (bytes : List Nat) (now now2 : Time) (s1 s2 : Nat)
    (hfd : stat fs (root ++ ["files"]) = .ok (.dir s1 []))
    (hid : stat fs (root ++ ["info"]) = .ok (.dir s2 []))
    (hfile : stat fs (abs wd path) = .ok (.file bytes))
    (hfit : nameBytes (now.format ++ "_" ++ base (abs wd path) ++ ".json") ≤ nameMax) :
    ∃ fs1, (mkManager root).Put j wd fs path now now2 = (fs1, none) ∧
      PlainName (now.format ++ "_" ++ base (abs wd path)) ∧
      stat fs1 (root ++ ["files"]) =
        .ok (.dir s1 [(now.format ++ "_" ++ base (abs wd path), .file bytes)]) ∧
      stat fs1 (root ++ ["info"]) =
        .ok (.dir s2 [(now.format ++ "_" ++ base (abs wd path) ++ ".json",
          .file (j.marshal ⟨abs wd path,
            root ++ ["files"] ++ [now.format ++ "_" ++ base (abs wd path)], now2,
            bytes.length⟩))]) ∧
      stat fs1 (abs wd path) = .error .ENOENT ∧
      ∃ sp esp, stat fs1 (dirOf (abs wd path)) = .ok (.dir sp esp) := by
  have ha1 := file_not_above _ _ _ _ _ _ hfile hfd
  have ha2 := file_not_above _ _ _ _ _ _ hfile hid
  have ho1 := fresh_outside _ _ _ _ _ hfd hfile ha1
  have ho2 := fresh_outside _ _ _ _ _ hid hfile ha2
  have hane : abs wd path ≠ [] := fun e => ha1 (e ▸ List.nil_prefix)
  have hpl : PlainName (now.format ++ "_" ++ base (abs wd path)) :=
    trashName_plain _ _ (format_noSlash now) (abs_plain wd path _ (base_mem _ hane)).1
  have hfree : stat fs (join (root ++ ["files"]) (now.format ++ "_" ++ base (abs wd path))) =
      .error .ENOENT := by
    rw [join_plain _ _ hpl]
    exact enoent_of_lookup_none _ _ _ _ _ [] hfd rfl (by rw [nameBytes_json] at hfit; omega)
  obtain ⟨f, hf⟩ := probeFuel_pos fs (root ++ ["files"])
  have hprobe := probe_free fs (root ++ ["files"]) now.format (base (abs wd path)) f 1 _ hfree
  rw [← hf] at hprobe
  obtain ⟨fs1, h1, h2, _, h4, h5, h6, _, h8⟩ := put_spec j root wd path fs now now2 _ s1 s2 [] []
    _ hfile hfd hid ho1 ho2 ha1 ha2 (by intro s es h; simp [lookupEntry] at h) hprobe (fun _ => hfit)
  obtain ⟨sp, esp, hp, _⟩ := stat_snoc_parent fs _ _ _
    (by rw [← path_eq_snoc _ hane]; exact hfile)
  obtain ⟨esp3, hp3⟩ := h8 _ _ _ hp
    (fun h => by
      have := h.length_le
      have h2 := congrArg List.length (path_eq_snoc _ hane)
      simp at this h2
      omega)
    (fun h => ho1 ((List.prefix_append _ _).trans (h.trans (List.dropLast_prefix _))))
    (fun h => ho2 ((List.prefix_append _ _).trans (h.trans (List.dropLast_prefix _))))
  exact ⟨fs1, h1, h2, h4, h5, h6, sp, esp3, hp3⟩

/-! ## Put on a fresh store (C5) and the round trip (C1) -/

set_option maxRecDepth 100000 in
/-- C5, as stated, fails for a long file name.  On the fresh store of `demoLongFs 239`
the file `/w/aaa...a` has a name of 239 bytes; the trash name, `20240102_030405_`
followed by that name, has 255 bytes and is still a lawful name, but the name of its
record, with `.json` added, has 260.  `Put` moves the file into the payload area,
the file system refuses the record, and `Put` returns that error: the file is gone
from its place, its bytes are in the payload area, and `List` returns nothing. -/
theorem put_long_name_counterexample :
    Fresh (mkManager ["t"]) (demoLongFs 239) ∧
      stat (demoLongFs 239) (abs "/w" (longName 239)) = .ok (.file [1]) ∧
      nameBytes (longName 239) = 239 ∧
      nameBytes (demoTime.format ++ "_" ++ base (abs "/w" (longName 239))) = 255 ∧
      nameBytes (demoTime.format ++ "_" ++ base (abs "/w" (longName 239)) ++ ".json") = 260 ∧
      ((mkManager ["t"]).Put demoCodec "/w" (demoLongFs 239) (longName 239) demoTime
        demoTime).2 = some (.sys .ENAMETOOLONG) ∧
      stat ((mkManager ["t"]).Put demoCodec "/w" (demoLongFs 239) (longName 239) demoTime
        demoTime).1 (abs "/w" (longName 239)) = .error .ENOENT ∧
      stat ((mkManager ["t"]).Put demoCodec "/w" (demoLongFs 239) (longName 239) demoTime
        demoTime).1 ((mkManager ["t"]).filesDir ++ [demoTime.format ++ "_" ++ longName 239]) =
          .ok (.file [1]) ∧
      (mkManager ["t"]).List demoCodec ((mkManager ["t"]).Put demoCodec "/w" (demoLongFs 239)
        (longName 239) demoTime demoTime).1 = .ok [] :=
  ⟨⟨4096, 4096, rfl, rfl⟩, rfl, rfl, rfl, rfl, rfl, rfl, rfl, rfl⟩

/-- C5, amended. Postcondition of `Put`: on a freshly initialized store, `Put` of an
existing regular file whose record name, the timestamp, `_`, the base name of the
file and `.json`, is within the limit of the file system on the length of a name
succeeds, the file is gone from its prior location, and `List` returns exactly one
item, with the absolute path of the file as original path, the length of the file
as size and the payload path of the chosen trash name as trash path, where the
bytes of the file now are. -/
theorem put_postcondition (j : Codec) (hj : j.Lawful) (root : Path) (wd path : String)
    (fs : Node) (bytes : List Nat) (now now2 : Time)
    (hfresh : Fresh (mkManager root) fs)
    (hfile : stat fs (abs wd path) = .ok (.file bytes))
    (hfit : nameBytes (now.format ++ "_" ++ base (abs wd path) ++ ".json") ≤ nameMax) :
    ∃ fs1 trashName, (mkManager root).Put j wd fs path now now2 = (fs1, none) ∧
      stat fs1 (abs wd path) = .error .ENOENT ∧
      (mkManager root).List j fs1 =
        .ok [⟨abs wd path, (mkManager root).filesDir ++ [trashName], now2, bytes.length⟩] ∧
      stat fs1 ((mkManager root).filesDir ++ [trashName]) = .ok (.file bytes) := by
  obtain ⟨s1, s2, hfd, hid⟩ := hfresh
  obtain ⟨fs1, h1, hpl, h2, h3, h4, _⟩ :=
    put_fresh j root wd path fs bytes now now2 s1 s2 hfd hid hfile hfit
  refine ⟨fs1, now.format ++ "_" ++ base (abs wd path), h1, h4, ?_, ?_⟩
  · rw [list_eq j root fs1 s2 _ h3]
    simp only [List.insertionSort, List.orderedInsert, List.filterMap_cons, List.filterMap_nil]
    rw [listEntry_record j root fs1 s2 _ _ _ h3 hpl.1 (by simp [lookupEntry]), hj]
    rfl
  · exact stat_child _ _ _ _ _ _ h2 (by simp [lookupEntry])

/-- An instance of C5: `Put` of `/w/a.txt` on the fresh store of `demoFs`. -/
theorem put_postcondition_witness :
    demoCodec.Lawful ∧ Fresh (mkManager ["t"]) demoFs ∧
      stat demoFs (abs "/w" "a.txt") = .ok (.file [104, 105, 10]) ∧
      ∃ fs1 trashName,
        (mkManager ["t"]).Put demoCodec "/w" demoFs "a.txt" demoTime demoTime = (fs1, none) ∧
        stat fs1 (abs "/w" "a.txt") = .error .ENOENT ∧
        (mkManager ["t"]).List demoCodec fs1 =
          .ok [⟨abs "/w" "a.txt", (mkManager ["t"]).filesDir ++ [trashName], demoTime,
            [104, 105, 10].length⟩] ∧
        stat fs1 ((mkManager ["t"]).filesDir ++ [trashName]) = .ok (.file [104, 105, 10]) :=
  ⟨demoCodec_lawful, ⟨4096, 4096, rfl, rfl⟩, rfl,
    put_postcondition demoCodec demoCodec_lawful ["t"] "/w" "a.txt" demoFs [104, 105, 10]
      demoTime demoTime ⟨4096, 4096, rfl, rfl⟩ rfl (by decide)⟩

set_option maxRecDepth 100000 in
/-- C1, as stated, fails for a long file name.  On the fresh store of `demoLongFs 235`
the file `/w/aaa...a` has a name of 235 bytes, and the record name `Put` derives from
it has 256, one more than the file system allows.  `Put` does not succeed: it moves
the file and returns the error of the refused record.  `List` then returns no item
whose name could be restored, `Restore` of the name `Put` chose fails on the missing
record and changes nothing, and the file stays absent from its path. -/
theorem roundtrip_long_name_counterexample :
    Fresh (mkManager ["t"]) (demoLongFs 235) ∧
      stat (demoLongFs 235) (abs "/w" (longName 235)) = .ok (.file [1]) ∧
      nameBytes (longName 235) = 235 ∧
      nameBytes (demoTime.format ++ "_" ++ base (abs "/w" (longName 235)) ++ ".json") = 256 ∧
      ((mkManager ["t"]).Put demoCodec "/w" (demoLongFs 235) (longName 235) demoTime
        demoTime).2 = some (.sys .ENAMETOOLONG) ∧
      (mkManager ["t"]).List demoCodec ((mkManager ["t"]).Put demoCodec "/w" (demoLongFs 235)
        (longName 235) demoTime demoTime).1 = .ok [] ∧
      (mkManager ["t"]).Restore demoCodec ((mkManager ["t"]).Put demoCodec "/w"
          (demoLongFs 235) (longName 235) demoTime demoTime).1
          (demoTime.format ++ "_" ++ longName 235) =
        (((mkManager ["t"]).Put demoCodec "/w" (demoLongFs 235) (longName 235) demoTime
          demoTime).1, some (.sys .ENAMETOOLONG)) ∧
      stat ((mkManager ["t"]).Put demoCodec "/w" (demoLongFs 235) (longName 235) demoTime
        demoTime).1 (abs "/w" (longName 235)) = .error .ENOENT :=
  ⟨⟨4096, 4096, rfl, rfl⟩, rfl, rfl, rfl, rfl, rfl, rfl, rfl⟩

/-- C1, amended. Round trip of `Put` and `Restore`: on a freshly initialized store,
`Put` of an existing regular file whose record name, the timestamp, `_`, the base
name of the file and `.json`, is within the limit of the file system on the length
of a name succeeds, `List` then returns one item, and `Restore` of the base name of
that item's trash path succeeds, leaves the file with the same bytes at its
absolute path, and leaves `List` empty. -/
theorem put_restore_roundtrip (j : Codec) (hj : j.Lawful) (root : Path) (wd path : String)
    (fs : Node) (bytes : List Nat) (now now2 : Time)
    (hfresh : Fresh (mkManager root) fs)
    (hfile : stat fs (abs wd path) = .ok (.file bytes))
    (hfit : nameBytes (now.format ++ "_" ++ base (abs wd path) ++ ".json") ≤ nameMax) :
    ∃ fs1 item fs2, (mkManager root).Put j wd fs path now now2 = (fs1, none) ∧
      (mkManager root).List j fs1 = .ok [item] ∧
      (mkManager root).Restore j fs1 (base item.trashPath) = (fs2, none) ∧
      stat fs2 (abs wd path) = .ok (.file bytes) ∧
      (mkManager root).List j fs2 = .ok [] := by
  obtain ⟨s1, s2, hfd, hid⟩ := hfresh
  obtain ⟨fs1, h1, hpl, h2, h3, h4, sp, esp, h5⟩ :=
    put_fresh j root wd path fs bytes now now2 s1 s2 hfd hid hfile hfit
  have hshort : nameBytes (base (abs wd path)) ≤ nameMax := by
    rw [nameBytes_append, nameBytes_append] at hfit
    omega
  have ha1 := file_not_above _ _ _ _ _ _ hfile hfd
  have ha2 := file_not_above _ _ _ _ _ _ hfile hid
  have ho1 := fresh_outside _ _ _ _ _ hfd hfile ha1
  have ho2 := fresh_outside _ _ _ _ _ hid hfile ha2
  generalize now.format ++ "_" ++ base (abs wd path) = tn at h1 hpl h2 h3
  have hlist : (mkManager root).List j fs1 =
      .ok [⟨abs wd path, root ++ ["files"] ++ [tn], now2, bytes.length⟩] := by
    rw [list_eq j root fs1 s2 _ h3]
    simp only [List.insertionSort, List.orderedInsert, List.filterMap_cons, List.filterMap_nil]
    rw [listEntry_record j root fs1 s2 _ _ _ h3 hpl.1 (by simp [lookupEntry]), hj]
  obtain ⟨fs2, fs3, hren, hrem⟩ := restore_steps_exist root tn fs1 s1 s2 sp _ _ esp (abs wd path)
    _ (.file bytes)
    (j.marshal ⟨abs wd path, root ++ ["files"] ++ [tn], now2, bytes.length⟩) h2 h3
    (by simp [lookupEntry]) (by simp [lookupEntry]) h5 h4 ho1 ho2 hshort
  obtain ⟨node, hn, hr1, hr2, hr3, _⟩ :=
    restore_steps root tn fs1 fs2 fs3 s1 s2 _ _ _ _ h2 h3 h4 ho1 ho2 hren hrem
  simp only [lookupEntry, if_true, Option.some.injEq] at hn
  subst hn
  refine ⟨fs1, _, fs3, h1, hlist, ?_, hr1, ?_⟩
  · simp only [base_append_singleton]
    refine restore_intro j root tn fs1 fs2 fs3
      ⟨abs wd path, root ++ ["files"] ++ [tn], now2, bytes.length⟩ _ _ hpl ?_ h5 h4 hren hrem
    exact loadItemInfo_record j fs1 _
      (j.marshal ⟨abs wd path, root ++ ["files"] ++ [tn], now2, bytes.length⟩) _
      (stat_child _ _ _ _ _ _ h3 (by simp [lookupEntry])) (hj _)
  · rw [list_eq j root fs3 s2 _ hr3]
    simp [eraseEntry]

/-- An instance of C1: `Put` and `Restore` of `/w/a.txt` on the fresh store of `demoFs`. -/
theorem put_restore_roundtrip_witness :
    demoCodec.Lawful ∧ Fresh (mkManager ["t"]) demoFs ∧
      stat demoFs (abs "/w" "a.txt") = .ok (.file [104, 105, 10]) ∧
      ∃ fs1 item fs2,
        (mkManager ["t"]).Put demoCodec "/w" demoFs "a.txt" demoTime demoTime = (fs1, none) ∧
        (mkManager ["t"]).List demoCodec fs1 = .ok [item] ∧
        (mkManager ["t"]).Restore demoCodec fs1 (base item.trashPath) = (fs2, none) ∧
        stat fs2 (abs "/w" "a.txt") = .ok (.file [104, 105, 10]) ∧
        (mkManager ["t"]).List demoCodec fs2 = .ok [] :=
  ⟨demoCodec_lawful, ⟨4096, 4096, rfl, rfl⟩, rfl,
    put_restore_roundtrip demoCodec demoCodec_lawful ["t"] "/w" "a.txt" demoFs [104, 105, 10]
      demoTime demoTime ⟨4096, 4096, rfl, rfl⟩ rfl (by decide)⟩

/-! ## No clobber (C2) -/

theorem list_eq_gen (j : Codec) (m : Manager) (fs : Node) (s2 : Nat)
    (es2 : List (String × Node)) (hid : stat fs m.infoDir = .ok (.dir s2 es2)) :
    m.List j fs = .ok ((es2.insertionSort nameLE).filterMap (m.listEntry j fs)) := by
  simp [Manager.List, readDir, hid]

theorem listEntry_record_gen (j : Codec) (m : Manager) (fs : Node) (s2 : Nat)
    (es2 : List (String × Node)) (n : String) (data : List Nat)
    (hid : stat fs m.infoDir = .ok (.dir s2 es2)) (hn : '/' ∉ n.data)
    (hl : lookupEntry (n ++ ".json") es2 = some (.file data)) :
    m.listEntry j fs (n ++ ".json", .file data) = j.unmarshal data := by
  have hs : stat fs (m.infoDir ++ [n ++ ".json"]) = .ok (.file data) :=
    stat_child _ _ _ _ _ _ hid hl
  simp only [Manager.listEntry, Node.isDir, ext_json, join_plain _ _ (json_plain n hn),
    loadItemInfo, readFile, hs]
  cases j.unmarshal data <;> simp

theorem mem_of_lookupEntry (c : String) (n : Node) (es : List (String × Node))
    (h : lookupEntry c es = some n) : (c, n) ∈ es := by
  induction es with
  | nil => simp [lookupEntry] at h
  | cons e rest ih =>
    by_cases he : e.1 = c
    · simp only [lookupEntry, he, if_true, Option.some.injEq] at h
      have : e = (c, n) := Prod.ext he h
      simp [this]
    · simp only [lookupEntry, he, if_false] at h
      exact List.mem_cons_of_mem _ (ih h)

theorem loadItemInfo_inv (j : Codec) (fs : Node) (p : Path) (item : Item)
    (h : loadItemInfo j fs p = .ok item) :
    ∃ data, stat fs p = .ok (.file data) ∧ j.unmarshal data = some item := by
  unfold loadItemInfo readFile at h
  cases hs : stat fs p with
  | error e => simp [hs] at h
  | ok n =>
    cases n with
    | dir s es => simp [hs] at h
    | file data =>
      simp only [hs] at h
      cases hu : j.unmarshal data with
      | none => simp [hu] at h
      | some it =>
        simp only [hu, Except.ok.injEq] at h
        exact ⟨data, rfl, by rw [hu, h]⟩

/-- The record named by a plain trash name is among the items `List` returns. -/
theorem mem_list_of_record (j : Codec) (m : Manager) (fs : Node) (tn : String) (item : Item)
    (hpl : PlainName tn)
    (h : loadItemInfo j fs (m.infoDir ++ [tn ++ ".json"]) = .ok item) :
    ∃ items, m.List j fs = .ok items ∧ item ∈ items := by
  obtain ⟨data, hs, hu⟩ := loadItemInfo_inv _ _ _ _ h
  obtain ⟨s2, es2, hid, hl⟩ := stat_snoc_parent _ _ _ _ hs
  refine ⟨_, list_eq_gen j m fs s2 es2 hid, ?_⟩
  rw [List.mem_filterMap]
  refine ⟨(tn ++ ".json", .file data), ?_, ?_⟩
  · exact (List.perm_insertionSort nameLE es2).mem_iff.mpr (mem_of_lookupEntry _ _ _ hl)
  · rw [listEntry_record_gen j m fs s2 es2 tn data hid hpl.1 hl, hu]

/-- C2. No clobber: when the metadata record of a trash name decodes to an item whose
original path is occupied, `Restore` of that name fails with the conflict error and
returns the file system it was given, unchanged: the entry at the original path,
the payload and the record all stay; and for a plain trash name the item is among
those `List` returns afterwards. -/
theorem restore_no_clobber (j : Codec) (m : Manager) (fs : Node) (trashName : String)
    (item : Item) (occupant : Node)
    (hrec : loadItemInfo j fs (join m.infoDir (trashName ++ ".json")) = .ok item)
    (hocc : stat fs item.originalPath = .ok occupant) :
    m.Restore j fs trashName = (fs, some (.conflict item.originalPath)) ∧
      (PlainName trashName →
        ∃ items, m.List j (m.Restore j fs trashName).1 = .ok items ∧ item ∈ items) := by
  have hdir : isNotExist (stat fs (dirOf item.originalPath)) = false := by
    obtain ⟨n, hn⟩ := stat_ok_of_prefix fs (dirOf item.originalPath) _ _ hocc
      (List.dropLast_prefix _)
    rw [hn]
    rfl
  have h1 : m.Restore j fs trashName = (fs, some (.conflict item.originalPath)) := by
    simp only [Manager.Restore, hrec, hdir, Bool.false_eq_true, if_false, hocc]
  refine ⟨h1, fun hpl => ?_⟩
  rw [h1]
  rw [join_plain _ _ (json_plain _ hpl.1)] at hrec
  exact mem_list_of_record j m fs trashName item hpl hrec

/-- An instance of C2: `Restore` on `demoOccupied`, where `/w/a.txt` was written again. -/
theorem restore_no_clobber_witness :
    loadItemInfo demoCodec demoOccupied
        (join (mkManager ["t"]).infoDir ("20240102_030405_a.txt" ++ ".json")) =
        .ok ⟨["w", "a.txt"], ["t", "files", "20240102_030405_a.txt"], demoTime, 3⟩ ∧
      stat demoOccupied ["w", "a.txt"] = .ok (.file [1]) ∧
      ((mkManager ["t"]).Restore demoCodec demoOccupied "20240102_030405_a.txt" =
        (demoOccupied, some (.conflict ["w", "a.txt"])) ∧
      (PlainName "20240102_030405_a.txt" →
        ∃ items, (mkManager ["t"]).List demoCodec
            ((mkManager ["t"]).Restore demoCodec demoOccupied "20240102_030405_a.txt").1 =
            .ok items ∧
          (⟨["w", "a.txt"], ["t", "files", "20240102_030405_a.txt"], demoTime, 3⟩ : Item) ∈
            items)) :=
  ⟨rfl, rfl, restore_no_clobber demoCodec (mkManager ["t"]) demoOccupied "20240102_030405_a.txt"
    ⟨["w", "a.txt"], ["t", "files", "20240102_030405_a.txt"], demoTime, 3⟩ (.file [1])
    rfl rfl⟩

/-! ## Remove (C6) -/

/-- `RemoveAll` of a name in an existing directory unlinks it, whether or not it
is there; a name that is not there must be within the length limit. -/
theorem removeAll_child (fs : Node) (d : Path) (c : String) (s : Nat)
    (es : List (String × Node)) (h : stat fs d = .ok (.dir s es))
    (hc : lookupEntry c es = none → nameBytes c ≤ nameMax) :
    ∃ fs1, updateAt none fs (d ++ [c]) = .ok fs1 ∧ removeAll fs (d ++ [c]) = (fs1, none) := by
  obtain ⟨fs1, hu, _⟩ := updateAt_snoc none c d fs s es h
  refine ⟨fs1, hu, ?_⟩
  have hne : d ++ [c] ≠ [] := by simp
  cases hp : d ++ [c] with
  | nil => exact absurd hp hne
  | cons a r =>
    rw [← hp]
    cases hl : lookupEntry c es with
    | none =>
      have hs := enoent_of_lookup_none _ _ _ _ c [] h hl (hc hl)
      have hid : updateAt none fs (d ++ [c]) = .ok fs := by
        rw [modifyAt_eq_updateAt]
        exact modifyAt_id _ _ _ _ _ h (eraseEntry_of_lookup_none _ _ hl)
      rw [hid] at hu
      cases hu
      simp only [removeAll, hp]
      rw [← hp, hs]
    | some n =>
      have hs := stat_child _ _ _ _ _ _ h hl
      simp only [removeAll, hp]
      rw [← hp, hs, hu]

/-- `RemoveAll` of a name beyond the length limit that has no entry fails and
changes nothing. -/
theorem removeAll_long (fs : Node) (d : Path) (c : String) (s : Nat)
    (es : List (String × Node)) (h : stat fs d = .ok (.dir s es))
    (hl : lookupEntry c es = none) (hc : nameMax < nameBytes c) :
    removeAll fs (d ++ [c]) = (fs, some .ENAMETOOLONG) := by
  have hs : stat fs (d ++ [c]) = .error .ENAMETOOLONG := by
    rw [missing_of_lookup_none _ _ _ _ _ _ h hl, missing_of_lt _ hc]
  cases hp : d ++ [c] with
  | nil => simp at hp
  | cons a r =>
    rw [hp] at hs
    simp only [removeAll, hs]

/-- Unlinking never makes a missing path appear. -/
theorem updateAt_none_error (p q : Path) (fs fs1 : Node) (e : Errno)
    (h : updateAt none fs p = .ok fs1) (hq : stat fs q = .error e) :
    ∃ e1, stat fs1 q = .error e1 := by
  by_cases hpq : p <+: q
  · obtain ⟨r, rfl⟩ := hpq
    refine ⟨missing (base p), ?_⟩
    rw [stat_append, updateAt_none_stat _ _ _ h]
  · by_cases hqp : q <+: p
    · obtain ⟨t, rfl⟩ := hqp
      have htne : t ≠ [] := by
        intro e
        subst e
        exact hpq (by simp)
      obtain ⟨s, es, _, h1, _⟩ := updateAt_ancestor _ _ _ _ _ h htne
      rw [hq] at h1
      cases h1
    · exact ⟨e, by rw [updateAt_frame _ _ _ _ _ h hpq hqp, hq]⟩

/-- What `Remove` does for a plain name whose record is a file. -/
theorem remove_spec (root : Path) (tn : String) (fs : Node) (s1 s2 : Nat)
    (es1 es2 : List (String × Node)) (data : List Nat) (hpl : PlainName tn)
    (hfd : stat fs (root ++ ["files"]) = .ok (.dir s1 es1))
    (hid : stat fs (root ++ ["info"]) = .ok (.dir s2 es2))
    (hrec : lookupEntry (tn ++ ".json") es2 = some (.file data))
    (hc : lookupEntry tn es1 = none → nameBytes tn ≤ nameMax) :
    ∃ fs2, (mkManager root).Remove fs tn = (fs2, none) ∧
      stat fs2 (root ++ ["files"]) = .ok (.dir s1 (eraseEntry tn es1)) ∧
      stat fs2 (root ++ ["info"]) = .ok (.dir s2 (eraseEntry (tn ++ ".json") es2)) ∧
      (∀ q, ¬ (root ++ ["files"] ++ [tn]) <+: q → ¬ q <+: (root ++ ["files"] ++ [tn]) →
        ¬ (root ++ ["info"] ++ [tn ++ ".json"]) <+: q →
        ¬ q <+: (root ++ ["info"] ++ [tn ++ ".json"]) → stat fs2 q = stat fs q) ∧
      (∀ q e, stat fs q = .error e → ∃ e1, stat fs2 q = .error e1) := by
  obtain ⟨fs1, hu1, hr1⟩ := removeAll_child fs _ tn s1 es1 hfd hc
  obtain ⟨_, _, h1a, h1b⟩ := updateAt_ok_listing _ _ _ _ _ hu1
  rw [hfd] at h1a
  cases h1a
  have hid1 : stat fs1 (root ++ ["info"]) = .ok (.dir s2 es2) := by
    rw [updateAt_frame _ _ _ _ _ hu1 (by simp) (by simp), hid]
  have hrec1 : stat fs1 (root ++ ["info"] ++ [tn ++ ".json"]) = .ok (.file data) :=
    stat_child _ _ _ _ _ _ hid1 hrec
  obtain ⟨fs2, hu2, h2⟩ := updateAt_snoc none (tn ++ ".json") _ fs1 s2 es2 hid1
  refine ⟨fs2, ?_, ?_, h2, ?_, ?_⟩
  · simp only [Manager.Remove, mkManager, join_plain _ _ hpl, join_plain _ _ (json_plain _ hpl.1),
      hr1, remove_file _ _ _ (by simp) hrec1, hu2]
  · rw [updateAt_frame _ _ _ _ _ hu2 (by simp) (by simp), h1b]
    rfl
  · intro q q1 q2 q3 q4
    rw [updateAt_frame _ _ _ _ _ hu2 q3 q4, updateAt_frame _ _ _ _ _ hu1 q1 q2]
  · intro q e hq
    obtain ⟨e1, hq1⟩ := updateAt_none_error _ _ _ _ _ hu1 hq
    exact updateAt_none_error _ _ _ _ _ hu2 hq1

/-! ## Unknown trash names (C10) -/

/-- C10, as stated, fails: after `Put` of `/w/a.json` the store has no metadata record
for the name `../files/20240102_030405_a`, yet `Remove` of that name reports success
(it resolves the record path to the payload of the trashed file and deletes it). -/
theorem unknown_name_counterexample :
    ¬ HasRecord demoCodec (mkManager ["t"]) demoJsonTrashed "../files/20240102_030405_a" ∧
      ((mkManager ["t"]).Remove demoJsonTrashed "../files/20240102_030405_a").2 = none ∧
      stat ((mkManager ["t"]).Remove demoJsonTrashed "../files/20240102_030405_a").1
        ["t", "files", "20240102_030405_a.json"] = .error .ENOENT := by
  refine ⟨?_, rfl, rfl⟩
  rintro ⟨s, es, data, item, h1, h2, _⟩
  have h0 : stat demoJsonTrashed (mkManager ["t"]).infoDir =
      .ok (.dir 4096 [("20240102_030405_a.json.json", .file (demoCodec.marshal
        ⟨["w", "a.json"], ["t", "files", "20240102_030405_a.json"], demoTime, 2⟩))]) := rfl
  rw [h0] at h1
  cases h1
  have h3 : lookupEntry ("../files/20240102_030405_a" ++ ".json")
      [("20240102_030405_a.json.json", Node.file (demoCodec.marshal
        ⟨["w", "a.json"], ["t", "files", "20240102_030405_a.json"], demoTime, 2⟩))] = none := rfl
  rw [h3] at h2
  cases h2

/-- `Remove` of a plain name that has no entry in the metadata area fails with the
error of the missing record: after `RemoveAll` of the payload path, or at once when
the payload name itself is beyond the length limit and has no entry. -/
theorem remove_norecord_spec (root : Path) (tn : String) (fs : Node) (s1 s2 : Nat)
    (es1 es2 : List (String × Node)) (hpl : PlainName tn)
    (hfd : stat fs (root ++ ["files"]) = .ok (.dir s1 es1))
    (hid : stat fs (root ++ ["info"]) = .ok (.dir s2 es2))
    (hno : lookupEntry (tn ++ ".json") es2 = none) :
    ∃ fs1, updateAt none fs (root ++ ["files"] ++ [tn]) = .ok fs1 ∧
      (mkManager root).Remove fs tn = (fs1, some (.sys (missing (tn ++ ".json")))) := by
  by_cases hc : lookupEntry tn es1 = none ∧ nameMax < nameBytes tn
  · have hidm : updateAt none fs (root ++ ["files"] ++ [tn]) = .ok fs := by
      rw [modifyAt_eq_updateAt]
      exact modifyAt_id _ _ _ _ _ hfd (eraseEntry_of_lookup_none _ _ hc.1)
    refine ⟨fs, hidm, ?_⟩
    have hlong : missing (tn ++ ".json") = .ENAMETOOLONG :=
      missing_of_lt _ (by rw [nameBytes_json]; omega)
    simp only [Manager.Remove, mkManager, join_plain _ _ hpl, join_plain _ _ (json_plain _ hpl.1),
      removeAll_long _ _ _ _ _ hfd hc.1 hc.2, hlong]
  · obtain ⟨fs1, hu1, hr1⟩ := removeAll_child fs _ tn s1 es1 hfd (fun hl => by
      by_contra hlt
      exact hc ⟨hl, by omega⟩)
    have hs : stat fs (root ++ ["info"] ++ [tn ++ ".json"]) = .error (missing (tn ++ ".json")) :=
      missing_of_lookup_none _ _ _ _ _ [] hid hno
    have hs1 : stat fs1 (root ++ ["info"] ++ [tn ++ ".json"]) =
        .error (missing (tn ++ ".json")) := by
      rw [updateAt_frame _ _ _ _ _ hu1 (by simp) (by simp), hs]
    have hrm : remove fs1 (root ++ ["info"] ++ [tn ++ ".json"]) =
        .error (missing (tn ++ ".json")) := by
      cases hp : root ++ ["info"] ++ [tn ++ ".json"] with
      | nil => simp at hp
      | cons a r =>
        rw [hp] at hs1
        simp only [remove, hs1]
    refine ⟨fs1, hu1, ?_⟩
    simp only [Manager.Remove, mkManager, join_plain _ _ hpl, join_plain _ _ (json_plain _ hpl.1),
      hr1, hrm]

/-- C10, amended. Unknown plain trash names are rejected: in a store whose two
directories exist, for a plain trash name (a single path element) with no entry
`trashName.json` in the metadata area, `Restore` and `Remove` both return the error
of the missing record, `missing (trashName ++ ".json")`: the not-found error
`ENOENT` whenever the record name is within the 255 bytes of a file name, the
name-too-long error beyond; neither reports success. -/
theorem unknown_name_rejected (j : Codec) (root : Path) (fs : Node) (trashName : String)
    (s1 s2 : Nat) (es1 es2 : List (String × Node)) (hpl : PlainName trashName)
    (hfd : stat fs (mkManager root).filesDir = .ok (.dir s1 es1))
    (hid : stat fs (mkManager root).infoDir = .ok (.dir s2 es2))
    (hno : lookupEntry (trashName ++ ".json") es2 = none) :
    ((mkManager root).Restore j fs trashName).2 = some (.sys (missing (trashName ++ ".json"))) ∧
      ((mkManager root).Remove fs trashName).2 = some (.sys (missing (trashName ++ ".json"))) ∧
      (nameBytes (trashName ++ ".json") ≤ nameMax →
        ((mkManager root).Restore j fs trashName).2 = some (.sys .ENOENT) ∧
        ((mkManager root).Remove fs trashName).2 = some (.sys .ENOENT)) := by
  have hs : stat fs (root ++ ["info"] ++ [trashName ++ ".json"]) =
      .error (missing (trashName ++ ".json")) :=
    missing_of_lookup_none _ _ _ _ _ [] hid hno
  have h1 : ((mkManager root).Restore j fs trashName).2 =
      some (.sys (missing (trashName ++ ".json"))) := by
    simp only [Manager.Restore, mkManager, join_plain _ _ (json_plain _ hpl.1), loadItemInfo,
      readFile, hs]
  have h2 : ((mkManager root).Remove fs trashName).2 =
      some (.sys (missing (trashName ++ ".json"))) := by
    obtain ⟨fs1, _, hr⟩ := remove_norecord_spec root trashName fs s1 s2 es1 es2 hpl hfd hid hno
    rw [hr]
  refine ⟨h1, h2, fun hfit => ?_⟩
  rw [h1, h2, missing_of_le _ hfit]
  exact ⟨rfl, rfl⟩

/-- An instance of C10: the name `nosuch` on `demoTrashed`. -/
theorem unknown_name_rejected_witness :
    PlainName "nosuch" ∧
      stat demoTrashed (mkManager ["t"]).filesDir =
        .ok (.dir 4096 [("20240102_030405_a.txt", .file [104, 105, 10])]) ∧
      stat demoTrashed (mkManager ["t"]).infoDir =
        .ok (.dir 4096 [("20240102_030405_a.txt.json", .file (demoCodec.marshal
          ⟨["w", "a.txt"], ["t", "files", "20240102_030405_a.txt"], demoTime, 3⟩))]) ∧
      lookupEntry ("nosuch" ++ ".json") [("20240102_030405_a.txt.json", .file (demoCodec.marshal
          ⟨["w", "a.txt"], ["t", "files", "20240102_030405_a.txt"], demoTime, 3⟩))] = none ∧
      nameBytes ("nosuch" ++ ".json") ≤ nameMax ∧
      ((mkManager ["t"]).Restore demoCodec demoTrashed "nosuch").2 = some (.sys .ENOENT) ∧
      ((mkManager ["t"]).Remove demoTrashed "nosuch").2 = some (.sys .ENOENT) :=
  ⟨⟨by decide, by decide, by decide, by decide⟩, rfl, rfl, rfl, by decide,
    (unknown_name_rejected demoCodec ["t"] demoTrashed "nosuch" 4096 4096 _ _
      ⟨by decide, by decide, by decide, by decide⟩ rfl rfl rfl).2.2 (by decide)⟩

/-! ## Empty (C8) -/

theorem modifyAt_congr (f g : List (String × Node) → List (String × Node)) (d : Path)
    (fs : Node) (s : Nat) (es : List (String × Node)) (h : stat fs d = .ok (.dir s es))
    (hfg : f es = g es) : modifyAt f fs d = modifyAt g fs d := by
  induction d generalizing fs with
  | nil =>
    rw [stat_nil] at h
    cases h
    simp [modifyAt, hfg]
  | cons a d1 ih =>
    cases fs with
    | file b => simp [stat_file_cons] at h
    | dir s0 es0 =>
      rw [stat_dir_cons] at h
      cases hl : lookupEntry a es0 with
      | none => simp [hl] at h
      | some m =>
        simp only [hl] at h
        simp [modifyAt, hl, ih m h]

theorem mkdirChain_child (fs : Node) (d : Path) (c : String) (s : Nat)
    (es : List (String × Node)) (h : stat fs d = .ok (.dir s es))
    (hl : lookupEntry c es = none) (hc : nameBytes c ≤ nameMax) :
    mkdirChain fs (d ++ [c]) = modifyAt (setEntry c (.dir freshDirSize [])) fs d := by
  induction d generalizing fs with
  | nil =>
    rw [stat_nil] at h
    cases h
    simp [mkdirChain, modifyAt, hl, Nat.not_lt.mpr hc]
  | cons a d1 ih =>
    cases fs with
    | file b => simp [stat_file_cons] at h
    | dir s0 es0 =>
      rw [stat_dir_cons] at h
      cases hl0 : lookupEntry a es0 with
      | none => simp [hl0] at h
      | some m =>
        simp only [hl0] at h
        simp [mkdirChain, modifyAt, hl0, ih m h]

/-- Making a missing directory in an existing one. -/
theorem mkdirAll_child (fs : Node) (d : Path) (c : String) (s : Nat)
    (es : List (String × Node)) (h : stat fs d = .ok (.dir s es))
    (hl : lookupEntry c es = none) (hc : nameBytes c ≤ nameMax) :
    mkdirAll fs (d ++ [c]) = modifyAt (setEntry c (.dir freshDirSize [])) fs d := by
  have hs := enoent_of_lookup_none _ _ _ _ c [] h hl hc
  simp only [mkdirAll, hs, mkdirChain_child fs d c s es h hl hc]

theorem removeAll_child_modify (fs : Node) (d : Path) (c : String) (s : Nat)
    (es : List (String × Node)) (h : stat fs d = .ok (.dir s es))
    (hc : nameBytes c ≤ nameMax) :
    ∃ fs1, removeAll fs (d ++ [c]) = (fs1, none) ∧ modifyAt (eraseEntry c) fs d = .ok fs1 ∧
      stat fs1 d = .ok (.dir s (eraseEntry c es)) := by
  obtain ⟨fs1, hu, hr⟩ := removeAll_child fs d c s es h (fun _ => hc)
  obtain ⟨_, _, h1, h2⟩ := updateAt_ok_listing _ _ _ _ _ hu
  rw [h] at h1
  cases h1
  rw [modifyAt_eq_updateAt] at hu
  exact ⟨fs1, hr, hu, h2⟩

theorem emptyListing_eq (es : List (String × Node)) :
    emptyListing es = eraseEntry "info" (eraseEntry "files" es) ++
      [("files", .dir freshDirSize []), ("info", .dir freshDirSize [])] := by
  have h1 : lookupEntry "files" (eraseEntry "info" (eraseEntry "files" es)) = none := by
    simp [lookupEntry_eraseEntry]
  have h2 : lookupEntry "info" (eraseEntry "info" (eraseEntry "files" es) ++
      [("files", .dir freshDirSize [])]) = none := by
    rw [← setEntry_of_lookup_none _ _ _ h1, lookupEntry_setEntry]
    simp [lookupEntry_eraseEntry]
  unfold emptyListing
  rw [setEntry_of_lookup_none _ _ _ h1, setEntry_of_lookup_none _ _ _ h2]
  simp

theorem emptyListing_idem (es : List (String × Node)) :
    emptyListing (emptyListing es) = emptyListing es := by
  have h1 : lookupEntry "files" (eraseEntry "info" (eraseEntry "files" es)) = none := by
    simp [lookupEntry_eraseEntry]
  have h2 : lookupEntry "info" (eraseEntry "info" (eraseEntry "files" es)) = none := by
    simp [lookupEntry_eraseEntry]
  rw [emptyListing_eq (emptyListing es), emptyListing_eq es]
  simp [eraseEntry_append, eraseEntry_of_lookup_none _ _ h1, eraseEntry_of_lookup_none _ _ h2,
    eraseEntry]

/-- What `Empty` does when the store root is a directory. -/
theorem empty_spec (root : Path) (fs : Node) (s : Nat) (es : List (String × Node))
    (hroot : stat fs root = .ok (.dir s es)) :
    ∃ fs4, (mkManager root).Empty fs = (fs4, none) ∧ modifyAt emptyListing fs root = .ok fs4 ∧
      stat fs4 root = .ok (.dir s (emptyListing es)) := by
  obtain ⟨fs1, hr1, hm1, hs1⟩ := removeAll_child_modify fs root "files" s es hroot (by decide)
  obtain ⟨fs2, hr2, hm2, hs2⟩ := removeAll_child_modify fs1 root "info" s _ hs1 (by decide)
  have hl3 : lookupEntry "files" (eraseEntry "info" (eraseEntry "files" es)) = none := by
    simp [lookupEntry_eraseEntry]
  have hk3 := mkdirAll_child fs2 root "files" s _ hs2 hl3 (by decide)
  obtain ⟨fs3, hm3, hs3⟩ := modifyAt_stat (setEntry "files" (.dir freshDirSize [])) root fs2 s _ hs2
  have hl4 : lookupEntry "info" (setEntry "files" (.dir freshDirSize [])
      (eraseEntry "info" (eraseEntry "files" es))) = none := by
    simp [lookupEntry_setEntry, lookupEntry_eraseEntry]
  have hk4 := mkdirAll_child fs3 root "info" s _ hs3 hl4 (by decide)
  obtain ⟨fs4, hm4, hs4⟩ := modifyAt_stat (setEntry "info" (.dir freshDirSize [])) root fs3 s _ hs3
  refine ⟨fs4, ?_, ?_, hs4⟩
  · simp only [Manager.Empty, mkManager, hr1, hr2, hk3, hm3, hk4, hm4]
  · have c2 := modifyAt_comp _ (eraseEntry "info") root fs fs1 hm1
    rw [hm2] at c2
    have c3 := modifyAt_comp _ (setEntry "files" (.dir freshDirSize [])) root fs fs2 c2.symm
    rw [hm3] at c3
    have c4 := modifyAt_comp _ (setEntry "info" (.dir freshDirSize [])) root fs fs3 c3.symm
    rw [hm4] at c4
    exact c4.symm

/-- C8. `Empty` discards everything and is idempotent: whenever the store root is a
directory, whatever it holds, `Empty` succeeds, afterwards the payload and the
metadata directory both exist and are empty, `List` returns the empty collection,
and a second `Empty` succeeds and leaves the very same file system. -/
theorem empty_idempotent (j : Codec) (root : Path) (fs : Node) (s : Nat)
    (es : List (String × Node)) (hroot : stat fs root = .ok (.dir s es)) :
    ∃ fs1, (mkManager root).Empty fs = (fs1, none) ∧
      stat fs1 (mkManager root).filesDir = .ok (.dir freshDirSize []) ∧
      stat fs1 (mkManager root).infoDir = .ok (.dir freshDirSize []) ∧
      (mkManager root).List j fs1 = .ok [] ∧
      (mkManager root).Empty fs1 = (fs1, none) := by
  obtain ⟨fs1, h1, h2, h3⟩ := empty_spec root fs s es hroot
  obtain ⟨fs2, k1, k2, _⟩ := empty_spec root fs1 s _ h3
  have hf : stat fs1 (root ++ ["files"]) = .ok (.dir freshDirSize []) :=
    stat_child _ _ _ _ _ _ h3 (by
      unfold emptyListing
      simp [lookupEntry_setEntry])
  have hi : stat fs1 (root ++ ["info"]) = .ok (.dir freshDirSize []) :=
    stat_child _ _ _ _ _ _ h3 (by
      unfold emptyListing
      simp [lookupEntry_setEntry])
  refine ⟨fs1, h1, hf, hi, ?_, ?_⟩
  · rw [list_eq j root fs1 _ _ hi]
    rfl
  · have c := modifyAt_comp _ emptyListing root fs fs1 h2
    rw [k2, modifyAt_congr (emptyListing ∘ emptyListing) emptyListing root fs s es hroot
      (emptyListing_idem es), h2] at c
    cases c
    exact k1

/-- An instance of C8: `Empty` on `demoTrashed`. -/
theorem empty_idempotent_witness :
    stat demoTrashed ["t"] = .ok (.dir 4096
        [("files", .dir 4096 [("20240102_030405_a.txt", .file [104, 105, 10])]),
          ("info", .dir 4096 [("20240102_030405_a.txt.json", .file (demoCodec.marshal
            ⟨["w", "a.txt"], ["t", "files", "20240102_030405_a.txt"], demoTime, 3⟩))])]) ∧
      ∃ fs1, (mkManager ["t"]).Empty demoTrashed = (fs1, none) ∧
        stat fs1 (mkManager ["t"]).filesDir = .ok (.dir freshDirSize []) ∧
        stat fs1 (mkManager ["t"]).infoDir = .ok (.dir freshDirSize []) ∧
        (mkManager ["t"]).List demoCodec fs1 = .ok [] ∧
        (mkManager ["t"]).Empty fs1 = (fs1, none) :=
  ⟨rfl, empty_idempotent demoCodec ["t"] demoTrashed 4096 _ rfl⟩

/-- `NewManager` on a root directory without `files` and `info` makes both and
gives a fresh store. -/
theorem newManager_fresh (fs : Node) (root : Path) (s : Nat) (es : List (String × Node))
    (hroot : stat fs root = .ok (.dir s es)) (h1 : lookupEntry "files" es = none)
    (h2 : lookupEntry "info" es = none) :
    ∃ fs2, NewManager fs root = (fs2, .ok (mkManager root)) ∧ Fresh (mkManager root) fs2 := by
  have k1 := mkdirAll_child fs root "files" s es hroot h1 (by decide)
  obtain ⟨fs1, m1, s1⟩ := modifyAt_stat (setEntry "files" (.dir freshDirSize [])) root fs s es hroot
  have h3 : lookupEntry "info" (setEntry "files" (.dir freshDirSize []) es) = none := by
    simp [lookupEntry_setEntry, h2]
  have k2 := mkdirAll_child fs1 root "info" s _ s1 h3 (by decide)
  obtain ⟨fs2, m2, s2⟩ := modifyAt_stat (setEntry "info" (.dir freshDirSize [])) root fs1 s _ s1
  refine ⟨fs2, ?_, freshDirSize, freshDirSize, ?_, ?_⟩
  · simp only [NewManager, k1, m1, k2, m2]
  · exact stat_child _ _ _ _ _ _ s2 (by simp [lookupEntry_setEntry])
  · exact stat_child _ _ _ _ _ _ s2 (by simp [lookupEntry_setEntry])

/-! ## The probing loop: when it returns, and what -/

theorem digitChar_value (d : Nat) (h : d < 10) : (Nat.digitChar d).toNat - 48 = d := by
  interval_cases d <;> rfl

theorem toDigitsCore_value (fuel n : Nat) (ds : List Char) (h : n < fuel) :
    (Nat.toDigitsCore 10 fuel n ds).foldl (fun a c => 10 * a + (c.toNat - 48)) 0 =
      ds.foldl (fun a c => 10 * a + (c.toNat - 48)) n := by
  induction fuel generalizing n ds with
  | zero => omega
  | succ f ih =>
    simp only [Nat.toDigitsCore]
    split
    · rename_i h0
      simp only [List.foldl_cons, Nat.mul_zero, Nat.zero_add,
        digitChar_value _ (Nat.mod_lt n (by decide))]
      have : n % 10 = n := by omega
      rw [this]
    · rename_i h0
      rw [ih (n / 10) _ (by omega)]
      simp only [List.foldl_cons, digitChar_value _ (Nat.mod_lt n (by decide))]
      have : 10 * (n / 10) + n % 10 = n := Nat.div_add_mod n 10
      rw [this]

theorem decimalValue_repr (n : Nat) : decimalValue (Nat.repr n).data = n := by
  simp only [decimalValue, Nat.repr, Nat.toDigits, List.asString]
  rw [toDigitsCore_value _ _ _ (Nat.lt_succ_self n)]
  rfl

theorem repr_injective (a b : Nat) (h : Nat.repr a = Nat.repr b) : a = b := by
  have := congrArg (fun s => decimalValue (String.data s)) h
  simpa [decimalValue_repr] using this

theorem candidate_injective (ts b : String) (i k : Nat) (h : candidate ts b i = candidate ts b k) :
    i = k := by
  cases i with
  | zero =>
    cases k with
    | zero => rfl
    | succ k =>
      have := congrArg (fun s => (String.data s).length) h
      simp [candidate, String.data_append] at this
  | succ i =>
    cases k with
    | zero =>
      have := congrArg (fun s => (String.data s).length) h
      simp [candidate, String.data_append] at this
    | succ k =>
      have h2 := congrArg String.data h
      simp only [candidate, String.data_append, List.append_cancel_left_eq] at h2
      exact repr_injective _ _ (String.ext h2)

theorem candidate_plain (ts b : String) (i : Nat) (hts : '/' ∉ ts.data) (hb : '/' ∉ b.data) :
    PlainName (candidate ts b i) := by
  cases i with
  | zero => exact trashName_plain ts b hts hb
  | succ k => exact trashName_counter_plain ts b (k + 1) hts hb

/-- The probing loop started at candidate `i` returns the first free candidate
among the next `fuel` ones. -/
theorem probe_finds (fs : Node) (fd : Path) (ts b : String) (fuel i n : Nat)
    (hbusy : ∀ k, k < n → stat fs (join fd (candidate ts b (i + k))) ≠ .error .ENOENT)
    (hfree : stat fs (join fd (candidate ts b (i + n))) = .error .ENOENT) (hfuel : n < fuel) :
    probe fs fd ts b fuel (i + 1) (candidate ts b i) = some (candidate ts b (i + n)) := by
  induction n generalizing i fuel with
  | zero =>
    cases fuel with
    | zero => omega
    | succ f => exact probe_free fs fd ts b f (i + 1) _ hfree
  | succ n ih =>
    cases fuel with
    | zero => omega
    | succ f =>
      have h0 := hbusy 0 (Nat.succ_pos n)
      have hne : isNotExist (stat fs (join fd (candidate ts b i))) = false := by
        cases hx : isNotExist (stat fs (join fd (candidate ts b i))) with
        | false => rfl
        | true => exact absurd ((isNotExist_iff _).mp hx) h0
      simp only [probe, hne, Bool.false_eq_true, if_false]
      have := ih f (i + 1) (fun k hk => by
        have := hbusy (k + 1) (by omega)
        rwa [show i + (k + 1) = i + 1 + k by omega] at this)
        (by rwa [show i + 1 + n = i + (n + 1) by omega]) (by omega)
      rw [show i + 1 + n = i + (n + 1) by omega] at this
      exact this

theorem countList_ge_length (es : List (String × Node)) : es.length ≤ Node.countList es := by
  induction es with
  | nil => simp [Node.countList]
  | cons e rest ih =>
    have h1 : 1 ≤ Node.count e.2 := by
      cases e.2 <;> simp [Node.count]
    simp only [Node.countList, List.length_cons]
    omega

theorem mem_keys_of_lookup (c : String) (es : List (String × Node))
    (h : lookupEntry c es ≠ none) : c ∈ es.map Prod.fst := by
  cases hl : lookupEntry c es with
  | none => exact absurd hl h
  | some n => exact List.mem_map.mpr ⟨(c, n), mem_of_lookupEntry _ _ _ hl, rfl⟩

theorem mem_keys_iff_lookup (c : String) (es : List (String × Node)) :
    c ∈ es.map Prod.fst ↔ lookupEntry c es ≠ none := by
  induction es with
  | nil => simp [lookupEntry]
  | cons e rest ih =>
    by_cases he : e.1 = c
    · simp [lookupEntry, he]
    · have : ¬ c = e.1 := fun x => he x.symm
      simp only [List.map_cons, List.mem_cons, this, false_or, ih, lookupEntry, he, if_false]

theorem lookup_of_mem_nodup (c : String) (n : Node) (es : List (String × Node))
    (hnd : (es.map Prod.fst).Nodup) (h : (c, n) ∈ es) : lookupEntry c es = some n := by
  induction es with
  | nil => simp at h
  | cons e rest ih =>
    simp only [List.map_cons, List.nodup_cons] at hnd
    rcases List.mem_cons.mp h with h | h
    · subst h
      simp [lookupEntry]
    · have : e.1 ≠ c := by
        intro x
        apply hnd.1
        rw [x]
        exact List.mem_map.mpr ⟨(c, n), h, rfl⟩
      simp only [lookupEntry, this, if_false]
      exact ih hnd.2 h

/-- Some candidate with index at most the number of entries is free. -/
theorem exists_free_candidate (ts b : String) (es : List (String × Node)) :
    ∃ n, n ≤ es.length ∧ lookupEntry (candidate ts b n) es = none ∧
      ∀ k, k < n → lookupEntry (candidate ts b k) es ≠ none := by
  by_contra hcon
  push_neg at hcon
  have hall : ∀ n, n ≤ es.length → lookupEntry (candidate ts b n) es ≠ none := by
    intro n
    induction n using Nat.strong_induction_on with
    | _ n ih =>
      intro hn hl
      obtain ⟨k, hk, hk2⟩ := hcon n hn hl
      exact ih k hk (by omega) hk2
  have hsub : (List.range (es.length + 1)).map (candidate ts b) ⊆ es.map Prod.fst := by
    intro x hx
    obtain ⟨n, hn, rfl⟩ := List.mem_map.mp hx
    exact mem_keys_of_lookup _ _ (hall n (by simpa [Nat.lt_succ_iff] using hn))
  have hnd : ((List.range (es.length + 1)).map (candidate ts b)).Nodup :=
    (List.nodup_range _).map (fun i k h => candidate_injective ts b i k h)
  have := (List.subperm_of_subset hnd hsub).length_le
  simp at this

/-- Bytes of a decimal numeral: for `n < fuel` the digits `toDigitsCore` puts in
front of `ds` are `k` one-byte characters, where `k` is the number of decimal
digits of `n`. -/
theorem toDigitsCore_bytes (f n : Nat) (ds : List Char) (hf : n < f) :
    ∃ k, String.utf8Len (Nat.toDigitsCore 10 f n ds) = k + String.utf8Len ds ∧ 1 ≤ k ∧
      n < 10 ^ k ∧ (k = 1 ∨ 10 ^ (k - 1) ≤ n) := by
  induction f generalizing n ds with
  | zero => omega
  | succ f ih =>
    have hd : (Nat.digitChar (n % 10)).utf8Size = 1 := by
      have hlt : n % 10 < 10 := Nat.mod_lt n (by decide)
      generalize n % 10 = d at hlt
      interval_cases d <;> rfl
    unfold Nat.toDigitsCore
    by_cases h0 : n / 10 = 0
    · simp only [h0, if_true]
      refine ⟨1, ?_, le_refl _, by omega, Or.inl rfl⟩
      rw [String.utf8Len_cons, hd]
      omega
    · simp only [h0, if_false]
      obtain ⟨k, h1, h2, h3, h4⟩ := ih (n / 10) (Nat.digitChar (n % 10) :: ds) (by omega)
      refine ⟨k + 1, ?_, by omega, ?_, Or.inr ?_⟩
      · rw [h1, String.utf8Len_cons, hd]
        omega
      · rw [pow_succ]
        omega
      · simp only [Nat.add_sub_cancel]
        rcases h4 with h4 | h4
        · subst h4
          simp
          omega
        · have : 10 ^ k = 10 ^ (k - 1) * 10 := by
            rw [← pow_succ]
            congr 1
            omega
          omega

theorem repr_bytes_mono (n m : Nat) (h : n ≤ m) :
    nameBytes (Nat.repr n) ≤ nameBytes (Nat.repr m) := by
  obtain ⟨k1, h1, _, _, h4⟩ := toDigitsCore_bytes (n + 1) n [] (by omega)
  obtain ⟨k2, g1, _, g3, _⟩ := toDigitsCore_bytes (m + 1) m [] (by omega)
  have e1 : nameBytes (Nat.repr n) = k1 := by
    show String.utf8Len (Nat.toDigitsCore 10 (n + 1) n []) = k1
    rw [h1]
    rfl
  have e2 : nameBytes (Nat.repr m) = k2 := by
    show String.utf8Len (Nat.toDigitsCore 10 (m + 1) m []) = k2
    rw [g1]
    rfl
  rw [e1, e2]
  by_contra hlt
  push_neg at hlt
  rcases h4 with h4 | h4
  · omega
  · have : 10 ^ k2 ≤ 10 ^ (k1 - 1) := Nat.pow_le_pow_right (by norm_num) (by omega)
    omega

/-- The candidates the loop tries do not get shorter. -/
theorem candidate_bytes_mono (ts b : String) (k n : Nat) (h : k ≤ n) :
    nameBytes (candidate ts b k) ≤ nameBytes (candidate ts b n) := by
  cases n with
  | zero =>
    have : k = 0 := by omega
    subst this
    exact le_refl _
  | succ n =>
    cases k with
    | zero =>
      simp only [candidate]
      rw [nameBytes_append (ts ++ "_" ++ b ++ "_"), nameBytes_append (ts ++ "_" ++ b)]
      omega
    | succ k =>
      simp only [candidate]
      rw [nameBytes_append (ts ++ "_" ++ b ++ "_"), nameBytes_append (ts ++ "_" ++ b ++ "_")]
      have := repr_bytes_mono (k + 1) (n + 1) (by omega)
      omega

/-- What `stat` says of a candidate in the payload directory. -/
theorem candidate_stat (fs : Node) (fd : Path) (ts b : String) (s : Nat)
    (es : List (String × Node)) (hfd : stat fs fd = .ok (.dir s es))
    (hts : '/' ∉ ts.data) (hb : '/' ∉ b.data) (k : Nat) :
    stat fs (join fd (candidate ts b k)) =
      match lookupEntry (candidate ts b k) es with
      | none => .error (missing (candidate ts b k))
      | some m => .ok m := by
  rw [join_plain _ _ (candidate_plain ts b k hts hb), stat_snoc_of_parent _ _ _ _ _ _ hfd]
  cases lookupEntry (candidate ts b k) es with
  | none => rfl
  | some m => exact stat_nil m

/-- When no candidate from the `i`-th on is reported as not existing, the loop does
not return, whatever the fuel. -/
theorem probe_spins (fs : Node) (fd : Path) (ts b : String) (fuel i : Nat)
    (hbusy : ∀ k, stat fs (join fd (candidate ts b (i + k))) ≠ .error .ENOENT) :
    probe fs fd ts b fuel (i + 1) (candidate ts b i) = none := by
  induction fuel generalizing i with
  | zero => rfl
  | succ f ih =>
    have hne : isNotExist (stat fs (join fd (candidate ts b i))) = false := by
      cases hx : isNotExist (stat fs (join fd (candidate ts b i))) with
      | false => rfl
      | true => exact absurd ((isNotExist_iff _).mp hx) (hbusy 0)
    simp only [probe, hne, Bool.false_eq_true, if_false]
    exact ih (i + 1) (fun k => by
      have := hbusy (k + 1)
      rwa [show i + (k + 1) = i + 1 + k by omega] at this)

/-- The probing loop of `Put` in a payload directory, completely.  Let `n` be the
first candidate that has no entry.  When its name is within the length limit the
loop returns it, for every fuel above `n`, and `n` is at most the number of entries,
so the fuel `Put` gives is enough.  When its name is beyond the limit, `stat` never
reports a candidate as not existing and the loop returns for no fuel at all. -/
theorem probe_total (fs : Node) (fd : Path) (ts b : String) (s : Nat)
    (es : List (String × Node)) (hfd : stat fs fd = .ok (.dir s es))
    (hts : '/' ∉ ts.data) (hb : '/' ∉ b.data) :
    ∃ n, n ≤ es.length ∧ lookupEntry (candidate ts b n) es = none ∧
      (∀ k, k < n → lookupEntry (candidate ts b k) es ≠ none) ∧
      (nameBytes (candidate ts b n) ≤ nameMax → ∀ fuel, n < fuel →
        probe fs fd ts b fuel 1 (ts ++ "_" ++ b) = some (candidate ts b n)) ∧
      (nameMax < nameBytes (candidate ts b n) → ∀ fuel,
        probe fs fd ts b fuel 1 (ts ++ "_" ++ b) = none) := by
  obtain ⟨n, hn, hfree, hbusy⟩ := exists_free_candidate ts b es
  have hstat := candidate_stat fs fd ts b s es hfd hts hb
  refine ⟨n, hn, hfree, hbusy, ?_, ?_⟩
  · intro hfit fuel hfuel
    have := probe_finds fs fd ts b fuel 0 n
      (fun k hk => by
        rw [Nat.zero_add, hstat k]
        cases hl : lookupEntry (candidate ts b k) es with
        | none => exact absurd hl (hbusy k hk)
        | some m => simp)
      (by rw [Nat.zero_add, hstat n, hfree, missing_of_le _ hfit]) hfuel
    simpa [candidate] using this
  · intro hlong fuel
    have := probe_spins fs fd ts b fuel 0 (fun k => by
      rw [Nat.zero_add, hstat k]
      cases hl : lookupEntry (candidate ts b k) es with
      | some m => simp
      | none =>
        by_cases hk : k < n
        · exact absurd hl (hbusy k hk)
        · have := candidate_bytes_mono ts b n k (by omega)
          simp [missing_of_lt _ (show nameMax < nameBytes (candidate ts b k) by omega)])
    simpa [candidate] using this

theorem probeFuel_gt (fs : Node) (fd : Path) (s : Nat) (es : List (String × Node))
    (hfd : stat fs fd = .ok (.dir s es)) : es.length < probeFuel fs fd := by
  have := countList_ge_length es
  simp only [probeFuel, hfd, Node.count]
  omega

/-- The probing loop of `Put` terminates in a payload directory when the candidates
it may have to try are within the length limit: with the fuel `Put` gives it, it
returns the first free candidate. -/
theorem probe_terminates (fs : Node) (fd : Path) (ts b : String) (s : Nat)
    (es : List (String × Node)) (hfd : stat fs fd = .ok (.dir s es))
    (hts : '/' ∉ ts.data) (hb : '/' ∉ b.data)
    (hfit : nameBytes (candidate ts b es.length) ≤ nameMax) :
    ∃ n, probe fs fd ts b (probeFuel fs fd) 1 (ts ++ "_" ++ b) = some (candidate ts b n) ∧
      n ≤ es.length ∧ lookupEntry (candidate ts b n) es = none ∧
      ∀ k, k < n → lookupEntry (candidate ts b k) es ≠ none := by
  obtain ⟨n, hn, hfree, hbusy, hret, _⟩ := probe_total fs fd ts b s es hfd hts hb
  have hshort := candidate_bytes_mono ts b n es.length hn
  exact ⟨n, hret (by omega) _ (by have := probeFuel_gt fs fd s es hfd; omega), hn, hfree, hbusy⟩

/-- The probing loop of `Put` returns the first free candidate when that name is
within the length limit, with the fuel `Put` gives it. -/
theorem probe_least (fs : Node) (fd : Path) (ts b : String) (s : Nat)
    (es : List (String × Node)) (hfd : stat fs fd = .ok (.dir s es))
    (hts : '/' ∉ ts.data) (hb : '/' ∉ b.data) (k : Nat)
    (hfree : lookupEntry (candidate ts b k) es = none)
    (hmin : ∀ i, i < k → lookupEntry (candidate ts b i) es ≠ none)
    (hfit : nameBytes (candidate ts b k) ≤ nameMax) :
    probe fs fd ts b (probeFuel fs fd) 1 (ts ++ "_" ++ b) = some (candidate ts b k) := by
  obtain ⟨n, hn, hfree2, hbusy, hret, _⟩ := probe_total fs fd ts b s es hfd hts hb
  have hnk : n = k := by
    rcases Nat.lt_trichotomy n k with h | h | h
    · exact absurd hfree2 (hmin n h)
    · exact h
    · exact absurd hfree (hbusy k h)
  subst hnk
  exact hret hfit _ (by have := probeFuel_gt fs fd s es hfd; omega)

/-! ## Names beyond the length limit: when `Put` fails -/

/-- When the first name the probe tries is beyond the length limit, the loop of `Put`
returns for no amount of fuel: `Put` never returns. -/
theorem put_hang_spec (j : Codec) (root : Path) (wd path : String) (fs : Node)
    (now now2 : Time) (node : Node) (s1 : Nat) (es1 : List (String × Node))
    (hsrc : stat fs (abs wd path) = .ok node) (hane : abs wd path ≠ [])
    (hfd : stat fs (root ++ ["files"]) = .ok (.dir s1 es1))
    (hlong : nameMax < nameBytes (now.format ++ "_" ++ base (abs wd path))) :
    (∀ fuel, probe fs (root ++ ["files"]) now.format (base (abs wd path)) fuel 1
        (now.format ++ "_" ++ base (abs wd path)) = none) ∧
      (mkManager root).Put j wd fs path now now2 = (fs, some .hang) := by
  have hb : '/' ∉ (base (abs wd path)).data := (abs_plain wd path _ (base_mem _ hane)).1
  have hstat := candidate_stat fs (root ++ ["files"]) now.format (base (abs wd path)) s1 es1 hfd
    (format_noSlash now) hb
  have hall : ∀ fuel, probe fs (root ++ ["files"]) now.format (base (abs wd path)) fuel 1
      (now.format ++ "_" ++ base (abs wd path)) = none := by
    intro fuel
    have := probe_spins fs (root ++ ["files"]) now.format (base (abs wd path)) fuel 0 (fun k => by
      rw [Nat.zero_add, hstat k]
      cases hl : lookupEntry (candidate now.format (base (abs wd path)) k) es1 with
      | some m => simp
      | none =>
        have h0 : nameBytes (candidate now.format (base (abs wd path)) 0) ≤
            nameBytes (candidate now.format (base (abs wd path)) k) :=
          candidate_bytes_mono _ _ 0 k (by omega)
        have h1 : nameMax < nameBytes (candidate now.format (base (abs wd path)) k) := by
          have h00 : candidate now.format (base (abs wd path)) 0 =
              now.format ++ "_" ++ base (abs wd path) := rfl
          rw [h00] at h0
          omega
        simp [missing_of_lt _ h1])
    simpa [candidate] using this
  refine ⟨hall, ?_⟩
  simp only [Manager.Put, mkManager, hsrc, hall]

/-- A successful `Put` found its record name writable: within the length limit, or
the name of an entry that is there already. -/
theorem put_ok_fit (j : Codec) (root : Path) (wd path : String) (fs fs3 : Node)
    (now now2 : Time) (s1 s2 : Nat) (es1 es2 : List (String × Node))
    (hfd : stat fs (root ++ ["files"]) = .ok (.dir s1 es1))
    (hid : stat fs (root ++ ["info"]) = .ok (.dir s2 es2))
    (ho1 : ¬ (root ++ ["files"]) <+: abs wd path) (ho2 : ¬ (root ++ ["info"]) <+: abs wd path)
    (ha1 : ¬ abs wd path <+: (root ++ ["files"])) (ha2 : ¬ abs wd path <+: (root ++ ["info"]))
    (h : (mkManager root).Put j wd fs path now now2 = (fs3, none)) :
    ∃ node tn, stat fs (abs wd path) = .ok node ∧
      probe fs (root ++ ["files"]) now.format (base (abs wd path))
        (probeFuel fs (root ++ ["files"])) 1 (now.format ++ "_" ++ base (abs wd path)) =
        some tn ∧
      (lookupEntry (tn ++ ".json") es2 = none → nameBytes (tn ++ ".json") ≤ nameMax) := by
  obtain ⟨node, tn, hs, hp⟩ : ∃ node tn, stat fs (abs wd path) = .ok node ∧
      probe fs (root ++ ["files"]) now.format (base (abs wd path))
        (probeFuel fs (root ++ ["files"])) 1 (now.format ++ "_" ++ base (abs wd path)) =
        some tn := by
    unfold Manager.Put at h
    simp only [mkManager] at h
    cases hs : stat fs (abs wd path) with
    | error e => simp [hs] at h
    | ok node =>
      simp only [hs] at h
      cases hp : probe fs (root ++ ["files"]) now.format (base (abs wd path))
          (probeFuel fs (root ++ ["files"])) 1 (now.format ++ "_" ++ base (abs wd path)) with
      | none => simp [hp] at h
      | some tn => exact ⟨node, tn, rfl, rfl⟩
  refine ⟨node, tn, hs, hp, fun hno => ?_⟩
  by_contra hlong
  obtain ⟨fs2, hput, _⟩ := put_unfit_spec j root wd path fs now now2 node s1 s2 es1 es2 tn hs hfd
    hid ho1 ho2 ha1 ha2 hp hno (by omega)
  rw [hput] at h
  cases h

/-! ## Size (C7) -/

theorem duList_append (xs ys : List (String × Node)) :
    Node.duList (xs ++ ys) = Node.duList xs + Node.duList ys := by
  induction xs with
  | nil => simp [Node.duList]
  | cons e rest ih => simp [Node.duList, ih, Nat.add_assoc]

theorem size_eq (root : Path) (fs : Node) (s : Nat) (es : List (String × Node))
    (h : stat fs (root ++ ["files"]) = .ok (.dir s es)) :
    (mkManager root).Size fs = (Node.duList es, none) := by
  simp [Manager.Size, mkManager, h, Node.du]

mutual
/-- What `Size` adds up over a tree is the lengths of the regular files under it:
a directory adds nothing of its own. -/
theorem du_eq_regularFiles : ∀ n : Node, n.du = (n.regularFiles.map List.length).sum
  | .file b => by simp [Node.du, Node.regularFiles]
  | .dir _ es => by
    rw [Node.du, Node.regularFiles]
    exact duList_eq_regularFiles es
/-- The same for the entries of a directory. -/
theorem duList_eq_regularFiles : ∀ es : List (String × Node),
    Node.duList es = ((Node.regularFilesList es).map List.length).sum
  | [] => by simp [Node.duList, Node.regularFilesList]
  | e :: rest => by
    rw [Node.duList, Node.regularFilesList, List.map_append, List.sum_append,
      du_eq_regularFiles e.2, duList_eq_regularFiles rest]
end

/-- One successful `Put` of a regular file outside the store: the payload listing
grows by the file, the metadata listing holds no directory, and every path that is
neither the source nor one of the two new entries, nor above or below them, is as
it was. -/
theorem put_file_step (j : Codec) (root : Path) (wd path : String) (fs fs3 : Node)
    (now now2 : Time) (b : List Nat) (s1 s2 : Nat) (es1 es2 : List (String × Node))
    (hfd : stat fs (root ++ ["files"]) = .ok (.dir s1 es1))
    (hid : stat fs (root ++ ["info"]) = .ok (.dir s2 es2))
    (hrec : ∀ k s es, lookupEntry k es2 ≠ some (.dir s es))
    (hb : stat fs (abs wd path) = .ok (.file b))
    (ho1 : ¬ (root ++ ["files"]) <+: abs wd path) (ho2 : ¬ (root ++ ["info"]) <+: abs wd path)
    (hput : (mkManager root).Put j wd fs path now now2 = (fs3, none)) :
    ∃ tn es3, stat fs3 (root ++ ["files"]) = .ok (.dir s1 (es1 ++ [(tn, .file b)])) ∧
      stat fs3 (root ++ ["info"]) = .ok (.dir s2 es3) ∧
      (∀ k s es, lookupEntry k es3 ≠ some (.dir s es)) ∧
      ∀ q, ¬ abs wd path <+: q → ¬ q <+: abs wd path →
        ¬ (root ++ ["files"] ++ [tn]) <+: q → ¬ q <+: (root ++ ["files"] ++ [tn]) →
        ¬ (root ++ ["info"] ++ [tn ++ ".json"]) <+: q →
        ¬ q <+: (root ++ ["info"] ++ [tn ++ ".json"]) → stat fs3 q = stat fs q := by
  have ha1 := file_not_above _ _ _ _ _ _ hb hfd
  have ha2 := file_not_above _ _ _ _ _ _ hb hid
  obtain ⟨node, tn, hs, hprobe, hfit⟩ :=
    put_ok_fit j root wd path fs fs3 now now2 s1 s2 es1 es2 hfd hid ho1 ho2 ha1 ha2 hput
  rw [hb] at hs
  cases hs
  obtain ⟨fs4, hput4, _, _, hfd3, hid3, _, hframe, _⟩ :=
    put_spec j root wd path fs now now2 (.file b) s1 s2 es1 es2 tn hb hfd hid ho1 ho2 ha1 ha2
      (hrec _) hprobe hfit
  rw [hput] at hput4
  cases hput4
  refine ⟨tn, _, hfd3, hid3, ?_, hframe⟩
  intro k s es
  rw [lookupEntry_setEntry]
  split
  · simp
  · exact hrec k s es

/-- The other requested files are where they were after one `Put`. -/
theorem put_file_keeps (root : Path) (fs fs3 : Node) (p p2 : Path) (tn : String)
    (b b2 : List Nat) (s1 s2 : Nat) (es1 es2 : List (String × Node))
    (hfd : stat fs (root ++ ["files"]) = .ok (.dir s1 es1))
    (hid : stat fs (root ++ ["info"]) = .ok (.dir s2 es2))
    (hb : stat fs p = .ok (.file b)) (hb2 : stat fs p2 = .ok (.file b2)) (hne : p ≠ p2)
    (hq1 : ¬ (root ++ ["files"]) <+: p2) (hq2 : ¬ (root ++ ["info"]) <+: p2)
    (hframe : ∀ q, ¬ p <+: q → ¬ q <+: p →
      ¬ (root ++ ["files"] ++ [tn]) <+: q → ¬ q <+: (root ++ ["files"] ++ [tn]) →
      ¬ (root ++ ["info"] ++ [tn ++ ".json"]) <+: q →
      ¬ q <+: (root ++ ["info"] ++ [tn ++ ".json"]) → stat fs3 q = stat fs q) :
    stat fs3 p2 = stat fs p2 := by
  apply hframe
  · exact fun h => hne (file_prefix_eq _ _ _ _ _ hb hb2 h)
  · exact fun h => hne (file_prefix_eq _ _ _ _ _ hb2 hb h).symm
  · exact not_prefix_of_snoc _ _ _ hq1
  · intro h
    rcases (prefix_snoc_iff _ _ _).mp h with h | h
    · exact hq1 (h ▸ List.prefix_append _ _)
    · exact file_not_above _ _ _ _ _ _ hb2 hfd h
  · exact not_prefix_of_snoc _ _ _ hq2
  · intro h
    rcases (prefix_snoc_iff _ _ _).mp h with h | h
    · exact hq2 (h ▸ List.prefix_append _ _)
    · exact file_not_above _ _ _ _ _ _ hb2 hid h

/-- Invariant of a run of successful `Put` calls on regular files outside the
store. -/
theorem putMany_files (j : Codec) (root : Path) (wd : String)
    (reqs : List (String × Time × Time)) (fs : Node) (s1 s2 : Nat)
    (es1 es2 : List (String × Node))
    (hfd : stat fs (root ++ ["files"]) = .ok (.dir s1 es1))
    (hid : stat fs (root ++ ["info"]) = .ok (.dir s2 es2))
    (hrec : ∀ k s es, lookupEntry k es2 ≠ some (.dir s es))
    (hfiles : ∀ r ∈ reqs, ∃ b, stat fs (abs wd r.1) = .ok (.file b) ∧
      ¬ (root ++ ["files"]) <+: abs wd r.1 ∧ ¬ (root ++ ["info"]) <+: abs wd r.1)
    (hnd : (reqs.map (fun r => abs wd r.1)).Nodup)
    (hok : (putMany j (mkManager root) wd fs reqs).2 = true) :
    ∃ s es, stat (putMany j (mkManager root) wd fs reqs).1 (root ++ ["files"]) =
        .ok (.dir s es) ∧
      Node.duList es = Node.duList es1 + (reqs.map (fun r => sizeAt fs (abs wd r.1))).sum := by
  induction reqs generalizing fs es1 es2 with
  | nil => exact ⟨s1, es1, hfd, by simp⟩
  | cons r rest ih =>
    obtain ⟨b, hb, ho1, ho2⟩ := hfiles r (List.mem_cons_self _ _)
    cases hp : (mkManager root).Put j wd fs r.1 r.2.1 r.2.2 with
    | mk fs3 o =>
      cases o with
      | some e => simp [putMany, hp] at hok
      | none =>
        have hstep : putMany j (mkManager root) wd fs (r :: rest) =
            putMany j (mkManager root) wd fs3 rest := by
          simp only [putMany, hp]
        obtain ⟨tn, es3, hfd3, hid3, hrec3, hframe⟩ := put_file_step j root wd r.1 fs fs3
          r.2.1 r.2.2 b s1 s2 es1 es2 hfd hid hrec hb ho1 ho2 hp
        have hkeep : ∀ r2 ∈ rest, stat fs3 (abs wd r2.1) = stat fs (abs wd r2.1) := by
          intro r2 hr2
          obtain ⟨b2, hb2, hq1, hq2⟩ := hfiles r2 (List.mem_cons_of_mem _ hr2)
          have hne : abs wd r.1 ≠ abs wd r2.1 := by
            intro e
            simp only [List.map_cons, List.nodup_cons, List.mem_map] at hnd
            exact hnd.1 ⟨r2, hr2, e.symm⟩
          exact put_file_keeps root fs fs3 _ _ tn b b2 s1 s2 es1 es2 hfd hid hb hb2 hne hq1 hq2
            hframe
        rw [hstep] at hok ⊢
        obtain ⟨s, es, h2, h3⟩ := ih fs3 _ _ hfd3 hid3 hrec3
          (fun r2 hr2 => by
            obtain ⟨b2, hb2, hq1, hq2⟩ := hfiles r2 (List.mem_cons_of_mem _ hr2)
            exact ⟨b2, by rw [hkeep r2 hr2, hb2], hq1, hq2⟩)
          (by
            simp only [List.map_cons, List.nodup_cons] at hnd
            exact hnd.2)
          hok
        refine ⟨s, es, h2, ?_⟩
        have hsum : (rest.map (fun r2 => sizeAt fs3 (abs wd r2.1))).sum =
            (rest.map (fun r2 => sizeAt fs (abs wd r2.1))).sum := by
          congr 1
          apply List.map_congr_left
          intro r2 hr2
          simp only [sizeAt, hkeep r2 hr2]
        have hhead : sizeAt fs (abs wd r.1) = b.length := by
          simp only [sizeAt, hb, Node.size]
        have hnew : Node.duList (es1 ++ [(tn, Node.file b)]) = Node.duList es1 + b.length := by
          rw [duList_append]
          simp [Node.duList, Node.du]
        rw [h3, hsum, hnew, List.map_cons, List.sum_cons, hhead]
        omega

/-- A run of `Put` calls on regular files outside the store succeeds when, for each
file, the record name of the last candidate its probe can reach is within the
length limit. -/
theorem putMany_ok (j : Codec) (root : Path) (wd : String)
    (reqs : List (String × Time × Time)) (fs : Node) (s1 s2 : Nat)
    (es1 es2 : List (String × Node))
    (hfd : stat fs (root ++ ["files"]) = .ok (.dir s1 es1))
    (hid : stat fs (root ++ ["info"]) = .ok (.dir s2 es2))
    (hrec : ∀ k s es, lookupEntry k es2 ≠ some (.dir s es))
    (hfiles : ∀ r ∈ reqs, ∃ b, stat fs (abs wd r.1) = .ok (.file b) ∧
      ¬ (root ++ ["files"]) <+: abs wd r.1 ∧ ¬ (root ++ ["info"]) <+: abs wd r.1)
    (hnd : (reqs.map (fun r => abs wd r.1)).Nodup)
    (hfit : ∀ p ∈ reqs.enumFrom es1.length,
      nameBytes (candidate p.2.2.1.format (base (abs wd p.2.1)) p.1 ++ ".json") ≤ nameMax) :
    (putMany j (mkManager root) wd fs reqs).2 = true := by
  induction reqs generalizing fs es1 es2 with
  | nil => rfl
  | cons r rest ih =>
    obtain ⟨b, hb, ho1, ho2⟩ := hfiles r (List.mem_cons_self _ _)
    have ha1 := file_not_above _ _ _ _ _ _ hb hfd
    have ha2 := file_not_above _ _ _ _ _ _ hb hid
    have hane : abs wd r.1 ≠ [] := fun e => ha1 (e ▸ List.nil_prefix)
    have hfr : nameBytes (candidate r.2.1.format (base (abs wd r.1)) es1.length ++ ".json") ≤
        nameMax := hfit (es1.length, r) (by simp [List.enumFrom])
    rw [nameBytes_json] at hfr
    obtain ⟨n, hprobe, hn, _, _⟩ := probe_terminates fs (root ++ ["files"]) r.2.1.format
      (base (abs wd r.1)) s1 es1 hfd (format_noSlash _)
      (abs_plain wd r.1 _ (base_mem _ hane)).1 (by omega)
    obtain ⟨fs3, hput, _, _, hfd3, hid3, _, hframe, _⟩ :=
      put_spec j root wd r.1 fs r.2.1 r.2.2 (.file b) s1 s2 es1 es2 _ hb hfd hid ho1 ho2 ha1 ha2
        (hrec _) hprobe (fun _ => by
          rw [nameBytes_json]
          have := candidate_bytes_mono r.2.1.format (base (abs wd r.1)) n es1.length hn
          omega)
    have hstep : putMany j (mkManager root) wd fs (r :: rest) =
        putMany j (mkManager root) wd fs3 rest := by
      simp only [putMany, hput]
    rw [hstep]
    apply ih fs3 _ _ hfd3 hid3
    · intro k s es
      rw [lookupEntry_setEntry]
      split
      · simp
      · exact hrec k s es
    · intro r2 hr2
      obtain ⟨b2, hb2, hq1, hq2⟩ := hfiles r2 (List.mem_cons_of_mem _ hr2)
      have hne : abs wd r.1 ≠ abs wd r2.1 := by
        intro e
        simp only [List.map_cons, List.nodup_cons, List.mem_map] at hnd
        exact hnd.1 ⟨r2, hr2, e.symm⟩
      refine ⟨b2, ?_, hq1, hq2⟩
      rw [put_file_keeps root fs fs3 _ _ _ b b2 s1 s2 es1 es2 hfd hid hb hb2 hne hq1 hq2 hframe,
        hb2]
    · simp only [List.map_cons, List.nodup_cons] at hnd
      exact hnd.2
    · intro p hp
      have hlen : (es1 ++ [(candidate r.2.1.format (base (abs wd r.1)) n, Node.file b)]).length =
          es1.length + 1 := by simp
      rw [hlen] at hp
      exact hfit p (by
        simp only [List.enumFrom, List.mem_cons]
        exact Or.inr hp)

/-- C7. `Size` is the sum of the payload bytes.  On a freshly initialized store `Size`
returns 0.  In every state whose payload area exists `Size` returns the sum of the
lengths of the regular files under it, a directory adding nothing of its own.  After
`Put` of any number of regular files at pairwise different paths into a fresh store,
the calls having succeeded, `Size` returns the sum of the files' byte sizes; and the
calls do succeed when, for each file, the record name of the candidate whose suffix
is the number of files put before it (the last name its probe can reach) is within
the length limit of a file name. -/
theorem size_is_sum (j : Codec) (root : Path) (wd : String)
    (reqs : List (String × Time × Time)) (fs : Node)
    (hfresh : Fresh (mkManager root) fs)
    (hfiles : ∀ r ∈ reqs, ∃ b, stat fs (abs wd r.1) = .ok (.file b))
    (hnd : (reqs.map (fun r => abs wd r.1)).Nodup) :
    (mkManager root).Size fs = (0, none) ∧
      (∀ (fs1 payload : Node), stat fs1 (mkManager root).filesDir = .ok payload →
        (mkManager root).Size fs1 = ((payload.regularFiles.map List.length).sum, none)) ∧
      ((putMany j (mkManager root) wd fs reqs).2 = true →
        (mkManager root).Size (putMany j (mkManager root) wd fs reqs).1 =
          ((reqs.map (fun r => sizeAt fs (abs wd r.1))).sum, none)) ∧
      ((∀ p ∈ reqs.enum, nameBytes (candidate p.2.2.1.format (base (abs wd p.2.1)) p.1
          ++ ".json") ≤ nameMax) →
        (putMany j (mkManager root) wd fs reqs).2 = true) := by
  obtain ⟨s1, s2, hfd, hid⟩ := hfresh
  have hout : ∀ r ∈ reqs, ∃ b, stat fs (abs wd r.1) = .ok (.file b) ∧
      ¬ (root ++ ["files"]) <+: abs wd r.1 ∧ ¬ (root ++ ["info"]) <+: abs wd r.1 := by
    intro r hr
    obtain ⟨b, hb⟩ := hfiles r hr
    exact ⟨b, hb, fresh_outside _ _ _ _ _ hfd hb (file_not_above _ _ _ _ _ _ hb hfd),
      fresh_outside _ _ _ _ _ hid hb (file_not_above _ _ _ _ _ _ hb hid)⟩
  refine ⟨?_, ?_, ?_, ?_⟩
  · rw [size_eq root fs s1 [] hfd]
    rfl
  · intro fs1 payload hp
    simp only [Manager.Size, hp, du_eq_regularFiles]
  · intro hok
    obtain ⟨s, es, h2, h3⟩ := putMany_files j root wd reqs fs s1 s2 [] [] hfd hid
      (by intro k s es h; simp [lookupEntry] at h) hout hnd hok
    rw [size_eq root _ s es h2, h3]
    simp [Node.duList]
  · intro hfit
    exact putMany_ok j root wd reqs fs s1 s2 [] [] hfd hid
      (by intro k s es h; simp [lookupEntry] at h) hout hnd hfit

/-- An instance of C7: the two files of `demoTwoFs`, and the payload area holding a
directory. -/
theorem size_is_sum_witness :
    (mkManager ["t"]).Size demoTwoFs = (0, none) ∧
      (mkManager ["t"]).Size demoDirTrashed = (3, none) ∧
      (putMany demoCodec (mkManager ["t"]) "/w" demoTwoFs
        [("a.txt", demoTime, demoTime), ("/v/a.txt", demoTime, demoTime)]).2 = true ∧
      (mkManager ["t"]).Size (putMany demoCodec (mkManager ["t"]) "/w" demoTwoFs
        [("a.txt", demoTime, demoTime), ("/v/a.txt", demoTime, demoTime)]).1 = (3 + 2, none) := by
  have hfiles : ∀ r ∈ [("a.txt", demoTime, demoTime), ("/v/a.txt", demoTime, demoTime)],
      ∃ b, stat demoTwoFs (abs "/w" r.1) = .ok (.file b) := by
    intro r hr
    simp only [List.mem_cons, List.mem_singleton, List.not_mem_nil, or_false] at hr
    rcases hr with rfl | rfl
    · exact ⟨[104, 105, 10], rfl⟩
    · exact ⟨[1, 2], rfl⟩
  have h := size_is_sum demoCodec ["t"] "/w"
    [("a.txt", demoTime, demoTime), ("/v/a.txt", demoTime, demoTime)] demoTwoFs
    ⟨4096, 4096, rfl, rfl⟩ hfiles (by decide)
  have hok := h.2.2.2 (by
    intro p hp
    simp only [List.enum, List.enumFrom, List.mem_cons, List.mem_singleton, List.not_mem_nil,
      or_false] at hp
    rcases hp with rfl | rfl <;> decide)
  exact ⟨h.1, h.2.1 demoDirTrashed
    (.dir 4096 [("20240102_030405_d", .dir 4096 [("a.txt", .file [104, 105, 10])])]) rfl, hok,
    h.2.2.1 hok⟩

/-! ## `Put` and `Restore` for sources anywhere, inside the store too -/

theorem apart_symm (p q : Path) (h : Apart p q) : Apart q p := ⟨h.2, h.1⟩

theorem apart_siblings (d : Path) (a b : String) (h : a ≠ b) : Apart (d ++ [a]) (d ++ [b]) :=
  ⟨ sibling_not_prefix d a b [] [] h, sibling_not_prefix d b a [] [] (Ne.symm h)⟩

theorem apart_files_info (root : Path) (a b : String) :
    Apart (root ++ ["files"] ++ [a]) (root ++ ["info"] ++ [b]) :=
  ⟨ files_info_not_prefix root [a] [b], info_files_not_prefix root [b] [a]⟩

theorem not_prefix_dirOf (a b : Path) (h : ¬ a <+: b) : ¬ a <+: dirOf b :=
  fun hp => h (hp.trans (List.dropLast_prefix _))

/-- A proper ancestor of an existing path is a directory. -/
theorem dir_of_strict_prefix (fs : Node) (p : Path) (c : String) (r : Path) (n : Node)
    (h : stat fs (p ++ c :: r) = .ok n) : ∃ s es, stat fs p = .ok (.dir s es) := by
  rw [stat_append] at h
  cases hp : stat fs p with
  | error e => simp [hp] at h
  | ok m =>
    cases m with
    | file b => simp [hp, stat_file_cons] at h
    | dir s es => exact ⟨s, es, rfl⟩

/-- A path that is no directory has nothing existing under it, and is not properly
above anything that exists. -/
theorem prefix_eq_of_not_dir (fs : Node) (p q : Path) (n : Node)
    (hp : ∀ s es, stat fs p ≠ .ok (.dir s es)) (hq : stat fs q = .ok n) (h : p <+: q) :
    p = q := by
  obtain ⟨t, ht⟩ := h
  cases t with
  | nil => simpa using ht
  | cons c r =>
    rw [← ht] at hq
    obtain ⟨s, es, hd⟩ := dir_of_strict_prefix _ _ _ _ _ hq
    exact absurd hd (hp s es)

/-- The entry of a name in a directory is what `stat` finds at that name. -/
theorem lookup_eq_of_stat (fs fs1 : Node) (d : Path) (c : String) (s s1 : Nat)
    (es es1 : List (String × Node)) (h : stat fs d = .ok (.dir s es))
    (h1 : stat fs1 d = .ok (.dir s1 es1)) (he : stat fs1 (d ++ [c]) = stat fs (d ++ [c])) :
    lookupEntry c es1 = lookupEntry c es := by
  rw [stat_snoc_of_parent _ _ _ _ _ _ h, stat_snoc_of_parent _ _ _ _ _ _ h1] at he
  cases hl : lookupEntry c es with
  | none =>
    cases hl1 : lookupEntry c es1 with
    | none => rfl
    | some m => simp [hl, hl1, stat_nil] at he
  | some m =>
    cases hl1 : lookupEntry c es1 with
    | none => simp [hl, hl1, stat_nil] at he
    | some m1 =>
      simp only [hl, hl1, stat_nil, Except.ok.injEq] at he
      rw [he]

theorem length_setEntry_le (c : String) (n : Node) (es : List (String × Node)) :
    (setEntry c n es).length ≤ es.length + 1 := by
  induction es with
  | nil => simp [setEntry]
  | cons e rest ih =>
    by_cases he : e.1 = c
    · simp [setEntry, he]
    · simp only [setEntry, he, if_false, List.length_cons]
      omega

theorem length_setEntry_of_some (c : String) (n m : Node) (es : List (String × Node))
    (h : lookupEntry c es = some m) : (setEntry c n es).length = es.length := by
  induction es with
  | nil => simp [lookupEntry] at h
  | cons e rest ih =>
    by_cases he : e.1 = c
    · simp [setEntry, he]
    · simp only [lookupEntry, he, if_false] at h
      simp only [setEntry, he, if_false, List.length_cons, ih h]

theorem length_eraseEntry_le (c : String) (es : List (String × Node)) :
    (eraseEntry c es).length ≤ es.length := by
  induction es with
  | nil => simp [eraseEntry]
  | cons e rest ih =>
    by_cases he : e.1 = c
    · simp only [eraseEntry, he, if_true, List.length_cons]
      omega
    · simp only [eraseEntry, he, if_false, List.length_cons]
      omega

theorem length_bindEntry_le (v : Option Node) (c : String) (es : List (String × Node)) :
    (bindEntry v c es).length ≤ es.length + 1 ∧
      (v = none → (bindEntry v c es).length ≤ es.length) := by
  cases v with
  | none => exact ⟨Nat.le_succ_of_le (length_eraseEntry_le c es), fun _ => length_eraseEntry_le c es⟩
  | some n => exact ⟨length_setEntry_le c n es, fun h => by cases h⟩

/-- An update keeps every proper ancestor of its path a directory, with at most one
entry more, and none more when it unlinks. -/
theorem updateAt_ancestor_length (v : Option Node) (q t : Path) (fs fs1 : Node)
    (h : updateAt v fs (q ++ t) = .ok fs1) (ht : t ≠ []) :
    ∃ s es es1, stat fs q = .ok (.dir s es) ∧ stat fs1 q = .ok (.dir s es1) ∧
      es1.length ≤ es.length + 1 ∧ (v = none → es1.length ≤ es.length) := by
  induction q generalizing fs fs1 with
  | nil =>
    cases fs with
    | file b =>
      cases t with
      | nil => exact absurd rfl ht
      | cons a r => cases r <;> simp [updateAt] at h
    | dir s es =>
      cases t with
      | nil => exact absurd rfl ht
      | cons a r =>
        by_cases hr : r = []
        · subst hr
          simp only [List.nil_append, updateAt_dir_single] at h
          cases h
          exact ⟨s, es, _, stat_nil _, stat_nil _, (length_bindEntry_le v a es).1,
            (length_bindEntry_le v a es).2⟩
        · simp only [List.nil_append, updateAt_dir_cons _ _ _ _ _ hr] at h
          cases hl : lookupEntry a es with
          | none => simp [hl] at h
          | some m =>
            simp only [hl] at h
            cases hu : updateAt v m r with
            | error e => simp [hu] at h
            | ok m1 =>
              simp only [hu] at h
              cases h
              have hlen := length_setEntry_of_some a m1 m es hl
              exact ⟨s, es, _, stat_nil _, stat_nil _, by omega, fun _ => by omega⟩
  | cons c cs ih =>
    cases fs with
    | file b => simp [updateAt] at h
    | dir s es =>
      rw [List.cons_append, updateAt_dir_cons _ _ _ _ _ (by simp [ht])] at h
      cases hl : lookupEntry c es with
      | none => simp [hl] at h
      | some m =>
        simp only [hl] at h
        cases hu : updateAt v m (cs ++ t) with
        | error e => simp [hu] at h
        | ok m1 =>
          simp only [hu] at h
          cases h
          obtain ⟨s1, e1, e2, ha, hb, hc, hd⟩ := ih m m1 hu
          refine ⟨s1, e1, e2, ?_, ?_, hc, hd⟩
          · simpa [stat_dir_cons, hl] using ha
          · simpa [stat_dir_cons, lookupEntry_setEntry] using hb

/-- An update outside a directory and not above it keeps it a directory, with at
most one entry more, and none more when the update unlinks. -/
theorem updateAt_length (v : Option Node) (p q : Path) (fs fs1 : Node) (s : Nat)
    (es : List (String × Node)) (h : updateAt v fs p = .ok fs1)
    (hq : stat fs q = .ok (.dir s es)) (hpq : ¬ p <+: q) :
    ∃ es1, stat fs1 q = .ok (.dir s es1) ∧ es1.length ≤ es.length + 1 ∧
      (v = none → es1.length ≤ es.length) := by
  by_cases hqp : q <+: p
  · obtain ⟨t, ht⟩ := hqp
    have htne : t ≠ [] := by
      intro e
      subst e
      rw [List.append_nil] at ht
      exact hpq (ht ▸ List.prefix_refl _)
    rw [← ht] at h
    obtain ⟨s0, es0, es1, h1, h2, h3, h4⟩ := updateAt_ancestor_length _ _ _ _ _ h htne
    rw [hq] at h1
    cases h1
    exact ⟨es1, h2, h3, h4⟩
  · exact ⟨es, by rw [updateAt_frame _ _ _ _ _ h hpq hqp, hq], by omega, fun _ => by omega⟩

/-- The call `os.Rename` of an existing entry to a free name in an existing
directory that is neither the entry nor under it: it succeeds, the entry is at the
new name and no longer at the old one, nothing apart from the two paths changes,
and every directory not moved stays one. -/
theorem rename_gen (fs : Node) (src d : Path) (c : String) (node : Node) (sd : Nat)
    (esd : List (String × Node))
    (hsrc : stat fs src = .ok node) (hd : stat fs d = .ok (.dir sd esd))
    (hfree : stat fs (d ++ [c]) = .error .ENOENT) (hsd : ¬ src <+: d) :
    ∃ fs2, rename fs src (d ++ [c]) = .ok fs2 ∧
      stat fs2 (d ++ [c]) = .ok node ∧
      stat fs2 src = .error (missing (base src)) ∧
      (∀ q, Apart src q → Apart (d ++ [c]) q → stat fs2 q = stat fs q) ∧
      ∀ q s es, stat fs q = .ok (.dir s es) → ¬ src <+: q →
        ∃ es3, stat fs2 q = .ok (.dir s es3) ∧ es3.length ≤ es.length + 1 := by
  have hne : src ≠ [] := fun e => hsd (e ▸ List.nil_prefix)
  have hnp : ¬ src <+: d ++ [c] := by
    intro hp
    rcases (prefix_snoc_iff _ _ _).mp hp with h | h
    · rw [h, hfree] at hsrc
      cases hsrc
    · exact hsd h
  have hnp2 : ¬ d ++ [c] <+: src := not_prefix_of_error _ _ _ _ _ hfree hsrc
  obtain ⟨sp, esp, hsp, _⟩ :=
    stat_snoc_parent fs _ _ node (by rw [← path_eq_snoc _ hne]; exact hsrc)
  obtain ⟨fs1, hu1, _⟩ := updateAt_snoc none (base src) _ fs sp esp hsp
  rw [← path_eq_snoc _ hne] at hu1
  obtain ⟨esd1, hd1, _, _⟩ := updateAt_length none _ _ _ _ _ _ hu1 hd hsd
  obtain ⟨fs2, hu2, _⟩ := updateAt_snoc (some node) c _ fs1 sd esd1 hd1
  have hfree1 : stat fs1 (d ++ [c]) = .error .ENOENT := by
    rw [updateAt_frame _ _ _ _ _ hu1 hnp hnp2, hfree]
  refine ⟨fs2, rename_ok_intro fs fs1 fs2 _ _ node hsrc hne hnp hfree hu1 hu2,
    updateAt_some_stat _ _ _ _ hu2, ?_, ?_, ?_⟩
  · rw [updateAt_frame _ _ _ _ _ hu2 hnp2 hnp]
    exact updateAt_none_stat _ _ _ hu1
  · intro q h1 h2
    rw [updateAt_frame _ _ _ _ _ hu2 h2.1 h2.2, updateAt_frame _ _ _ _ _ hu1 h1.1 h1.2]
  · intro q s es hq h1
    obtain ⟨e1, hq1, hl1, hl2⟩ := updateAt_length none _ _ _ _ _ _ hu1 hq h1
    obtain ⟨e2, hq2, hl3, _⟩ := updateAt_length (some node) _ _ _ _ _ _ hu2 hq1
      (not_prefix_of_error _ _ _ _ _ hfree1 hq1)
    have := hl2 rfl
    exact ⟨e2, hq2, by omega⟩

/-- The name the probe of `Put` returns is longer than the base name it is made
from. -/
theorem probe_bytes (fs : Node) (fd : Path) (ts b : String) (fuel : Nat) (tn : String)
    (h : probe fs fd ts b fuel 1 (ts ++ "_" ++ b) = some tn) :
    nameBytes b < nameBytes tn := by
  have hu : nameBytes "_" = 1 := rfl
  rcases (probe_some _ _ _ _ _ _ _ _ h).2 with h1 | ⟨i, h1⟩
  · rw [h1, nameBytes_append, nameBytes_append, hu]
    omega
  · rw [h1, nameBytes_append, nameBytes_append, nameBytes_append, nameBytes_append, hu]
    omega

/-- What `Put` does once the probe has found the name `tn`, for a source anywhere
but above the two store directories, when the record can be written: no directory
has its name, which is within the length limit. -/
theorem put_gen (j : Codec) (root : Path) (wd path : String) (fs : Node) (now now2 : Time)
    (node : Node) (s1 s2 : Nat) (es1 es2 : List (String × Node)) (tn : String)
    (hsrc : stat fs (abs wd path) = .ok node)
    (hfd : stat fs (root ++ ["files"]) = .ok (.dir s1 es1))
    (hid : stat fs (root ++ ["info"]) = .ok (.dir s2 es2))
    (ha1 : ¬ abs wd path <+: (root ++ ["files"])) (ha2 : ¬ abs wd path <+: (root ++ ["info"]))
    (hrec : ∀ s es, lookupEntry (tn ++ ".json") es2 ≠ some (.dir s es))
    (hprobe : probe fs (root ++ ["files"]) now.format (base (abs wd path))
      (probeFuel fs (root ++ ["files"])) 1 (now.format ++ "_" ++ base (abs wd path)) = some tn)
    (hfit : nameBytes (tn ++ ".json") ≤ nameMax) :
    ∃ fs3, (mkManager root).Put j wd fs path now now2 = (fs3, none) ∧
      PlainName tn ∧ lookupEntry tn es1 = none ∧
      Apart (abs wd path) (root ++ ["files"] ++ [tn]) ∧
      Apart (abs wd path) (root ++ ["info"] ++ [tn ++ ".json"]) ∧
      stat fs3 (root ++ ["files"] ++ [tn]) = .ok node ∧
      stat fs3 (root ++ ["info"] ++ [tn ++ ".json"]) = .ok (.file (j.marshal
        ⟨abs wd path, root ++ ["files"] ++ [tn], now2, node.size⟩)) ∧
      stat fs3 (abs wd path) = .error .ENOENT ∧
      (∀ q, Apart (abs wd path) q → Apart (root ++ ["files"] ++ [tn]) q →
        Apart (root ++ ["info"] ++ [tn ++ ".json"]) q → stat fs3 q = stat fs q) ∧
      (∀ q s es, stat fs q = .ok (.dir s es) → ¬ abs wd path <+: q →
        ∃ es3, stat fs3 q = .ok (.dir s es3)) ∧
      ∃ esA, stat fs3 (root ++ ["files"]) = .ok (.dir s1 esA) ∧ esA.length ≤ es1.length + 1 := by
  have hane : abs wd path ≠ [] := fun e => ha1 (e ▸ List.nil_prefix)
  obtain ⟨hpl, hfree⟩ := probe_plain fs _ now _ _ tn hane (fun c hc => abs_plain wd path c hc) hprobe
  have hl1 : lookupEntry tn es1 = none := lookup_none_of_enoent _ _ _ _ _ hfd hfree
  have hbytes := probe_bytes _ _ _ _ _ _ hprobe
  have hjb := nameBytes_json tn
  have hbase : nameBytes (base (abs wd path)) ≤ nameMax := by omega
  have hjson : PlainName (tn ++ ".json") := json_plain _ hpl.1
  have hrecS : ∀ s es, stat fs (root ++ ["info"] ++ [tn ++ ".json"]) ≠ .ok (.dir s es) := by
    intro s es hs
    obtain ⟨s3, es3, h3, h4⟩ := stat_snoc_parent _ _ _ _ hs
    rw [hid] at h3
    cases h3
    exact hrec _ _ h4
  have hneR : abs wd path ≠ root ++ ["info"] ++ [tn ++ ".json"] := by
    intro e
    have := congrArg (fun p => nameBytes (base p)) e
    simp only [base_append_singleton] at this
    omega
  have hP : Apart (abs wd path) (root ++ ["files"] ++ [tn]) := by
    refine ⟨?_, not_prefix_of_error _ _ _ _ _ hfree hsrc⟩
    intro hp
    rcases (prefix_snoc_iff _ _ _).mp hp with h | h
    · rw [h, hfree] at hsrc
      cases hsrc
    · exact ha1 h
  have hR : Apart (abs wd path) (root ++ ["info"] ++ [tn ++ ".json"]) := by
    constructor
    · intro hp
      rcases (prefix_snoc_iff _ _ _).mp hp with h | h
      · exact hneR h
      · exact ha2 h
    · intro hp
      exact hneR (prefix_eq_of_not_dir _ _ _ _ hrecS hsrc hp).symm
  have hPR := apart_files_info root tn (tn ++ ".json")
  obtain ⟨fs2, hren, hpay, hgone, hframe, hkeep⟩ :=
    rename_gen fs _ _ tn node s1 es1 hsrc hfd hfree ha1
  obtain ⟨esI, hid2, _⟩ := hkeep _ _ _ hid ha2
  have hRs : stat fs2 (root ++ ["info"] ++ [tn ++ ".json"]) =
      stat fs (root ++ ["info"] ++ [tn ++ ".json"]) := hframe _ hR hPR
  have hwr : writeFile fs2 (root ++ ["info"] ++ [tn ++ ".json"]) (j.marshal
      ⟨abs wd path, root ++ ["files"] ++ [tn], now2, node.size⟩) =
      updateAt (some (.file (j.marshal
        ⟨abs wd path, root ++ ["files"] ++ [tn], now2, node.size⟩))) fs2
        (root ++ ["info"] ++ [tn ++ ".json"]) := by
    apply writeFile_eq
    · intro s es hs
      rw [hRs] at hs
      exact hrecS s es hs
    · intro e he
      rw [hRs, stat_snoc_of_parent _ _ _ _ _ _ hid] at he
      cases hl : lookupEntry (tn ++ ".json") es2 with
      | none =>
        simp only [hl, Except.error.injEq] at he
        rw [← he, missing_of_le _ hfit]
      | some m => simp [hl, stat_nil] at he
  obtain ⟨fs3, hu3, _⟩ := updateAt_snoc (some (.file (j.marshal
    ⟨abs wd path, root ++ ["files"] ++ [tn], now2, node.size⟩))) (tn ++ ".json") _ fs2 s2 esI hid2
  refine ⟨fs3, ?_, hpl, hl1, hP, hR, ?_, updateAt_some_stat _ _ _ _ hu3, ?_, ?_, ?_, ?_⟩
  · simp only [Manager.Put, mkManager, hsrc, hprobe, join_plain _ _ hpl, join_plain _ _ hjson,
      hren, saveItemInfo, hwr, hu3, getSize]
  · rw [updateAt_frame _ _ _ _ _ hu3 hPR.2 hPR.1, hpay]
  · rw [updateAt_frame _ _ _ _ _ hu3 hR.2 hR.1, hgone, missing_of_le _ hbase]
  · intro q h1 h2 h3
    rw [updateAt_frame _ _ _ _ _ hu3 h3.1 h3.2, hframe q h1 h2]
  · intro q s es hq h1
    obtain ⟨e2, hq2, _⟩ := hkeep q s es hq h1
    refine updateAt_keeps_dir _ _ _ _ _ _ _ hu3 hq2 ?_
    intro hp
    have he := prefix_eq_of_not_dir fs2 _ _ _ (by rw [hRs]; exact hrecS) hq2 hp
    rw [← he, hRs] at hq2
    exact hrecS _ _ hq2
  · obtain ⟨esA, hA, hlen⟩ := hkeep _ _ _ hfd ha1
    refine ⟨esA, ?_, hlen⟩
    rw [updateAt_frame _ _ _ _ _ hu3 (by simp) (by simp), hA]

/-- `Restore` of a plain name whose record and payload are in the store, when the
original path is free, its parent is a directory, and it does not lie under the
payload: the call succeeds, the payload is at the original path, nothing apart
from the original path, the payload and the record changes, and every directory
but the payload stays one. -/
theorem restore_gen (j : Codec) (hj : j.Lawful) (root : Path) (tn : String) (fs : Node)
    (item : Item) (node : Node) (sp : Nat) (esp : List (String × Node)) (e : Errno)
    (hpl : PlainName tn)
    (hrec : stat fs (root ++ ["info"] ++ [tn ++ ".json"]) = .ok (.file (j.marshal item)))
    (hpay : stat fs (root ++ ["files"] ++ [tn]) = .ok node)
    (hpar : stat fs (dirOf item.originalPath) = .ok (.dir sp esp))
    (horig : stat fs item.originalPath = .error e)
    (hshort : nameBytes (base item.originalPath) ≤ nameMax)
    (hnp : ¬ (root ++ ["files"] ++ [tn]) <+: item.originalPath) :
    ∃ fs3, (mkManager root).Restore j fs tn = (fs3, none) ∧
      stat fs3 item.originalPath = .ok node ∧
      (∀ q, Apart item.originalPath q → Apart (root ++ ["files"] ++ [tn]) q →
        Apart (root ++ ["info"] ++ [tn ++ ".json"]) q → stat fs3 q = stat fs q) ∧
      ∀ q s es, stat fs q = .ok (.dir s es) → ¬ (root ++ ["files"] ++ [tn]) <+: q →
        ∃ es3, stat fs3 q = .ok (.dir s es3) := by
  have hone : item.originalPath ≠ [] := by
    intro h
    rw [h, stat_nil] at horig
    cases horig
  have heq : dirOf item.originalPath ++ [base item.originalPath] = item.originalPath :=
    (path_eq_snoc _ hone).symm
  have henoent : stat fs (dirOf item.originalPath ++ [base item.originalPath]) =
      .error .ENOENT := by
    cases hl : lookupEntry (base item.originalPath) esp with
    | none => exact enoent_of_lookup_none _ _ _ _ _ [] hpar hl hshort
    | some m =>
      have := stat_child _ _ _ _ _ _ hpar hl
      rw [heq, horig] at this
      cases this
  have hfileR : ∀ s es, stat fs (root ++ ["info"] ++ [tn ++ ".json"]) ≠ .ok (.dir s es) := by
    intro s es hs
    rw [hrec] at hs
    cases hs
  have hoR : Apart item.originalPath (root ++ ["info"] ++ [tn ++ ".json"]) := by
    refine ⟨not_prefix_of_error _ _ _ _ _ horig hrec, ?_⟩
    intro hp
    rw [← heq] at hp
    rcases (prefix_snoc_iff _ _ _).mp hp with h | h
    · rw [heq] at h
      rw [h, horig] at hrec
      cases hrec
    · have := prefix_eq_of_not_dir _ _ _ _ hfileR hpar h
      rw [this, hpar] at hrec
      cases hrec
  have hPR := apart_files_info root tn (tn ++ ".json")
  obtain ⟨fs2, hren, hat, _, hframe, hkeep⟩ := rename_gen fs _ _ (base item.originalPath) node
    sp esp hpay hpar henoent (not_prefix_dirOf _ _ hnp)
  rw [heq] at hren hat hframe
  have hrec2 : stat fs2 (root ++ ["info"] ++ [tn ++ ".json"]) = .ok (.file (j.marshal item)) := by
    rw [hframe _ hPR hoR, hrec]
  obtain ⟨si, esi, hi2, _⟩ := stat_snoc_parent _ _ _ _ hrec2
  obtain ⟨fs3, hu3, _⟩ := updateAt_snoc none (tn ++ ".json") _ fs2 si esi hi2
  have hrem : remove fs2 (root ++ ["info"] ++ [tn ++ ".json"]) = .ok fs3 := by
    rw [remove_file _ _ _ (by simp) hrec2]
    exact hu3
  refine ⟨fs3, ?_, ?_, ?_, ?_⟩
  · exact restore_intro j root tn fs fs2 fs3 item _ e hpl
      (loadItemInfo_record j fs _ _ _ hrec (hj item)) hpar horig hren hrem
  · rw [updateAt_frame _ _ _ _ _ hu3 hoR.2 hoR.1, hat]
  · intro q h1 h2 h3
    rw [updateAt_frame _ _ _ _ _ hu3 h3.1 h3.2, hframe q h2 h1]
  · intro q s es hq h1
    obtain ⟨e2, hq2, _⟩ := hkeep q s es hq h1
    refine updateAt_keeps_dir _ _ _ _ _ _ _ hu3 hq2 ?_
    intro hp
    have hfile2 : ∀ s es, stat fs2 (root ++ ["info"] ++ [tn ++ ".json"]) ≠ .ok (.dir s es) := by
      intro s es hs
      rw [hrec2] at hs
      cases hs
    have he := prefix_eq_of_not_dir fs2 _ _ _ hfile2 hq2 hp
    rw [← he, hrec2] at hq2
    cases hq2

/-- Two trashed items whose original paths lie apart from one another and from the
payload and the record of the other item: the first can be restored, and then the
second. -/
theorem restore_pair_gen (j : Codec) (hj : j.Lawful) (root : Path) (tnA tnB : String)
    (fs : Node) (itemA itemB : Item) (nodeA nodeB : Node) (spA spB : Nat)
    (espA espB : List (String × Node)) (eA eB : Errno)
    (hplA : PlainName tnA) (hplB : PlainName tnB) (hne : tnA ≠ tnB)
    (hrecA : stat fs (root ++ ["info"] ++ [tnA ++ ".json"]) = .ok (.file (j.marshal itemA)))
    (hrecB : stat fs (root ++ ["info"] ++ [tnB ++ ".json"]) = .ok (.file (j.marshal itemB)))
    (hpayA : stat fs (root ++ ["files"] ++ [tnA]) = .ok nodeA)
    (hpayB : stat fs (root ++ ["files"] ++ [tnB]) = .ok nodeB)
    (hparA : stat fs (dirOf itemA.originalPath) = .ok (.dir spA espA))
    (hparB : stat fs (dirOf itemB.originalPath) = .ok (.dir spB espB))
    (horigA : stat fs itemA.originalPath = .error eA)
    (horigB : stat fs itemB.originalPath = .error eB)
    (hshortA : nameBytes (base itemA.originalPath) ≤ nameMax)
    (hshortB : nameBytes (base itemB.originalPath) ≤ nameMax)
    (hAB : Apart itemA.originalPath itemB.originalPath)
    (hApB : Apart itemA.originalPath (root ++ ["files"] ++ [tnB]))
    (hArB : Apart itemA.originalPath (root ++ ["info"] ++ [tnB ++ ".json"]))
    (hBpA : Apart itemB.originalPath (root ++ ["files"] ++ [tnA]))
    (hBrA : Apart itemB.originalPath (root ++ ["info"] ++ [tnA ++ ".json"]))
    (hnpA : ¬ (root ++ ["files"] ++ [tnA]) <+: itemA.originalPath)
    (hnpB : ¬ (root ++ ["files"] ++ [tnB]) <+: itemB.originalPath) :
    ∃ fsC, (mkManager root).Restore j fs tnA = (fsC, none) ∧
      stat fsC itemA.originalPath = .ok nodeA ∧
      ∃ fsD, (mkManager root).Restore j fsC tnB = (fsD, none) ∧
        stat fsD itemB.originalPath = .ok nodeB ∧ stat fsD itemA.originalPath = .ok nodeA := by
  have hjne : tnA ++ ".json" ≠ tnB ++ ".json" := fun h => hne (json_inj _ _ h)
  obtain ⟨fsC, c1, c2, c3, c4⟩ := restore_gen j hj root tnA fs itemA nodeA spA espA eA hplA
    hrecA hpayA hparA horigA hshortA hnpA
  have hrecB2 : stat fsC (root ++ ["info"] ++ [tnB ++ ".json"]) = .ok (.file (j.marshal itemB)) := by
    rw [c3 _ hArB (apart_files_info root tnA (tnB ++ ".json")) (apart_siblings _ _ _ hjne), hrecB]
  have hpayB2 : stat fsC (root ++ ["files"] ++ [tnB]) = .ok nodeB := by
    rw [c3 _ hApB (apart_siblings _ _ _ hne)
      (apart_symm _ _ (apart_files_info root tnB (tnA ++ ".json"))), hpayB]
  obtain ⟨espB2, hparB2⟩ := c4 _ _ _ hparB (not_prefix_dirOf _ _ hBpA.2)
  have horigB2 : stat fsC itemB.originalPath = .error eB := by
    rw [c3 _ hAB (apart_symm _ _ hBpA) (apart_symm _ _ hBrA), horigB]
  obtain ⟨fsD, d1, d2, d3, _⟩ := restore_gen j hj root tnB fsC itemB nodeB spB espB2 eB hplB
    hrecB2 hpayB2 hparB2 horigB2 hshortB hnpB
  refine ⟨fsC, c1, c2, fsD, d1, d2, ?_⟩
  rw [d3 _ (apart_symm _ _ hAB) (apart_symm _ _ hApB) (apart_symm _ _ hArB), c2]

/-! ## Uniqueness under collision (C3) -/

/-- C3, as stated, fails for nested sources: `/w/x/x` and `/w/x` have the same base
name; put in the same second they get two distinct names and both are listed, but
once the first is restored (which makes the directory `/w/x` again) the second
cannot be: its `Restore` fails with the conflict error. -/
theorem collision_nested_counterexample :
    ((mkManager ["t"]).Put demoCodec "/" demoNestedFs "/w/x/x" demoTime demoTime).2 = none ∧
      ((mkManager ["t"]).Put demoCodec "/"
        ((mkManager ["t"]).Put demoCodec "/" demoNestedFs "/w/x/x" demoTime demoTime).1
        "/w/x" demoTime demoTime).2 = none ∧
      (mkManager ["t"]).List demoCodec ((mkManager ["t"]).Put demoCodec "/"
        ((mkManager ["t"]).Put demoCodec "/" demoNestedFs "/w/x/x" demoTime demoTime).1
        "/w/x" demoTime demoTime).1 =
        .ok [⟨["w", "x", "x"], ["t", "files", "20240102_030405_x"], demoTime, 1⟩,
          ⟨["w", "x"], ["t", "files", "20240102_030405_x_1"], demoTime, 4096⟩] ∧
      ((mkManager ["t"]).Restore demoCodec ((mkManager ["t"]).Put demoCodec "/"
        ((mkManager ["t"]).Put demoCodec "/" demoNestedFs "/w/x/x" demoTime demoTime).1
        "/w/x" demoTime demoTime).1 "20240102_030405_x").2 = none ∧
      ((mkManager ["t"]).Restore demoCodec
        ((mkManager ["t"]).Restore demoCodec ((mkManager ["t"]).Put demoCodec "/"
          ((mkManager ["t"]).Put demoCodec "/" demoNestedFs "/w/x/x" demoTime demoTime).1
          "/w/x" demoTime demoTime).1 "20240102_030405_x").1 "20240102_030405_x_1").2 =
        some (.conflict ["w", "x"]) :=
  ⟨rfl, rfl, rfl, rfl, rfl⟩

set_option maxRecDepth 100000 in
/-- The condition of C3 on the length of the record names cannot be dropped.  Two
files of the same name of 233 bytes are put in the same second into a fresh store:
the first is assigned the name `ts_base`, whose record name has 254 bytes, and its
`Put` succeeds; the second is assigned `ts_base_1`, whose record name has 256 bytes,
and its `Put` fails with `ENAMETOOLONG` after it has moved the file. -/
theorem collision_long_name_example :
    nameBytes (candidate demoTime.format (longName 233) 0 ++ ".json") = 254 ∧
      nameBytes (candidate demoTime.format (longName 233) 1 ++ ".json") = 256 ∧
      ((mkManager ["t"]).Put demoCodec "/w" (demoLongTwoFs 233) (longName 233) demoTime
        demoTime).2 = none ∧
      ((mkManager ["t"]).Put demoCodec "/v"
        ((mkManager ["t"]).Put demoCodec "/w" (demoLongTwoFs 233) (longName 233) demoTime
          demoTime).1 (longName 233) demoTime demoTime).2 = some (.sys .ENAMETOOLONG) ∧
      stat ((mkManager ["t"]).Put demoCodec "/v"
        ((mkManager ["t"]).Put demoCodec "/w" (demoLongTwoFs 233) (longName 233) demoTime
          demoTime).1 (longName 233) demoTime demoTime).1 (abs "/v" (longName 233)) =
        .error .ENOENT :=
  ⟨rfl, rfl, rfl, rfl, rfl⟩

/-- The sources of C3 cannot be a store directory or lie above one.  `Put` of the
store root `/t` and `Put` of the payload directory `/t/files` fail, the target lying
inside the source (`EINVAL`), and nothing changes; `Put` of the metadata directory
`/t/info` moves it into the payload area and then cannot write the record
(`ENOENT`). -/
theorem collision_store_source_example :
    (mkManager ["t"]).Put demoCodec "/" demoFs "/t" demoTime demoTime =
        (demoFs, some (.sys .EINVAL)) ∧
      (mkManager ["t"]).Put demoCodec "/" demoFs "/t/files" demoTime demoTime =
        (demoFs, some (.sys .EINVAL)) ∧
      ((mkManager ["t"]).Put demoCodec "/" demoFs "/t/info" demoTime demoTime).2 =
        some (.sys .ENOENT) :=
  ⟨rfl, rfl, rfl⟩

/-- The condition of C3 on the names of the records cannot be dropped.  When the
metadata area holds a directory of the name of the record, `Put` moves the file into
the payload area and then cannot write the record (`EISDIR`). -/
theorem collision_record_directory_example :
    ((mkManager ["t"]).Put demoCodec "/w" demoRecordDirFs "a.txt" demoTime demoTime).2 =
        some (.sys .EISDIR) ∧
      stat ((mkManager ["t"]).Put demoCodec "/w" demoRecordDirFs "a.txt" demoTime demoTime).1
        (abs "/w" "a.txt") = .error .ENOENT :=
  ⟨rfl, rfl⟩

theorem candidate_bytes_gt (ts b : String) (k : Nat) :
    nameBytes b < nameBytes (candidate ts b k) := by
  have hu : nameBytes "_" = 1 := rfl
  cases k with
  | zero =>
    simp only [candidate, nameBytes_append, hu]
    omega
  | succ k =>
    simp only [candidate, nameBytes_append, hu]
    omega

/-- An existing source that is not above a directory lies apart from every free
name of that directory. -/
theorem source_apart_free (fs : Node) (a d : Path) (c : String) (n : Node) (e : Errno)
    (ha : stat fs a = .ok n) (hfree : stat fs (d ++ [c]) = .error e) (hs : ¬ a <+: d) :
    Apart a (d ++ [c]) := by
  refine ⟨?_, not_prefix_of_error _ _ _ _ _ hfree ha⟩
  intro hp
  rcases (prefix_snoc_iff _ _ _).mp hp with h | h
  · rw [h, hfree] at ha
    cases ha
  · exact hs h

/-- An existing source that is not above a directory lies apart from every name of
that directory that is not its own base name and at which there is no directory. -/
theorem source_apart_file (fs : Node) (a d : Path) (c : String) (n : Node)
    (ha : stat fs a = .ok n) (hnd : ∀ s es, stat fs (d ++ [c]) ≠ .ok (.dir s es))
    (hs : ¬ a <+: d) (hb : base a ≠ c) : Apart a (d ++ [c]) := by
  have hne : a ≠ d ++ [c] := by
    intro e
    apply hb
    rw [e, base_append_singleton]
  constructor
  · intro hp
    rcases (prefix_snoc_iff _ _ _).mp hp with h | h
    · exact hne h
    · exact hs h
  · intro hp
    exact hne (prefix_eq_of_not_dir _ _ _ _ hnd ha hp).symm

theorem not_dir_of_lookup (fs : Node) (d : Path) (c : String) (s2 : Nat)
    (es2 : List (String × Node)) (hid : stat fs d = .ok (.dir s2 es2))
    (h : ∀ s es, lookupEntry c es2 ≠ some (.dir s es)) :
    ∀ s es, stat fs (d ++ [c]) ≠ .ok (.dir s es) := by
  intro s es hs
  obtain ⟨s3, es3, h3, h4⟩ := stat_snoc_parent _ _ _ _ hs
  rw [hid] at h3
  cases h3
  exact h _ _ h4

/-- After a `Put`, a name of the payload directory other than the one assigned and
other than the base name of the source is free exactly when it was free before. -/
theorem payload_free_transfer (root : Path) (fs fsA : Node) (a : Path) (n : Node)
    (tn c : String) (s1 : Nat) (es1 esA : List (String × Node))
    (ha : stat fs a = .ok n) (hs : ¬ a <+: root ++ ["files"])
    (hfd : stat fs (root ++ ["files"]) = .ok (.dir s1 es1))
    (hfdA : stat fsA (root ++ ["files"]) = .ok (.dir s1 esA))
    (hframe : ∀ q, Apart a q → Apart (root ++ ["files"] ++ [tn]) q →
      Apart (root ++ ["info"] ++ [tn ++ ".json"]) q → stat fsA q = stat fs q)
    (hkeep : ∀ q s es, stat fs q = .ok (.dir s es) → ¬ a <+: q →
      ∃ es3, stat fsA q = .ok (.dir s es3))
    (hc : base a ≠ c) (hctn : c ≠ tn) :
    lookupEntry c esA = none ↔ lookupEntry c es1 = none := by
  have hne : a ≠ root ++ ["files"] ++ [c] := by
    intro e
    apply hc
    rw [e, base_append_singleton]
  have hna : ¬ a <+: root ++ ["files"] ++ [c] := by
    intro hp
    rcases (prefix_snoc_iff _ _ _).mp hp with h | h
    · exact hne h
    · exact hs h
  by_cases hp : root ++ ["files"] ++ [c] <+: a
  · obtain ⟨t, ht⟩ := hp
    cases t with
    | nil => exact absurd (by simpa using ht.symm) hne
    | cons x r =>
      rw [← ht] at ha
      obtain ⟨s, es, hd⟩ := dir_of_strict_prefix _ _ _ _ _ ha
      obtain ⟨es3, hd3⟩ := hkeep _ _ _ hd hna
      obtain ⟨_, _, h5, h6⟩ := stat_snoc_parent _ _ _ _ hd
      obtain ⟨_, _, h7, h8⟩ := stat_snoc_parent _ _ _ _ hd3
      rw [hfd] at h5
      rw [hfdA] at h7
      cases h5
      cases h7
      rw [h6, h8]
      simp
  · have he := hframe _ ⟨hna, hp⟩ (apart_siblings _ _ _ (Ne.symm hctn))
      (apart_symm _ _ (apart_files_info root c (tn ++ ".json")))
    rw [lookup_eq_of_stat fs fsA _ c s1 s1 es1 esA hfd hfdA he]

theorem lookupEntry_snoc (c c2 : String) (n : Node) (es : List (String × Node))
    (h : lookupEntry c es = none) :
    lookupEntry c2 (es ++ [(c, n)]) = if c2 = c then some n else lookupEntry c2 es := by
  rw [← setEntry_of_lookup_none _ _ _ h, lookupEntry_setEntry]

/-- After the first free candidate there is a second one, among the first
candidates up to the number of entries of the directory plus one. -/
theorem exists_second_free (ts b : String) (es : List (String × Node)) (k1 : Nat)
    (hfree : lookupEntry (candidate ts b k1) es = none)
    (hmin : ∀ k, k < k1 → lookupEntry (candidate ts b k) es ≠ none) :
    ∃ k2, k1 < k2 ∧ k2 ≤ es.length + 1 ∧ lookupEntry (candidate ts b k2) es = none ∧
      ∀ k, k < k2 → k ≠ k1 → lookupEntry (candidate ts b k) es ≠ none := by
  obtain ⟨n, hn, hf, hb⟩ := exists_free_candidate ts b (es ++ [(candidate ts b k1, .file [])])
  have hlen : (es ++ [(candidate ts b k1, Node.file [])]).length = es.length + 1 := by simp
  rw [hlen] at hn
  rw [lookupEntry_snoc _ _ _ _ hfree] at hf
  have hne : candidate ts b n ≠ candidate ts b k1 := by
    intro e
    rw [if_pos e] at hf
    cases hf
  rw [if_neg hne] at hf
  have hnk : n ≠ k1 := fun e => hne (by rw [e])
  refine ⟨n, ?_, hn, hf, ?_⟩
  · by_contra hlt
    exact hmin n (by omega) hf
  · intro k hk hkne
    have := hb k hk
    rwa [lookupEntry_snoc _ _ _ _ hfree,
      if_neg (fun e => hkne (candidate_injective _ _ _ _ e))] at this

/-- C3, amended. Uniqueness under collision: in a store whose two directories exist,
whatever items it holds already, two existing sources with the same base name,
neither inside the other and neither of them a store directory or above one, are
put within the same timestamp second.  Among the candidates `ts_base`, `ts_base_1`,
`ts_base_2` and so on there are a first and a second one free in the payload
area, `tn1` and `tn2`, distinct and new (on an empty store they are `ts_base` and
`ts_base_1`).  When no directory of the metadata area has the name of the record
of `tn1` or of `tn2`, and the name of the record of `tn2`, the longer of the two,
is within the length limit of a file name, both calls succeed, the first is
assigned `tn1` and the second `tn2`, both items are returned by `List`, and each can
be restored to its own original path whether the other has been restored before it
or not. -/
theorem collision_unique (j : Codec) (hj : j.Lawful) (root : Path) (wd p1 p2 : String)
    (fs : Node) (n1 n2 : Node) (t1 t1b t2 t2b : Time) (s1 s2 : Nat)
    (es1 es2 : List (String × Node))
    (hfd : stat fs (mkManager root).filesDir = .ok (.dir s1 es1))
    (hid : stat fs (mkManager root).infoDir = .ok (.dir s2 es2))
    (h1 : stat fs (abs wd p1) = .ok n1) (h2 : stat fs (abs wd p2) = .ok n2)
    (hbase : base (abs wd p1) = base (abs wd p2)) (hsec : t1.format = t2.format)
    (h12 : ¬ abs wd p1 <+: abs wd p2) (h21 : ¬ abs wd p2 <+: abs wd p1)
    (hs1 : ¬ abs wd p1 <+: (mkManager root).filesDir)
    (hs1i : ¬ abs wd p1 <+: (mkManager root).infoDir)
    (hs2 : ¬ abs wd p2 <+: (mkManager root).filesDir)
    (hs2i : ¬ abs wd p2 <+: (mkManager root).infoDir) :
    ∃ k1 k2 tn1 tn2,
      tn1 = candidate t1.format (base (abs wd p1)) k1 ∧
      tn2 = candidate t1.format (base (abs wd p1)) k2 ∧
      k1 < k2 ∧ k2 ≤ es1.length + 1 ∧ tn1 ≠ tn2 ∧
      tn1 ∉ es1.map Prod.fst ∧ tn2 ∉ es1.map Prod.fst ∧
      (∀ k, k < k1 → candidate t1.format (base (abs wd p1)) k ∈ es1.map Prod.fst) ∧
      (∀ k, k < k2 → k ≠ k1 → candidate t1.format (base (abs wd p1)) k ∈ es1.map Prod.fst) ∧
      (es1 = [] → tn1 = t1.format ++ "_" ++ base (abs wd p1) ∧
        tn2 = t1.format ++ "_" ++ base (abs wd p1) ++ "_" ++ Nat.repr 1) ∧
      ((∀ s es, lookupEntry (tn1 ++ ".json") es2 ≠ some (.dir s es)) →
        (∀ s es, lookupEntry (tn2 ++ ".json") es2 ≠ some (.dir s es)) →
        nameBytes (tn2 ++ ".json") ≤ nameMax →
        ∃ fsA fsB,
          (mkManager root).Put j wd fs p1 t1 t1b = (fsA, none) ∧
          (mkManager root).Put j wd fsA p2 t2 t2b = (fsB, none) ∧
          (∃ items, (mkManager root).List j fsB = .ok items ∧
            (⟨abs wd p1, (mkManager root).filesDir ++ [tn1], t1b, n1.size⟩ : Item) ∈ items ∧
            (⟨abs wd p2, (mkManager root).filesDir ++ [tn2], t2b, n2.size⟩ : Item) ∈ items) ∧
          (∃ fsC, (mkManager root).Restore j fsB tn1 = (fsC, none) ∧
            stat fsC (abs wd p1) = .ok n1 ∧
            ∃ fsD, (mkManager root).Restore j fsC tn2 = (fsD, none) ∧
              stat fsD (abs wd p2) = .ok n2 ∧ stat fsD (abs wd p1) = .ok n1) ∧
          (∃ fsC, (mkManager root).Restore j fsB tn2 = (fsC, none) ∧
            stat fsC (abs wd p2) = .ok n2 ∧
            ∃ fsD, (mkManager root).Restore j fsC tn1 = (fsD, none) ∧
              stat fsD (abs wd p1) = .ok n1 ∧ stat fsD (abs wd p2) = .ok n2)) := by
  simp only [mkManager] at hfd hid hs1 hs1i hs2 hs2i ⊢
  have hane1 : abs wd p1 ≠ [] := fun e => hs1 (e ▸ List.nil_prefix)
  have hane2 : abs wd p2 ≠ [] := fun e => hs2 (e ▸ List.nil_prefix)
  have hb1 : '/' ∉ (base (abs wd p1)).data := (abs_plain wd p1 _ (base_mem _ hane1)).1
  obtain ⟨k1, hk1le, hfree1, hk1⟩ := exists_free_candidate t1.format (base (abs wd p1)) es1
  obtain ⟨k2, hk12, hk2le, hfree2', hk2⟩ :=
    exists_second_free t1.format (base (abs wd p1)) es1 k1 hfree1 hk1
  have hne : candidate t1.format (base (abs wd p1)) k1 ≠ candidate t1.format (base (abs wd p1)) k2 := by
    intro e
    have := candidate_injective _ _ _ _ e
    omega
  refine ⟨k1, k2, candidate t1.format (base (abs wd p1)) k1,
    candidate t1.format (base (abs wd p1)) k2, rfl, rfl, hk12, hk2le, hne, ?_, ?_, ?_, ?_, ?_, ?_⟩
  · rw [mem_keys_iff_lookup]
    simp [hfree1]
  · rw [mem_keys_iff_lookup]
    simp [hfree2']
  · intro k hk
    exact mem_keys_of_lookup _ _ (hk1 k hk)
  · intro k hk hkne
    exact mem_keys_of_lookup _ _ (hk2 k hk hkne)
  · intro he
    subst he
    have hz : k1 = 0 := by
      simp only [List.length_nil] at hk1le
      omega
    subst hz
    have h2o : k2 = 1 := by
      simp only [List.length_nil] at hk2le
      omega
    subst h2o
    exact ⟨rfl, rfl⟩
  intro hrec1 hrec2 hfit
  rw [nameBytes_json] at hfit
  have hfit1 : nameBytes (candidate t1.format (base (abs wd p1)) k1) + 5 ≤ nameMax := by
    have := candidate_bytes_mono t1.format (base (abs wd p1)) k1 k2 (by omega)
    omega
  have hshort1 : nameBytes (base (abs wd p1)) ≤ nameMax := by
    have := candidate_bytes_gt t1.format (base (abs wd p1)) k1
    omega
  have hshort2 : nameBytes (base (abs wd p2)) ≤ nameMax := hbase ▸ hshort1
  have hbc1 : ∀ k, base (abs wd p1) ≠ candidate t1.format (base (abs wd p1)) k := by
    intro k e
    have := candidate_bytes_gt t1.format (base (abs wd p1)) k
    rw [← e] at this
    omega
  have hbr1 : ∀ k, base (abs wd p1) ≠ candidate t1.format (base (abs wd p1)) k ++ ".json" := by
    intro k e
    have := candidate_bytes_gt t1.format (base (abs wd p1)) k
    have h5 := nameBytes_json (candidate t1.format (base (abs wd p1)) k)
    rw [← e] at h5
    omega
  have hbr2 : ∀ k, base (abs wd p2) ≠ candidate t1.format (base (abs wd p1)) k ++ ".json" :=
    fun k => hbase ▸ hbr1 k
  have hrecS1 := not_dir_of_lookup _ _ _ _ _ hid hrec1
  have hrecS2 := not_dir_of_lookup _ _ _ _ _ hid hrec2
  have hA12 : Apart (abs wd p1) (abs wd p2) := ⟨h12, h21⟩
  -- first Put
  have hp1 := probe_least fs (root ++ ["files"]) t1.format (base (abs wd p1)) s1 es1 hfd
    (format_noSlash _) hb1 k1 hfree1 hk1 (by omega)
  obtain ⟨fsA, a1, apl, _, hA1P1, hA1R1, apay, arec, agone, aframe, akeep, esA, hfdA, hlenA⟩ :=
    put_gen j root wd p1 fs t1 t1b n1 s1 s2 es1 es2 _ h1 hfd hid hs1 hs1i hrec1 hp1 (by
      rw [nameBytes_json]
      exact hfit1)
  have hfreeS1 := missing_of_lookup_none _ _ _ _ _ [] hfd hfree1
  have hA2P1 : Apart (abs wd p2) (root ++ ["files"] ++ [candidate t1.format (base (abs wd p1)) k1]) :=
    source_apart_free _ _ _ _ _ _ h2 hfreeS1 hs2
  have hA2R1 : Apart (abs wd p2)
      (root ++ ["info"] ++ [candidate t1.format (base (abs wd p1)) k1 ++ ".json"]) :=
    source_apart_file _ _ _ _ _ h2 hrecS1 hs2i (hbr2 k1)
  -- second Put
  have h2A : stat fsA (abs wd p2) = .ok n2 := by
    rw [aframe _ hA12 (apart_symm _ _ hA2P1) (apart_symm _ _ hA2R1), h2]
  obtain ⟨esIA, hidA⟩ := akeep _ _ _ hid hs1i
  have hc : ∀ k, candidate t2.format (base (abs wd p2)) k =
      candidate t1.format (base (abs wd p1)) k := fun k => by rw [hsec, hbase]
  have hbusy1 : lookupEntry (candidate t1.format (base (abs wd p1)) k1) esA = some n1 := by
    obtain ⟨_, _, h5, h6⟩ := stat_snoc_parent _ _ _ _ apay
    rw [hfdA] at h5
    cases h5
    exact h6
  have htrans : ∀ k, k ≠ k1 →
      (lookupEntry (candidate t1.format (base (abs wd p1)) k) esA = none ↔
        lookupEntry (candidate t1.format (base (abs wd p1)) k) es1 = none) :=
    fun k hk => payload_free_transfer root fs fsA _ n1 _ _ s1 es1 esA h1 hs1 hfd hfdA aframe akeep
      (hbc1 k) (fun e => hk (candidate_injective _ _ _ _ e))
  have hfree2 : lookupEntry (candidate t1.format (base (abs wd p1)) k2) esA = none :=
    (htrans k2 (by omega)).mpr hfree2'
  have hk2A : ∀ k, k < k2 → lookupEntry (candidate t1.format (base (abs wd p1)) k) esA ≠ none := by
    intro k hk
    by_cases hkk : k = k1
    · rw [hkk, hbusy1]
      simp
    · exact fun h => hk2 k hk hkk ((htrans k hkk).mp h)
  have hp2 := probe_least fsA (root ++ ["files"]) t2.format (base (abs wd p2)) s1 esA hfdA
    (format_noSlash _) (hbase ▸ hb1) k2 (by rw [hc]; exact hfree2)
    (fun k hk => by rw [hc]; exact hk2A k hk) (by rw [hc]; omega)
  rw [hc] at hp2
  have hjne : candidate t1.format (base (abs wd p1)) k1 ++ ".json" ≠
      candidate t1.format (base (abs wd p1)) k2 ++ ".json" := fun e => hne (json_inj _ _ e)
  have hA1R2 : Apart (abs wd p1)
      (root ++ ["info"] ++ [candidate t1.format (base (abs wd p1)) k2 ++ ".json"]) :=
    source_apart_file _ _ _ _ _ h1 hrecS2 hs1i (hbr1 k2)
  have hfreeS2 := missing_of_lookup_none _ _ _ _ _ [] hfd hfree2'
  have hA1P2 : Apart (abs wd p1) (root ++ ["files"] ++ [candidate t1.format (base (abs wd p1)) k2]) :=
    source_apart_free _ _ _ _ _ _ h1 hfreeS2 hs1
  have hR12 := apart_siblings (root ++ ["info"]) _ _ hjne
  have hP12 := apart_siblings (root ++ ["files"]) _ _ hne
  have hrecA : ∀ s es, lookupEntry (candidate t1.format (base (abs wd p1)) k2 ++ ".json") esIA ≠
      some (.dir s es) := by
    have he := aframe _ hA1R2 (apart_files_info root _ _) hR12
    rw [lookup_eq_of_stat fs fsA _ _ s2 s2 es2 esIA hid hidA he]
    exact hrec2
  obtain ⟨fsB, b1, bpl, _, hA2P2, hA2R2, bpay, brec, bgone, bframe, bkeep, _⟩ :=
    put_gen j root wd p2 fsA t2 t2b n2 s1 s2 esA esIA _ h2A hfdA hidA hs2 hs2i hrecA hp2 (by
      rw [nameBytes_json]
      exact hfit)
  -- the state after both calls
  have hrec1B : stat fsB (root ++ ["info"] ++ [candidate t1.format (base (abs wd p1)) k1 ++ ".json"]) =
      .ok (.file (j.marshal ⟨abs wd p1,
        root ++ ["files"] ++ [candidate t1.format (base (abs wd p1)) k1], t1b, n1.size⟩)) := by
    rw [bframe _ hA2R1 (apart_files_info root _ _) (apart_symm _ _ hR12), arec]
  have hpay1B : stat fsB (root ++ ["files"] ++ [candidate t1.format (base (abs wd p1)) k1]) =
      .ok n1 := by
    rw [bframe _ hA2P1 (apart_symm _ _ hP12) (apart_symm _ _ (apart_files_info root _ _)), apay]
  have horig1B : stat fsB (abs wd p1) = .error .ENOENT := by
    rw [bframe _ (apart_symm _ _ hA12) (apart_symm _ _ hA1P2) (apart_symm _ _ hA1R2), agone]
  -- the parents of the two sources are still directories
  obtain ⟨sp1, esp1, hpar1, _⟩ := stat_snoc_parent fs _ _ _
    (by rw [← path_eq_snoc _ hane1]; exact h1)
  obtain ⟨sp2, esp2, hpar2, _⟩ := stat_snoc_parent fs _ _ _
    (by rw [← path_eq_snoc _ hane2]; exact h2)
  have hself : ∀ a : Path, a ≠ [] → ¬ a <+: dirOf a := by
    intro a ha h
    have h3 := h.length_le
    have h4 := congrArg List.length (path_eq_snoc a ha)
    simp [dirOf] at h3 h4
    omega
  obtain ⟨e1, hpar1A⟩ := akeep _ _ _ hpar1 (hself _ hane1)
  obtain ⟨e1B, hpar1B⟩ := bkeep _ _ _ hpar1A (not_prefix_dirOf _ _ h21)
  obtain ⟨e2, hpar2A⟩ := akeep _ _ _ hpar2 (not_prefix_dirOf _ _ h12)
  obtain ⟨e2B, hpar2B⟩ := bkeep _ _ _ hpar2A (hself _ hane2)
  refine ⟨fsA, fsB, a1, b1, ?_, ?_, ?_⟩
  · obtain ⟨items, hi1, hi2⟩ := mem_list_of_record j (mkManager root) fsB _ _ apl
      (loadItemInfo_record j fsB _ _ _ hrec1B
        (hj ⟨abs wd p1, root ++ ["files"] ++ [candidate t1.format (base (abs wd p1)) k1], t1b,
          n1.size⟩))
    obtain ⟨items2, hi3, hi4⟩ := mem_list_of_record j (mkManager root) fsB _ _ bpl
      (loadItemInfo_record j fsB _ _ _ brec
        (hj ⟨abs wd p2, root ++ ["files"] ++ [candidate t1.format (base (abs wd p1)) k2], t2b,
          n2.size⟩))
    rw [hi1] at hi3
    cases hi3
    exact ⟨items, hi1, hi2, hi4⟩
  · exact restore_pair_gen j hj root _ _ fsB
      ⟨abs wd p1, root ++ ["files"] ++ [candidate t1.format (base (abs wd p1)) k1], t1b, n1.size⟩
      ⟨abs wd p2, root ++ ["files"] ++ [candidate t1.format (base (abs wd p1)) k2], t2b, n2.size⟩
      n1 n2 _ _ _ _ _ _ apl bpl hne hrec1B brec hpay1B bpay hpar1B hpar2B horig1B bgone
      hshort1 hshort2 hA12 hA1P2 hA1R2 hA2P1 hA2R1 hA1P1.2 hA2P2.2
  · exact restore_pair_gen j hj root _ _ fsB
      ⟨abs wd p2, root ++ ["files"] ++ [candidate t1.format (base (abs wd p1)) k2], t2b, n2.size⟩
      ⟨abs wd p1, root ++ ["files"] ++ [candidate t1.format (base (abs wd p1)) k1], t1b, n1.size⟩
      n2 n1 _ _ _ _ _ _ bpl apl (Ne.symm hne) brec hrec1B bpay hpay1B hpar2B hpar1B bgone horig1B
      hshort2 hshort1 (apart_symm _ _ hA12) hA2P1 hA2R1 hA1P2 hA1R2 hA2P2.2 hA1P1.2

/-- An instance of C3 on a store that holds an item already: the two files named
`a.txt` of `demoBusyFs`, where the name `20240102_030405_a.txt` is taken.  The first
two free candidates are those with the suffixes `_1` and `_2`; both calls of `Put`
succeed, both items are listed under these names, and each is restored whether the
other has been restored before it or not. -/
theorem collision_unique_witness :
    demoCodec.Lawful ∧
      stat demoBusyFs (mkManager ["t"]).filesDir =
        .ok (.dir 4096 [("20240102_030405_a.txt", .file [9])]) ∧
      stat demoBusyFs (mkManager ["t"]).infoDir =
        .ok (.dir 4096 [("20240102_030405_a.txt.json", .file (demoCodec.marshal
          ⟨["u", "a.txt"], ["t", "files", "20240102_030405_a.txt"], demoTime, 1⟩))]) ∧
      stat demoBusyFs (abs "/w" "a.txt") = .ok (.file [104, 105, 10]) ∧
      stat demoBusyFs (abs "/w" "/v/a.txt") = .ok (.file [1, 2]) ∧
      base (abs "/w" "a.txt") = base (abs "/w" "/v/a.txt") ∧
      ¬ abs "/w" "a.txt" <+: abs "/w" "/v/a.txt" ∧ ¬ abs "/w" "/v/a.txt" <+: abs "/w" "a.txt" ∧
      ∃ fsA fsB,
        (mkManager ["t"]).Put demoCodec "/w" demoBusyFs "a.txt" demoTime demoTime =
          (fsA, none) ∧
        (mkManager ["t"]).Put demoCodec "/w" fsA "/v/a.txt" demoTime demoTime = (fsB, none) ∧
        (∃ items, (mkManager ["t"]).List demoCodec fsB = .ok items ∧
          (⟨["w", "a.txt"], ["t", "files", "20240102_030405_a.txt_1"], demoTime, 3⟩ : Item) ∈
            items ∧
          (⟨["v", "a.txt"], ["t", "files", "20240102_030405_a.txt_2"], demoTime, 2⟩ : Item) ∈
            items) ∧
        (∃ fsC, (mkManager ["t"]).Restore demoCodec fsB "20240102_030405_a.txt_1" =
            (fsC, none) ∧
          stat fsC ["w", "a.txt"] = .ok (.file [104, 105, 10]) ∧
          ∃ fsD, (mkManager ["t"]).Restore demoCodec fsC "20240102_030405_a.txt_2" =
              (fsD, none) ∧
            stat fsD ["v", "a.txt"] = .ok (.file [1, 2]) ∧
            stat fsD ["w", "a.txt"] = .ok (.file [104, 105, 10])) ∧
        (∃ fsC, (mkManager ["t"]).Restore demoCodec fsB "20240102_030405_a.txt_2" =
            (fsC, none) ∧
          stat fsC ["v", "a.txt"] = .ok (.file [1, 2]) ∧
          ∃ fsD, (mkManager ["t"]).Restore demoCodec fsC "20240102_030405_a.txt_1" =
              (fsD, none) ∧
            stat fsD ["w", "a.txt"] = .ok (.file [104, 105, 10]) ∧
            stat fsD ["v", "a.txt"] = .ok (.file [1, 2])) := by
  obtain ⟨k1, k2, tn1, tn2, e1, e2, h12, hle, -, hn1, -, -, -, -, himp⟩ :=
    collision_unique demoCodec demoCodec_lawful ["t"] "/w" "a.txt" "/v/a.txt" demoBusyFs
      (.file [104, 105, 10]) (.file [1, 2]) demoTime demoTime demoTime demoTime 4096 4096
      [("20240102_030405_a.txt", .file [9])]
      [("20240102_030405_a.txt.json", .file (demoCodec.marshal
        ⟨["u", "a.txt"], ["t", "files", "20240102_030405_a.txt"], demoTime, 1⟩))]
      rfl rfl rfl rfl rfl rfl (by decide) (by decide) (by decide) (by decide) (by decide)
      (by decide)
  have hk1 : k1 = 1 := by
    rcases k1 with _ | _ | k
    · subst e1
      exact absurd (by decide) hn1
    · rfl
    · simp only [List.length_singleton] at hle
      omega
  subst hk1
  have hk2 : k2 = 2 := by
    simp only [List.length_singleton] at hle
    omega
  subst hk2
  subst e1 e2
  obtain ⟨fsA, fsB, hA, hB, hL, hR1, hR2⟩ := himp
    (fun s es h => by
      have h0 : lookupEntry (candidate demoTime.format (base (abs "/w" "a.txt")) 1 ++ ".json")
          [("20240102_030405_a.txt.json", Node.file (demoCodec.marshal
            ⟨["u", "a.txt"], ["t", "files", "20240102_030405_a.txt"], demoTime, 1⟩))] =
          none := rfl
      rw [h0] at h
      cases h)
    (fun s es h => by
      have h0 : lookupEntry (candidate demoTime.format (base (abs "/w" "a.txt")) 2 ++ ".json")
          [("20240102_030405_a.txt.json", Node.file (demoCodec.marshal
            ⟨["u", "a.txt"], ["t", "files", "20240102_030405_a.txt"], demoTime, 1⟩))] =
          none := rfl
      rw [h0] at h
      cases h)
    (by decide)
  exact ⟨demoCodec_lawful, rfl, rfl, rfl, rfl, rfl, by decide, by decide, fsA, fsB, hA, hB, hL,
    hR1, hR2⟩

/-! ## Pairing of the two listings -/

/-- Making directories along `p` leaves every existing entry alone that `p` does
not pass through. -/
theorem mkdirChain_frame (p q : Path) (fs fs1 n : Node) (hq : stat fs q = .ok n)
    (hqp : ¬ q <+: p) (h : mkdirChain fs p = .ok fs1) : stat fs1 q = .ok n := by
  induction p generalizing fs fs1 q n with
  | nil =>
    cases fs with
    | file b => simp [mkdirChain] at h
    | dir s es =>
      simp only [mkdirChain, Except.ok.injEq] at h
      rw [← h]
      exact hq
  | cons c cs ih =>
    cases fs with
    | file b => simp [mkdirChain] at h
    | dir s es =>
      cases q with
      | nil => exact absurd List.nil_prefix hqp
      | cons c2 r =>
        simp only [mkdirChain] at h
        split at h
        · cases h
        cases hm : mkdirChain ((lookupEntry c es).getD (.dir freshDirSize [])) cs with
        | error e => simp [hm] at h
        | ok m1 =>
          simp only [hm, Except.ok.injEq] at h
          subst h
          rw [stat_dir_cons] at hq ⊢
          rw [lookupEntry_setEntry]
          by_cases hc : c2 = c
          · subst hc
            simp only [if_true]
            cases hl : lookupEntry c2 es with
            | none => simp [hl] at hq
            | some m =>
              simp only [hl] at hq
              simp only [hl, Option.getD_some] at hm
              exact ih r m m1 n hq (fun hp => hqp ((List.prefix_cons_inj _).mpr hp)) hm
          · simp only [hc, if_false]
            exact hq

theorem mkdirAll_frame (p q : Path) (fs fs1 n : Node) (hq : stat fs q = .ok n)
    (hqp : ¬ q <+: p) (h : mkdirAll fs p = .ok fs1) : stat fs1 q = .ok n := by
  unfold mkdirAll at h
  split at h
  · cases h
    exact hq
  · cases h
  · exact mkdirChain_frame p q fs fs1 n hq hqp h

theorem mem_eraseEntry (c : String) (e : String × Node) (es : List (String × Node)) :
    e ∈ eraseEntry c es ↔ e ∈ es ∧ e.1 ≠ c := by
  induction es with
  | nil => simp [eraseEntry]
  | cons x rest ih =>
    by_cases hx : x.1 = c
    · simp only [eraseEntry, hx, if_true, ih, List.mem_cons]
      constructor
      · rintro ⟨h1, h2⟩
        exact ⟨Or.inr h1, h2⟩
      · rintro ⟨h1 | h1, h2⟩
        · subst h1
          exact absurd hx h2
        · exact ⟨h1, h2⟩
    · simp only [eraseEntry, hx, if_false, List.mem_cons, ih]
      constructor
      · rintro (h1 | ⟨h1, h2⟩)
        · subst h1
          exact ⟨Or.inl rfl, hx⟩
        · exact ⟨Or.inr h1, h2⟩
      · rintro ⟨h1 | h1, h2⟩
        · exact Or.inl h1
        · exact Or.inr ⟨h1, h2⟩

theorem keys_eraseEntry (c k : String) (es : List (String × Node)) :
    k ∈ (eraseEntry c es).map Prod.fst ↔ k ∈ es.map Prod.fst ∧ k ≠ c := by
  simp only [List.mem_map, mem_eraseEntry]
  constructor
  · rintro ⟨e, ⟨h1, h2⟩, rfl⟩
    exact ⟨⟨e, h1, rfl⟩, h2⟩
  · rintro ⟨⟨e, h1, rfl⟩, h2⟩
    exact ⟨e, ⟨h1, h2⟩, rfl⟩

theorem nodup_eraseEntry (c : String) (es : List (String × Node))
    (h : (es.map Prod.fst).Nodup) : ((eraseEntry c es).map Prod.fst).Nodup := by
  induction es with
  | nil => simp [eraseEntry]
  | cons x rest ih =>
    simp only [List.map_cons, List.nodup_cons] at h
    by_cases hx : x.1 = c
    · simp only [eraseEntry, hx, if_true]
      exact ih h.2
    · simp only [eraseEntry, hx, if_false, List.map_cons, List.nodup_cons]
      refine ⟨fun hm => h.1 ((keys_eraseEntry _ _ _).mp hm).1, ih h.2⟩

/-- Erasing an item keeps the pairing of the two listings. -/
theorem lockstep_erase (P : Item → Prop) (j : Codec) (fd : Path) (tn : String)
    (es1 es2 : List (String × Node))
    (hn1 : (es1.map Prod.fst).Nodup) (hn2 : (es2.map Prod.fst).Nodup)
    (h1 : ∀ n, n ∈ es1.map Prod.fst → n ++ ".json" ∈ es2.map Prod.fst)
    (h2 : ∀ e ∈ es2, ∃ n data item, e = (n ++ ".json", Node.file data) ∧
      n ∈ es1.map Prod.fst ∧ j.unmarshal data = some item ∧ item.trashPath = fd ++ [n] ∧
      P item) :
    (((eraseEntry tn es1).map Prod.fst).Nodup) ∧
      (((eraseEntry (tn ++ ".json") es2).map Prod.fst).Nodup) ∧
      (∀ n, n ∈ (eraseEntry tn es1).map Prod.fst →
        n ++ ".json" ∈ (eraseEntry (tn ++ ".json") es2).map Prod.fst) ∧
      ∀ e ∈ eraseEntry (tn ++ ".json") es2, ∃ n data item,
        e = (n ++ ".json", Node.file data) ∧ n ∈ (eraseEntry tn es1).map Prod.fst ∧
        j.unmarshal data = some item ∧ item.trashPath = fd ++ [n] ∧ P item := by
  refine ⟨nodup_eraseEntry _ _ hn1, nodup_eraseEntry _ _ hn2, ?_, ?_⟩
  · intro n hn
    obtain ⟨a, b⟩ := (keys_eraseEntry _ _ _).mp hn
    exact (keys_eraseEntry _ _ _).mpr ⟨h1 n a, fun e => b (json_inj _ _ e)⟩
  · intro e he
    obtain ⟨a, b⟩ := (mem_eraseEntry _ _ _).mp he
    obtain ⟨n, data, item, rfl, c, d, f, g⟩ := h2 e a
    refine ⟨n, data, item, rfl, (keys_eraseEntry _ _ _).mpr ⟨c, ?_⟩, d, f, g⟩
    rintro rfl
    exact b rfl

/-- Adding a new item keeps the pairing of the two listings. -/
theorem lockstep_add (P : Item → Prop) (j : Codec) (fd : Path) (tn : String) (node : Node)
    (item : Item) (es1 es2 : List (String × Node)) (hj : j.Lawful)
    (hn1 : (es1.map Prod.fst).Nodup) (hn2 : (es2.map Prod.fst).Nodup)
    (h1 : ∀ n, n ∈ es1.map Prod.fst → n ++ ".json" ∈ es2.map Prod.fst)
    (h2 : ∀ e ∈ es2, ∃ n data item, e = (n ++ ".json", Node.file data) ∧
      n ∈ es1.map Prod.fst ∧ j.unmarshal data = some item ∧ item.trashPath = fd ++ [n] ∧
      P item)
    (hnew : lookupEntry tn es1 = none) (htp : item.trashPath = fd ++ [tn]) (hP : P item) :
    (((es1 ++ [(tn, node)]).map Prod.fst).Nodup) ∧
      (((setEntry (tn ++ ".json") (.file (j.marshal item)) es2).map Prod.fst).Nodup) ∧
      (∀ n, n ∈ (es1 ++ [(tn, node)]).map Prod.fst →
        n ++ ".json" ∈ (setEntry (tn ++ ".json") (.file (j.marshal item)) es2).map Prod.fst) ∧
      ∀ e ∈ setEntry (tn ++ ".json") (.file (j.marshal item)) es2, ∃ n data item,
        e = (n ++ ".json", Node.file data) ∧ n ∈ (es1 ++ [(tn, node)]).map Prod.fst ∧
        j.unmarshal data = some item ∧ item.trashPath = fd ++ [n] ∧ P item := by
  have hk1 : tn ∉ es1.map Prod.fst := by
    rw [mem_keys_iff_lookup]
    simp [hnew]
  have hk2 : tn ++ ".json" ∉ es2.map Prod.fst := by
    intro hm
    obtain ⟨e, he, hek⟩ := List.mem_map.mp hm
    obtain ⟨n, data, it, rfl, c, _⟩ := h2 e he
    exact hk1 (json_inj _ _ hek ▸ c)
  have hl2 : lookupEntry (tn ++ ".json") es2 = none := by
    by_contra hc
    exact hk2 ((mem_keys_iff_lookup _ _).mpr hc)
  rw [setEntry_of_lookup_none _ _ _ hl2]
  refine ⟨?_, ?_, ?_, ?_⟩
  · simp only [List.map_append, List.map_cons, List.map_nil]
    exact List.Nodup.append hn1 (by simp) (by simpa using hk1)
  · simp only [List.map_append, List.map_cons, List.map_nil]
    exact List.Nodup.append hn2 (by simp) (by simpa using hk2)
  · intro n hn
    simp only [List.map_append, List.map_cons, List.map_nil, List.mem_append,
      List.mem_singleton] at hn ⊢
    rcases hn with hn | rfl
    · exact Or.inl (h1 n hn)
    · exact Or.inr rfl
  · intro e he
    simp only [List.mem_append, List.mem_singleton] at he
    rcases he with he | rfl
    · obtain ⟨n, data, it, rfl, c, d, f, g⟩ := h2 e he
      exact ⟨n, data, it, rfl, by simp [c], d, f, g⟩
    · exact ⟨tn, _, item, rfl, by simp, hj item, htp, hP⟩

/-! ## Every operation keeps the store in lockstep -/

theorem put_inv (j : Codec) (m : Manager) (wd path : String) (fs fs2 : Node) (now now2 : Time)
    (h : m.Put j wd fs path now now2 = (fs2, none)) :
    ∃ node tn fs1, stat fs (abs wd path) = .ok node ∧
      probe fs m.filesDir now.format (base (abs wd path)) (probeFuel fs m.filesDir) 1
        (now.format ++ "_" ++ base (abs wd path)) = some tn ∧
      rename fs (abs wd path) (join m.filesDir tn) = .ok fs1 := by
  unfold Manager.Put at h
  cases hs : stat fs (abs wd path) with
  | error e => simp [hs] at h
  | ok node =>
    simp only [hs] at h
    cases hp : probe fs m.filesDir now.format (base (abs wd path)) (probeFuel fs m.filesDir) 1
        (now.format ++ "_" ++ base (abs wd path)) with
    | none => simp [hp] at h
    | some tn =>
      simp only [hp] at h
      cases hr : rename fs (abs wd path) (join m.filesDir tn) with
      | error e => simp [hr] at h
      | ok fs1 => exact ⟨node, tn, fs1, rfl, rfl, hr⟩

theorem restore_inv (j : Codec) (m : Manager) (fs fs3 : Node) (tn : String)
    (h : m.Restore j fs tn = (fs3, none)) :
    ∃ item fs1 fs2 e, loadItemInfo j fs (join m.infoDir (tn ++ ".json")) = .ok item ∧
      (if isNotExist (stat fs (dirOf item.originalPath)) then
        mkdirAll fs (dirOf item.originalPath) else .ok fs) = .ok fs1 ∧
      stat fs1 item.originalPath = .error e ∧
      rename fs1 (join m.filesDir tn) item.originalPath = .ok fs2 ∧
      remove fs2 (join m.infoDir (tn ++ ".json")) = .ok fs3 := by
  unfold Manager.Restore at h
  cases hl : loadItemInfo j fs (join m.infoDir (tn ++ ".json")) with
  | error e => simp [hl] at h
  | ok item =>
    simp only [hl] at h
    cases hm : (if isNotExist (stat fs (dirOf item.originalPath)) then
        mkdirAll fs (dirOf item.originalPath) else .ok fs) with
    | error e => simp [hm] at h
    | ok fs1 =>
      simp only [hm] at h
      cases hs : stat fs1 item.originalPath with
      | ok n => simp [hs] at h
      | error e =>
        simp only [hs] at h
        cases hr : rename fs1 (join m.filesDir tn) item.originalPath with
        | error e => simp [hr] at h
        | ok fs2 =>
          simp only [hr] at h
          cases hx : remove fs2 (join m.infoDir (tn ++ ".json")) with
          | error e => simp [hx] at h
          | ok fs4 =>
            simp only [hx, Prod.mk.injEq, and_true] at h
            subst h
            exact ⟨item, fs1, fs2, e, rfl, hm, hs, hr, hx⟩

/-- A fresh store is in lockstep. -/
theorem lockstep_fresh (P : Item → Prop) (j : Codec) (m : Manager) (fs : Node)
    (h : Fresh m fs) : LockstepWith P j m fs := by
  obtain ⟨s1, s2, h1, h2⟩ := h
  exact ⟨s1, [], s2, [], h1, h2, by simp, by simp, by simp, by simp⟩

/-- A successful `Put` of a source outside the two store directories keeps the
store in lockstep. -/
theorem lockstep_put (j : Codec) (hj : j.Lawful) (root : Path) (wd path : String)
    (fs fs2 : Node) (now now2 : Time)
    (hinv : LockstepWith (fun it => ¬ (root ++ ["files"]) <+: it.originalPath ∧
      ¬ (root ++ ["info"]) <+: it.originalPath) j (mkManager root) fs)
    (ho1 : ¬ (root ++ ["files"]) <+: abs wd path) (ho2 : ¬ (root ++ ["info"]) <+: abs wd path)
    (h : (mkManager root).Put j wd fs path now now2 = (fs2, none)) :
    LockstepWith (fun it => ¬ (root ++ ["files"]) <+: it.originalPath ∧
      ¬ (root ++ ["info"]) <+: it.originalPath) j (mkManager root) fs2 := by
  obtain ⟨s1, es1, s2, es2, hfd, hid, hn1, hn2, hk1, hk2⟩ := hinv
  simp only [mkManager] at hfd hid hk2
  obtain ⟨node, tn, fs1, hsrc, hprobe, hren⟩ := put_inv _ _ _ _ _ _ _ _ h
  simp only [mkManager] at hprobe hren
  obtain ⟨hfree, _⟩ := probe_some _ _ _ _ _ _ _ _ hprobe
  obtain ⟨_, _, _, hane, hnp, _, _, _⟩ := rename_ok_inv _ _ _ _ _ hren hfree
  obtain ⟨hpl, _⟩ := probe_plain fs _ now _ _ tn hane (fun c hc => abs_plain wd path c hc) hprobe
  rw [join_plain _ _ hpl] at hnp
  have ha1 : ¬ abs wd path <+: (root ++ ["files"]) :=
    fun hp => hnp (hp.trans (List.prefix_append _ _))
  have ha2 : ¬ abs wd path <+: (root ++ ["info"]) := by
    intro hp
    rcases (prefix_snoc_iff _ _ _).mp hp with hp | hp
    · exact ho2 (hp ▸ List.prefix_refl _)
    · exact ha1 (hp.trans (List.prefix_append _ _))
  have hrec : ∀ k s es, lookupEntry k es2 ≠ some (.dir s es) := by
    intro k s es hl
    obtain ⟨n, data, it, he, _⟩ := hk2 _ (mem_of_lookupEntry _ _ _ hl)
    cases he
  obtain ⟨node2, tn2, hsrc2, hprobe2, hfit⟩ :=
    put_ok_fit j root wd path fs fs2 now now2 s1 s2 es1 es2 hfd hid ho1 ho2 ha1 ha2 h
  rw [hprobe] at hprobe2
  cases hprobe2
  obtain ⟨fs3, hput, _, hl1, hfd3, hid3, _⟩ := put_spec j root wd path fs now now2 node s1 s2
    es1 es2 tn hsrc hfd hid ho1 ho2 ha1 ha2 (hrec _) hprobe hfit
  rw [h] at hput
  cases hput
  obtain ⟨a, b, c, d⟩ := lockstep_add _ j (root ++ ["files"]) tn node
    ⟨abs wd path, root ++ ["files"] ++ [tn], now2, node.size⟩ es1 es2 hj hn1 hn2 hk1 hk2 hl1 rfl
    ⟨ho1, ho2⟩
  exact ⟨s1, _, s2, _, hfd3, hid3, a, b, c, d⟩

/-- A successful `Restore` of a plain name keeps the store in lockstep. -/
theorem lockstep_restore (j : Codec) (root : Path) (tn : String) (fs fs3 : Node)
    (hinv : LockstepWith (fun it => ¬ (root ++ ["files"]) <+: it.originalPath ∧
      ¬ (root ++ ["info"]) <+: it.originalPath) j (mkManager root) fs)
    (hpl : PlainName tn) (h : (mkManager root).Restore j fs tn = (fs3, none)) :
    LockstepWith (fun it => ¬ (root ++ ["files"]) <+: it.originalPath ∧
      ¬ (root ++ ["info"]) <+: it.originalPath) j (mkManager root) fs3 := by
  obtain ⟨s1, es1, s2, es2, hfd, hid, hn1, hn2, hk1, hk2⟩ := hinv
  simp only [mkManager] at hfd hid hk2
  obtain ⟨item, fs1, fs2, e, hload, hmk, horig, hren, hrem⟩ := restore_inv _ _ _ _ _ h
  simp only [mkManager, join_plain _ _ hpl, join_plain _ _ (json_plain _ hpl.1)]
    at hload hren hrem
  obtain ⟨data, hs, hu⟩ := loadItemInfo_inv _ _ _ _ hload
  obtain ⟨s2b, es2b, hidb, hl⟩ := stat_snoc_parent _ _ _ _ hs
  rw [hid] at hidb
  cases hidb
  obtain ⟨n, data2, it, he, _, hu2, _, ho1, ho2⟩ := hk2 _ (mem_of_lookupEntry _ _ _ hl)
  obtain ⟨_, he2⟩ := Prod.mk.inj he
  cases he2
  rw [hu] at hu2
  cases hu2
  have hfd1 : stat fs1 (root ++ ["files"]) = .ok (.dir s1 es1) := by
    split at hmk
    · exact mkdirAll_frame _ _ _ _ _ hfd (not_prefix_dirOf _ _ ho1) hmk
    · cases hmk
      exact hfd
  have hid1 : stat fs1 (root ++ ["info"]) = .ok (.dir s2 es2) := by
    split at hmk
    · exact mkdirAll_frame _ _ _ _ _ hid (not_prefix_dirOf _ _ ho2) hmk
    · cases hmk
      exact hid
  obtain ⟨_, _, _, r2, r3, _⟩ :=
    restore_steps root tn fs1 fs2 fs3 s1 s2 es1 es2 _ e hfd1 hid1 horig ho1 ho2 hren hrem
  obtain ⟨a, b, c, d⟩ := lockstep_erase _ j (root ++ ["files"]) tn es1 es2 hn1 hn2 hk1 hk2
  exact ⟨s1, _, s2, _, r2, r3, a, b, c, d⟩

/-- A successful `Remove` of a plain name keeps the store in lockstep. -/
theorem lockstep_remove (P : Item → Prop) (j : Codec) (root : Path) (tn : String)
    (fs fs2 : Node) (hinv : LockstepWith P j (mkManager root) fs) (hpl : PlainName tn)
    (h : (mkManager root).Remove fs tn = (fs2, none)) :
    LockstepWith P j (mkManager root) fs2 := by
  obtain ⟨s1, es1, s2, es2, hfd, hid, hn1, hn2, hk1, hk2⟩ := hinv
  cases hl : lookupEntry (tn ++ ".json") es2 with
  | none =>
    obtain ⟨fs1, _, hr⟩ := remove_norecord_spec root tn fs s1 s2 es1 es2 hpl hfd hid hl
    rw [h] at hr
    cases hr
  | some node =>
    obtain ⟨n, data, it, he, hmem, _⟩ := hk2 _ (mem_of_lookupEntry _ _ _ hl)
    obtain ⟨he1, he2⟩ := Prod.mk.inj he
    subst he2
    have htn : tn = n := json_inj _ _ he1
    subst htn
    simp only [mkManager] at hfd hid hk2
    obtain ⟨fs3, r1, r2, r3, _⟩ := remove_spec root tn fs s1 s2 es1 es2 data hpl hfd hid hl
      (fun hno => absurd hno ((mem_keys_iff_lookup _ _).mp hmem))
    rw [h] at r1
    cases r1
    obtain ⟨a, b, c, d⟩ := lockstep_erase P j (root ++ ["files"]) tn es1 es2 hn1 hn2 hk1 hk2
    exact ⟨s1, _, s2, _, r2, r3, a, b, c, d⟩

/-- A successful `Empty` leaves the store in lockstep. -/
theorem lockstep_empty (P : Item → Prop) (j : Codec) (root : Path) (fs fs2 : Node)
    (s1 : Nat) (es1 : List (String × Node))
    (hfd : stat fs (root ++ ["files"]) = .ok (.dir s1 es1))
    (h : (mkManager root).Empty fs = (fs2, none)) : LockstepWith P j (mkManager root) fs2 := by
  obtain ⟨s, es, hroot, _⟩ := stat_snoc_parent _ _ _ _ hfd
  obtain ⟨fs1, h1, _, h3⟩ := empty_spec root fs s es hroot
  rw [h] at h1
  cases h1
  have hf : stat fs2 (root ++ ["files"]) = .ok (.dir freshDirSize []) :=
    stat_child _ _ _ _ _ _ h3 (by
      unfold emptyListing
      simp [lookupEntry_setEntry])
  have hi : stat fs2 (root ++ ["info"]) = .ok (.dir freshDirSize []) :=
    stat_child _ _ _ _ _ _ h3 (by
      unfold emptyListing
      simp [lookupEntry_setEntry])
  exact ⟨_, [], _, [], hf, hi, by simp, by simp, by simp, by simp⟩

/-! ## Lockstep invariant (C4) -/

/-- C4, as stated, fails: `Put` of `/w/a.txt` followed by `Put` of the metadata record
that the first call wrote are two successful calls, after which the payload entry
`20240102_030405_a.txt` has no metadata record. -/
theorem lockstep_counterexample :
    runAll demoCodec (mkManager ["t"]) "/" demoFs
        [.put "/w/a.txt" demoTime demoTime,
          .put "/t/info/20240102_030405_a.txt.json" demoTime demoTime] = some demoBroken ∧
      ¬ Lockstep demoCodec (mkManager ["t"]) demoBroken := by
  refine ⟨rfl, ?_⟩
  rintro ⟨s1, es1, s2, es2, h1, h2, -, -, h3, -⟩
  have e1 : stat demoBroken (mkManager ["t"]).filesDir = .ok (.dir 4096
      [("20240102_030405_a.txt", .file [104, 105, 10]),
        ("20240102_030405_20240102_030405_a.txt.json", .file (demoCodec.marshal
          ⟨["w", "a.txt"], ["t", "files", "20240102_030405_a.txt"], demoTime, 3⟩))]) := rfl
  have e2 : stat demoBroken (mkManager ["t"]).infoDir = .ok (.dir 4096
      [("20240102_030405_20240102_030405_a.txt.json.json", .file (demoCodec.marshal
        ⟨["t", "info", "20240102_030405_a.txt.json"],
          ["t", "files", "20240102_030405_20240102_030405_a.txt.json"], demoTime, 47⟩))]) := rfl
  rw [e1] at h1
  rw [e2] at h2
  cases h1
  cases h2
  have := h3 "20240102_030405_a.txt" (by simp)
  revert this
  decide

/-- A trash name with path separators also breaks the pairing: after `Put` of `/w/a`
and `/w/a.json`, the call `Remove("../info/20240102_030405_a.json")` succeeds and
deletes the records of both items, leaving the two payload entries without one. -/
theorem lockstep_traversal_example :
    (runAll demoCodec (mkManager ["t"]) "/" demoPairFs
        [.put "/w/a" demoTime demoTime, .put "/w/a.json" demoTime demoTime,
          .remove "../info/20240102_030405_a.json"]).map
        (fun fs => (entriesAt fs (mkManager ["t"]).filesDir,
          entriesAt fs (mkManager ["t"]).infoDir)) =
      some (some [("20240102_030405_a", .file [1]), ("20240102_030405_a.json", .file [2])],
        some []) := rfl

theorem lockstepWith_run (j : Codec) (hj : j.Lawful) (root : Path) (wd : String)
    (ops : List Op) (fs0 fs : Node)
    (hinv : LockstepWith (fun it => ¬ (root ++ ["files"]) <+: it.originalPath ∧
      ¬ (root ++ ["info"]) <+: it.originalPath) j (mkManager root) fs0)
    (hreg : ∀ op ∈ ops, op.Regular (mkManager root) wd)
    (hrun : runAll j (mkManager root) wd fs0 ops = some fs) :
    LockstepWith (fun it => ¬ (root ++ ["files"]) <+: it.originalPath ∧
      ¬ (root ++ ["info"]) <+: it.originalPath) j (mkManager root) fs := by
  induction ops generalizing fs0 with
  | nil =>
    simp only [runAll, Option.some.injEq] at hrun
    exact hrun ▸ hinv
  | cons op rest ih =>
    have hop := hreg op (List.mem_cons_self _ _)
    have hrest : ∀ o ∈ rest, o.Regular (mkManager root) wd :=
      fun o ho => hreg o (List.mem_cons_of_mem _ ho)
    simp only [runAll] at hrun
    cases hs : step j (mkManager root) wd fs0 op with
    | mk fs1 err =>
      cases err with
      | some e => simp [hs] at hrun
      | none =>
        simp only [hs] at hrun
        refine ih fs1 ?_ hrest hrun
        cases op with
        | put path now now2 =>
          exact lockstep_put j hj root wd path fs0 fs1 now now2 hinv hop.1 hop.2 hs
        | restore tn => exact lockstep_restore j root tn fs0 fs1 hinv hop hs
        | remove tn => exact lockstep_remove _ j root tn fs0 fs1 hinv hop hs
        | empty =>
          obtain ⟨s1, es1, _, _, hfd, _⟩ := hinv
          exact lockstep_empty _ j root fs0 fs1 s1 es1 hfd hs

/-- C4, amended. Lockstep invariant: starting from a freshly initialized store, after
every sequence of successful calls of `Put` with a source outside the payload and the
metadata directory, of `Restore` and `Remove` with a plain trash name, and of `Empty`,
the payload area and the metadata area pair up one to one: every payload entry `n`
has exactly one metadata record `n.json`, and every metadata entry is a record
`n.json` of a payload entry `n`, to which its trash path points. -/
theorem lockstep_invariant (j : Codec) (hj : j.Lawful) (root : Path) (wd : String)
    (ops : List Op) (fs0 fs : Node) (hfresh : Fresh (mkManager root) fs0)
    (hreg : ∀ op ∈ ops, op.Regular (mkManager root) wd)
    (hrun : runAll j (mkManager root) wd fs0 ops = some fs) :
    Lockstep j (mkManager root) fs := by
  obtain ⟨s1, es1, s2, es2, a, b, c, d, e, f⟩ :=
    lockstepWith_run j hj root wd ops fs0 fs (lockstep_fresh _ j _ fs0 hfresh) hreg hrun
  refine ⟨s1, es1, s2, es2, a, b, c, d, e, ?_⟩
  intro x hx
  obtain ⟨n, data, item, h1, h2, h3, h4, _⟩ := f x hx
  exact ⟨n, data, item, h1, h2, h3, h4, trivial⟩

/-- An instance of C4: two calls of `Put`, a `Restore`, a `Remove` and an `Empty` on `demoTwoFs`. -/
theorem lockstep_invariant_witness :
    demoCodec.Lawful ∧ Fresh (mkManager ["t"]) demoTwoFs ∧
      (∀ op ∈ [Op.put "a.txt" demoTime demoTime, Op.put "/v/a.txt" demoTime demoTime,
          Op.restore "20240102_030405_a.txt", Op.remove "20240102_030405_a.txt_1", Op.empty],
        op.Regular (mkManager ["t"]) "/w") ∧
      runAll demoCodec (mkManager ["t"]) "/w" demoTwoFs
        [Op.put "a.txt" demoTime demoTime, Op.put "/v/a.txt" demoTime demoTime,
          Op.restore "20240102_030405_a.txt", Op.remove "20240102_030405_a.txt_1", Op.empty] =
        some demoFinal ∧
      Lockstep demoCodec (mkManager ["t"]) demoFinal :=
  have hreg : ∀ op ∈ [Op.put "a.txt" demoTime demoTime, Op.put "/v/a.txt" demoTime demoTime,
      Op.restore "20240102_030405_a.txt", Op.remove "20240102_030405_a.txt_1", Op.empty],
      op.Regular (mkManager ["t"]) "/w" := by
    intro op hop
    simp only [List.mem_cons, List.mem_singleton, List.not_mem_nil, or_false] at hop
    rcases hop with rfl | rfl | rfl | rfl | rfl
    · exact ⟨by decide, by decide⟩
    · exact ⟨by decide, by decide⟩
    · exact ⟨by decide, by decide, by decide, by decide⟩
    · exact ⟨by decide, by decide, by decide, by decide⟩
    · trivial
  ⟨demoCodec_lawful, ⟨4096, 4096, rfl, rfl⟩, hreg, rfl,
    lockstep_invariant demoCodec demoCodec_lawful ["t"] "/w" _ demoTwoFs demoFinal
      ⟨4096, 4096, rfl, rfl⟩ hreg rfl⟩

/-! ## Empty and removing every item (C9) -/

/-- C9, as stated, fails: after `Put` of `/w/a.txt` and `Put` of the record that call
wrote, `List` returns one item; `Remove` of that item leaves the payload entry
`20240102_030405_a.txt` in the payload area, while `Empty` leaves the area empty. -/
theorem empty_vs_remove_counterexample :
    (mkManager ["t"]).List demoCodec demoBroken =
        .ok [⟨["t", "info", "20240102_030405_a.txt.json"],
          ["t", "files", "20240102_030405_20240102_030405_a.txt.json"], demoTime, 47⟩] ∧
      entriesAt ((mkManager ["t"]).Empty demoBroken).1 (mkManager ["t"]).filesDir = some [] ∧
      entriesAt (removeListed (mkManager ["t"]) demoBroken
        [⟨["t", "info", "20240102_030405_a.txt.json"],
          ["t", "files", "20240102_030405_20240102_030405_a.txt.json"], demoTime, 47⟩])
        (mkManager ["t"]).filesDir =
        some [("20240102_030405_a.txt", .file [104, 105, 10])] ∧
      entriesAt ((mkManager ["t"]).Empty demoBroken).1 (mkManager ["t"]).filesDir ≠
        entriesAt (removeListed (mkManager ["t"]) demoBroken
          [⟨["t", "info", "20240102_030405_a.txt.json"],
            ["t", "files", "20240102_030405_20240102_030405_a.txt.json"], demoTime, 47⟩])
          (mkManager ["t"]).filesDir := by
  have e1 : entriesAt ((mkManager ["t"]).Empty demoBroken).1 (mkManager ["t"]).filesDir =
      some [] := rfl
  have e2 : entriesAt (removeListed (mkManager ["t"]) demoBroken
      [⟨["t", "info", "20240102_030405_a.txt.json"],
        ["t", "files", "20240102_030405_20240102_030405_a.txt.json"], demoTime, 47⟩])
      (mkManager ["t"]).filesDir = some [("20240102_030405_a.txt", .file [104, 105, 10])] := rfl
  refine ⟨rfl, e1, e2, ?_⟩
  intro h
  rw [e1, e2] at h
  cases h

theorem entriesAt_of_stat (fs : Node) (d : Path) (s : Nat) (es : List (String × Node))
    (h : stat fs d = .ok (.dir s es)) : entriesAt fs d = some es := by
  simp only [entriesAt, h]

theorem eq_nil_of_lookup_none (es : List (String × Node))
    (h : ∀ k, lookupEntry k es = none) : es = [] := by
  cases es with
  | nil => rfl
  | cons e rest =>
    have := h e.1
    simp [lookupEntry] at this

theorem removeListed_cons (m : Manager) (fs : Node) (item : Item) (rest : List Item) :
    removeListed m fs (item :: rest) =
      removeListed m (m.Remove fs (base item.trashPath)).1 rest := rfl

/-- Removing the items listed from the metadata entries `L`, one after the other,
unlinks exactly their records and their payload entries. -/
theorem removeListed_entries (j : Codec) (root : Path) (fs0 : Node)
    (L : List (String × Node)) (fs : Node) (s1 s2 : Nat) (es1 es2 : List (String × Node))
    (hfd : stat fs (root ++ ["files"]) = .ok (.dir s1 es1))
    (hid : stat fs (root ++ ["info"]) = .ok (.dir s2 es2))
    (hnd : (L.map Prod.fst).Nodup)
    (hL : ∀ e ∈ L, ∃ n data item, e = (n ++ ".json", Node.file data) ∧ PlainName n ∧
      lookupEntry (n ++ ".json") es2 = some (.file data) ∧ lookupEntry n es1 ≠ none ∧
      (mkManager root).listEntry j fs0 e = some item ∧ base item.trashPath = n) :
    ∃ fes1 fes2,
      stat (removeListed (mkManager root) fs (L.filterMap ((mkManager root).listEntry j fs0)))
        (root ++ ["files"]) = .ok (.dir s1 fes1) ∧
      stat (removeListed (mkManager root) fs (L.filterMap ((mkManager root).listEntry j fs0)))
        (root ++ ["info"]) = .ok (.dir s2 fes2) ∧
      (∀ k, lookupEntry k fes2 = if k ∈ L.map Prod.fst then none else lookupEntry k es2) ∧
      ∀ k, lookupEntry k fes1 =
        if k ++ ".json" ∈ L.map Prod.fst then none else lookupEntry k es1 := by
  induction L generalizing fs es1 es2 with
  | nil => exact ⟨es1, es2, hfd, hid, by simp, by simp⟩
  | cons e rest ih =>
    obtain ⟨n, data, item, rfl, hpl, hrec, hpay, hle, hbase⟩ := hL e (List.mem_cons_self _ _)
    simp only [List.map_cons, List.nodup_cons] at hnd
    obtain ⟨fs2, r1, r2, r3, _⟩ := remove_spec root n fs s1 s2 es1 es2 data hpl hfd hid hrec
      (fun hno => absurd hno hpay)
    have hrest : ∀ e ∈ rest, ∃ n2 data item, e = (n2 ++ ".json", Node.file data) ∧
        PlainName n2 ∧
        lookupEntry (n2 ++ ".json") (eraseEntry (n ++ ".json") es2) = some (.file data) ∧
        lookupEntry n2 (eraseEntry n es1) ≠ none ∧
        (mkManager root).listEntry j fs0 e = some item ∧ base item.trashPath = n2 := by
      intro e2 he2
      obtain ⟨n2, data2, item2, rfl, a, b, b2, c, d⟩ := hL e2 (List.mem_cons_of_mem _ he2)
      have hne : n2 ++ ".json" ≠ n ++ ".json" := by
        intro x
        apply hnd.1
        rw [← x]
        exact List.mem_map.mpr ⟨_, he2, rfl⟩
      have hne2 : n2 ≠ n := fun x => hne (by rw [x])
      refine ⟨n2, data2, item2, rfl, a, ?_, ?_, c, d⟩
      · rw [lookupEntry_eraseEntry, if_neg hne, b]
      · rw [lookupEntry_eraseEntry, if_neg hne2]
        exact b2
    obtain ⟨fes1, fes2, f1, f2, f3, f4⟩ := ih fs2 _ _ r2 r3 hnd.2 hrest
    have hstep : removeListed (mkManager root) fs
        (List.filterMap ((mkManager root).listEntry j fs0) ((n ++ ".json", Node.file data) :: rest)) =
        removeListed (mkManager root) fs2
          (List.filterMap ((mkManager root).listEntry j fs0) rest) := by
      rw [List.filterMap_cons, hle]
      simp only [removeListed_cons, hbase, r1]
    rw [hstep]
    refine ⟨fes1, fes2, f1, f2, ?_, ?_⟩
    · intro k
      rw [f3 k, lookupEntry_eraseEntry]
      by_cases hk : k = n ++ ".json"
      · simp [hk]
      · simp only [List.map_cons, List.mem_cons, hk, false_or, if_false]
    · intro k
      rw [f4 k, lookupEntry_eraseEntry]
      by_cases hk : k = n
      · simp [hk]
      · have : k ++ ".json" ≠ n ++ ".json" := fun x => hk (json_inj _ _ x)
        simp only [List.map_cons, List.mem_cons, this, false_or, hk, if_false]

/-- C9, amended. `Empty` is equivalent to removing every item on a store in lockstep:
when the payload and the metadata area pair up one to one and the payload entries
have plain file names, the entries of the two areas after `Empty` are the entries
after `Remove` of every item `List` returns, by the base name of its trash path:
both areas are empty either way. -/
theorem empty_equals_remove_all (j : Codec) (root : Path) (fs : Node) (items : List Item)
    (hlock : Lockstep j (mkManager root) fs)
    (hplain : ∀ es, entriesAt fs (mkManager root).filesDir = some es →
      ∀ e ∈ es, PlainName e.1)
    (hlist : (mkManager root).List j fs = .ok items) :
    entriesAt ((mkManager root).Empty fs).1 (mkManager root).filesDir =
        entriesAt (removeListed (mkManager root) fs items) (mkManager root).filesDir ∧
      entriesAt ((mkManager root).Empty fs).1 (mkManager root).infoDir =
        entriesAt (removeListed (mkManager root) fs items) (mkManager root).infoDir ∧
      entriesAt (removeListed (mkManager root) fs items) (mkManager root).filesDir = some [] ∧
      entriesAt (removeListed (mkManager root) fs items) (mkManager root).infoDir = some [] := by
  obtain ⟨s1, es1, s2, es2, hfd, hid, hn1, hn2, hk1, hk2⟩ := hlock
  have hpl : ∀ e ∈ es1, PlainName e.1 := hplain es1 (entriesAt_of_stat _ _ _ _ hfd)
  -- the side of `Empty`
  obtain ⟨s, es, hroot, _⟩ := stat_snoc_parent _ _ _ _ hfd
  obtain ⟨fsE, e1, _, e0⟩ := empty_spec root fs s es hroot
  have e2 : stat fsE (root ++ ["files"]) = .ok (.dir freshDirSize []) :=
    stat_child _ _ _ _ _ _ e0 (by
      unfold emptyListing
      simp [lookupEntry_setEntry])
  have e3 : stat fsE (root ++ ["info"]) = .ok (.dir freshDirSize []) :=
    stat_child _ _ _ _ _ _ e0 (by
      unfold emptyListing
      simp [lookupEntry_setEntry])
  -- the side of the removals
  have hperm := List.perm_insertionSort nameLE es2
  rw [list_eq_gen j (mkManager root) fs s2 es2 hid] at hlist
  simp only [Except.ok.injEq] at hlist
  subst hlist
  simp only [mkManager] at hfd hid hk2
  obtain ⟨fes1, fes2, f1, f2, f3, f4⟩ := removeListed_entries j root fs
    (es2.insertionSort nameLE) fs s1 s2 es1 es2 hfd hid ((hperm.map Prod.fst).nodup_iff.mpr hn2)
    (by
      intro e he
      obtain ⟨n, data, item, rfl, hn, hu, htp, _⟩ := hk2 e (hperm.mem_iff.mp he)
      obtain ⟨x, hx, hxn⟩ := List.mem_map.mp hn
      have hpn : PlainName n := hxn ▸ hpl x hx
      have hl := lookup_of_mem_nodup _ _ _ hn2 (hperm.mem_iff.mp he)
      refine ⟨n, data, item, rfl, hpn, hl, (mem_keys_iff_lookup _ _).mp hn, ?_, ?_⟩
      · rw [listEntry_record_gen j (mkManager root) fs s2 es2 n data hid hpn.1 hl, hu]
      · rw [htp]
        exact base_append_singleton _ _)
  have hz2 : fes2 = [] := by
    apply eq_nil_of_lookup_none
    intro k
    rw [f3 k]
    split
    · rfl
    · rename_i hk
      by_contra hc
      exact hk ((hperm.map Prod.fst).mem_iff.mpr ((mem_keys_iff_lookup _ _).mpr hc))
  have hz1 : fes1 = [] := by
    apply eq_nil_of_lookup_none
    intro k
    rw [f4 k]
    split
    · rfl
    · rename_i hk
      by_contra hc
      exact hk ((hperm.map Prod.fst).mem_iff.mpr (hk1 k ((mem_keys_iff_lookup _ _).mpr hc)))
  subst hz1 hz2
  rw [e1]
  have a1 : entriesAt fsE (root ++ ["files"]) = some [] := entriesAt_of_stat _ _ _ _ e2
  have a2 : entriesAt fsE (root ++ ["info"]) = some [] := entriesAt_of_stat _ _ _ _ e3
  have b1 := entriesAt_of_stat _ _ _ _ f1
  have b2 := entriesAt_of_stat _ _ _ _ f2
  exact ⟨a1.trans b1.symm, a2.trans b2.symm, b1, b2⟩

/-- An instance of C9: the store of `demoTrashed`. -/
theorem empty_equals_remove_all_witness :
    Lockstep demoCodec (mkManager ["t"]) demoTrashed ∧
      (∀ es, entriesAt demoTrashed (mkManager ["t"]).filesDir = some es →
        ∀ e ∈ es, PlainName e.1) ∧
      (mkManager ["t"]).List demoCodec demoTrashed =
        .ok [⟨["w", "a.txt"], ["t", "files", "20240102_030405_a.txt"], demoTime, 3⟩] ∧
      entriesAt ((mkManager ["t"]).Empty demoTrashed).1 (mkManager ["t"]).filesDir =
        entriesAt (removeListed (mkManager ["t"]) demoTrashed
          [⟨["w", "a.txt"], ["t", "files", "20240102_030405_a.txt"], demoTime, 3⟩])
          (mkManager ["t"]).filesDir ∧
      entriesAt ((mkManager ["t"]).Empty demoTrashed).1 (mkManager ["t"]).infoDir =
        entriesAt (removeListed (mkManager ["t"]) demoTrashed
          [⟨["w", "a.txt"], ["t", "files", "20240102_030405_a.txt"], demoTime, 3⟩])
          (mkManager ["t"]).infoDir ∧
      entriesAt (removeListed (mkManager ["t"]) demoTrashed
        [⟨["w", "a.txt"], ["t", "files", "20240102_030405_a.txt"], demoTime, 3⟩])
        (mkManager ["t"]).filesDir = some [] ∧
      entriesAt (removeListed (mkManager ["t"]) demoTrashed
        [⟨["w", "a.txt"], ["t", "files", "20240102_030405_a.txt"], demoTime, 3⟩])
        (mkManager ["t"]).infoDir = some [] :=
  have hlock : Lockstep demoCodec (mkManager ["t"]) demoTrashed :=
    ⟨4096, [("20240102_030405_a.txt", .file [104, 105, 10])], 4096,
      [("20240102_030405_a.txt.json", .file (demoCodec.marshal
        ⟨["w", "a.txt"], ["t", "files", "20240102_030405_a.txt"], demoTime, 3⟩))],
      rfl, rfl, by simp, by simp, by
        intro n hn
        simp only [List.map_cons, List.map_nil, List.mem_singleton] at hn
        subst hn
        exact List.mem_singleton.mpr rfl, by
        intro e he
        simp only [List.mem_singleton] at he
        subst he
        exact ⟨"20240102_030405_a.txt", _, _, rfl, by simp, demoCodec_lawful _, rfl, trivial⟩⟩
  have hplain : ∀ es, entriesAt demoTrashed (mkManager ["t"]).filesDir = some es →
      ∀ e ∈ es, PlainName e.1 := by
    intro es hes e he
    have h0 : entriesAt demoTrashed (mkManager ["t"]).filesDir =
        some [("20240102_030405_a.txt", .file [104, 105, 10])] := rfl
    rw [h0] at hes
    cases hes
    simp only [List.mem_singleton] at he
    subst he
    exact ⟨by decide, by decide, by decide, by decide⟩
  ⟨hlock, hplain, rfl,
    empty_equals_remove_all demoCodec ["t"] demoTrashed _ hlock hplain rfl⟩

/-! ## C11: `List` and the entries that are not records -/

theorem nameLE_total (a b : String × Node) : nameLE a b ∨ nameLE b a := by
  unfold nameLE
  exact le_total a.1.data b.1.data

theorem nameLE_trans (a b c : String × Node) (h1 : nameLE a b) (h2 : nameLE b c) :
    nameLE a c := by
  unfold nameLE at *
  exact le_trans h1 h2

theorem nameLE_antisymm (a b : String × Node) (h1 : nameLE a b) (h2 : nameLE b a) :
    a.1 = b.1 := by
  unfold nameLE at *
  exact String.ext (le_antisymm h1 h2)

theorem sorted_readDir (l : List (String × Node)) : (l.insertionSort nameLE).Sorted nameLE :=
  @List.sorted_insertionSort _ nameLE _ ⟨nameLE_total⟩ ⟨nameLE_trans⟩ l

/-- Two listings in name order with the same entries, no name twice, are equal. -/
theorem sorted_perm_eq (l1 l2 : List (String × Node)) (hp : l1.Perm l2)
    (h1 : l1.Sorted nameLE) (h2 : l2.Sorted nameLE) (hnd : (l1.map Prod.fst).Nodup) :
    l1 = l2 := by
  induction l1 generalizing l2 with
  | nil => exact hp.nil_eq
  | cons a t ih =>
    cases l2 with
    | nil => exact absurd hp.symm.nil_eq (by simp)
    | cons b u =>
      have hab : a = b := by
        by_contra hne
        have ha : a ∈ u := by
          have := hp.subset (List.mem_cons_self a t)
          rcases List.mem_cons.mp this with h | h
          · exact absurd h hne
          · exact h
        have hb : b ∈ t := by
          have := hp.symm.subset (List.mem_cons_self b u)
          rcases List.mem_cons.mp this with h | h
          · exact absurd h.symm hne
          · exact h
        have hba : nameLE b a := List.rel_of_sorted_cons h2 a ha
        have hab : nameLE a b := List.rel_of_sorted_cons h1 b hb
        have hk := nameLE_antisymm a b hab hba
        simp only [List.map_cons, List.nodup_cons] at hnd
        exact hnd.1 (hk ▸ List.mem_map.mpr ⟨b, hb, rfl⟩)
      subst hab
      simp only [List.map_cons, List.nodup_cons] at hnd
      rw [ih u (List.Perm.cons_inv hp) h1.of_cons h2.of_cons hnd.2]

/-- For an entry of the metadata area, what `List` reads back by its path is the
record the entry itself holds. -/
theorem listEntry_eq_recordOf (j : Codec) (m : Manager) (fs : Node) (s2 : Nat)
    (es2 : List (String × Node)) (e : String × Node)
    (hid : stat fs m.infoDir = .ok (.dir s2 es2)) (hnd : (es2.map Prod.fst).Nodup)
    (he : e ∈ es2) (hpl : PlainName e.1) : m.listEntry j fs e = recordOf j e := by
  obtain ⟨k, n⟩ := e
  cases n with
  | dir s es => simp [Manager.listEntry, recordOf, Node.isDir]
  | file data =>
    have hs : stat fs (m.infoDir ++ [k]) = .ok (.file data) :=
      stat_child _ _ _ _ _ _ hid (lookup_of_mem_nodup _ _ _ hnd he)
    by_cases hx : ext k = ".json"
    · simp only [Manager.listEntry, recordOf, Node.isDir, hx, join_plain _ _ hpl, loadItemInfo,
        readFile, hs]
      cases j.unmarshal data <;> simp
    · simp [Manager.listEntry, recordOf, Node.isDir, hx]

/-- The result of `List` when the metadata area is a well-formed directory. -/
theorem list_eq_records (j : Codec) (m : Manager) (fs : Node) (s2 : Nat)
    (es2 : List (String × Node)) (hid : stat fs m.infoDir = .ok (.dir s2 es2))
    (hpl : ∀ e ∈ es2, PlainName e.1) (hnd : (es2.map Prod.fst).Nodup) :
    m.List j fs = .ok ((es2.insertionSort nameLE).filterMap (recordOf j)) := by
  rw [list_eq_gen j m fs s2 es2 hid]
  congr 1
  apply List.filterMap_congr
  intro e he
  have he2 : e ∈ es2 := (List.perm_insertionSort nameLE es2).mem_iff.mp he
  exact listEntry_eq_recordOf j m fs s2 es2 e hid hnd he2 (hpl e he2)

theorem filterMap_recordOf_filter (j : Codec) (l : List (String × Node)) :
    l.filterMap (recordOf j) = (l.filter (fun e => (recordOf j e).isSome)).filterMap (recordOf j) := by
  induction l with
  | nil => rfl
  | cons e rest ih =>
    cases h : recordOf j e with
    | none => simp [List.filterMap_cons, List.filter_cons, h, ih]
    | some i => simp [List.filterMap_cons, List.filter_cons, h, ih]

/-- Entries that are not records do not show in the records read in name order. -/
theorem records_ignore_foreign (j : Codec) (es2 es3 bad : List (String × Node))
    (hperm : es3.Perm (es2 ++ bad)) (hnd : (es3.map Prod.fst).Nodup)
    (hbad : ∀ e ∈ bad, recordOf j e = none) :
    (es3.insertionSort nameLE).filterMap (recordOf j) =
      (es2.insertionSort nameLE).filterMap (recordOf j) := by
  rw [filterMap_recordOf_filter j (es3.insertionSort nameLE),
    filterMap_recordOf_filter j (es2.insertionSort nameLE)]
  congr 1
  apply sorted_perm_eq
  · have hb : bad.filter (fun e => (recordOf j e).isSome) = [] := by
      rw [List.filter_eq_nil_iff]
      intro e he
      simp [hbad e he]
    have h1 : ((es3.insertionSort nameLE).filter (fun e => (recordOf j e).isSome)).Perm
        ((es2 ++ bad).filter (fun e => (recordOf j e).isSome)) :=
      (((List.perm_insertionSort nameLE es3).trans hperm).filter _)
    rw [List.filter_append, hb, List.append_nil] at h1
    exact h1.trans ((List.perm_insertionSort nameLE es2).filter _).symm
  · exact (sorted_readDir es3).filter _
  · exact (sorted_readDir es2).filter _
  · have h1 : ((es3.insertionSort nameLE).map Prod.fst).Nodup :=
      ((List.perm_insertionSort nameLE es3).map Prod.fst).nodup_iff.mpr hnd
    exact h1.sublist ((List.filter_sublist _).map Prod.fst)


/-- C11. `List` tolerates bad records: when the metadata area is a directory (its
entries have distinct names, each a single path element), `List` succeeds and
returns, in name order, exactly the items decoded from the well-formed records, the
regular files with the extension `.json` whose bytes decode; it returns no new
state, since it only reads.  A metadata area holding these entries and, in any
positions, any number of further entries that are subdirectories, files without the
extension `.json` or files that do not decode, gives the same result. -/
theorem list_tolerates (j : Codec) (m : Manager) (fs : Node) (s2 : Nat)
    (es2 : List (String × Node)) (hid : stat fs m.infoDir = .ok (.dir s2 es2))
    (hpl : ∀ e ∈ es2, PlainName e.1) (hnd : (es2.map Prod.fst).Nodup) :
    m.List j fs = .ok ((es2.insertionSort nameLE).filterMap (recordOf j)) ∧
      (∀ item, item ∈ (es2.insertionSort nameLE).filterMap (recordOf j) ↔
        ∃ e ∈ es2, recordOf j e = some item) ∧
      ∀ (fs3 : Node) (s3 : Nat) (es3 bad : List (String × Node)),
        stat fs3 m.infoDir = .ok (.dir s3 es3) → es3.Perm (es2 ++ bad) →
        (∀ e ∈ bad, PlainName e.1) → (es3.map Prod.fst).Nodup →
        (∀ e ∈ bad, e.2.isDir = true ∨ ext e.1 ≠ ".json" ∨
          ∃ data, e.2 = .file data ∧ j.unmarshal data = none) →
        m.List j fs3 = m.List j fs := by
  have hfirst := list_eq_records j m fs s2 es2 hid hpl hnd
  refine ⟨hfirst, ?_, ?_⟩
  · intro item
    rw [List.mem_filterMap]
    constructor
    · rintro ⟨e, he, h⟩
      exact ⟨e, (List.perm_insertionSort nameLE es2).mem_iff.mp he, h⟩
    · rintro ⟨e, he, h⟩
      exact ⟨e, (List.perm_insertionSort nameLE es2).mem_iff.mpr he, h⟩
  · intro fs3 s3 es3 bad hid3 hperm hplb hnd3 hbad
    have hpl3 : ∀ e ∈ es3, PlainName e.1 := by
      intro e he
      rcases List.mem_append.mp (hperm.mem_iff.mp he) with h | h
      · exact hpl e h
      · exact hplb e h
    rw [hfirst, list_eq_records j m fs3 s3 es3 hid3 hpl3 hnd3]
    congr 1
    apply records_ignore_foreign j es2 es3 bad hperm hnd3
    intro e he
    obtain ⟨k, n⟩ := e
    rcases hbad _ he with h | h | ⟨data, h, hu⟩
    · cases n with
      | dir s es => rfl
      | file d => simp [Node.isDir] at h
    · cases n with
      | dir s es => rfl
      | file d =>
        have h2 : ext k ≠ ".json" := h
        simp [recordOf, h2]
    · have h2 : n = .file data := h
      subst h2
      simp only [recordOf, hu, ite_self]

/-- An instance of C11: the metadata area of `demoTrashed`, and the same area with a
subdirectory, a text file and an undecodable file added. -/
theorem list_tolerates_witness :
    (mkManager ["t"]).List demoCodec demoTrashed =
        .ok (([("20240102_030405_a.txt.json", Node.file (demoCodec.marshal
          ⟨["w", "a.txt"], ["t", "files", "20240102_030405_a.txt"], demoTime, 3⟩))].insertionSort
            nameLE).filterMap (recordOf demoCodec)) ∧
      (mkManager ["t"]).List demoCodec demoForeign = (mkManager ["t"]).List demoCodec demoTrashed ∧
      (mkManager ["t"]).List demoCodec demoForeign =
        .ok [⟨["w", "a.txt"], ["t", "files", "20240102_030405_a.txt"], demoTime, 3⟩] := by
  have h := list_tolerates demoCodec (mkManager ["t"]) demoTrashed 4096
    [("20240102_030405_a.txt.json", .file (demoCodec.marshal
      ⟨["w", "a.txt"], ["t", "files", "20240102_030405_a.txt"], demoTime, 3⟩))] rfl
    (by
      intro e he
      simp only [List.mem_singleton] at he
      subst he
      exact ⟨by decide, by decide, by decide, by decide⟩)
    (by simp)
  refine ⟨h.1, ?_, rfl⟩
  refine h.2.2 demoForeign 4096 _
    [("sub", .dir 4096 []), ("notes.txt", .file [1]), ("bad.json", .file [9, 9])] rfl ?_ ?_ ?_ ?_
  · exact (List.Perm.swap _ _ _).symm
  · intro e he
    simp only [List.mem_cons, List.mem_singleton, List.not_mem_nil, or_false] at he
    rcases he with rfl | rfl | rfl <;> exact ⟨by decide, by decide, by decide, by decide⟩
  · decide
  · intro e he
    simp only [List.mem_cons, List.mem_singleton, List.not_mem_nil, or_false] at he
    rcases he with rfl | rfl | rfl
    · exact Or.inl rfl
    · exact Or.inr (Or.inl (by decide))
    · exact Or.inr (Or.inr ⟨_, rfl, rfl⟩)

/-! ## C6: `Remove` destroys the item and nothing else -/

theorem eraseEntry_eq_filter (c : String) (es : List (String × Node)) :
    eraseEntry c es = es.filter (fun e => decide (e.1 ≠ c)) := by
  induction es with
  | nil => rfl
  | cons e rest ih =>
    by_cases he : e.1 = c
    · simp [eraseEntry, he, ih]
    · simp [eraseEntry, he, ih]

/-- Reading a directory after a name was unlinked gives the former reading without
the entry of that name, the others in their former order. -/
theorem sort_eraseEntry (c : String) (es : List (String × Node))
    (hnd : (es.map Prod.fst).Nodup) :
    (eraseEntry c es).insertionSort nameLE =
      (es.insertionSort nameLE).filter (fun e => decide (e.1 ≠ c)) := by
  apply sorted_perm_eq
  · rw [eraseEntry_eq_filter]
    exact (List.perm_insertionSort nameLE _).trans
      ((List.perm_insertionSort nameLE es).symm.filter _)
  · exact sorted_readDir _
  · exact (sorted_readDir es).filter _
  · exact ((List.perm_insertionSort nameLE _).map Prod.fst).nodup_iff.mpr
      (nodup_eraseEntry c es hnd)

/-- A listing with distinct names is the entry of a name together with the listing
after that name was unlinked. -/
theorem perm_cons_eraseEntry (c : String) (n : Node) (es : List (String × Node))
    (hnd : (es.map Prod.fst).Nodup) (h : lookupEntry c es = some n) :
    es.Perm ((c, n) :: eraseEntry c es) := by
  induction es with
  | nil => simp [lookupEntry] at h
  | cons e rest ih =>
    simp only [List.map_cons, List.nodup_cons] at hnd
    by_cases he : e.1 = c
    · simp only [lookupEntry, he, if_true, Option.some.injEq] at h
      have hee : e = (c, n) := Prod.ext he h
      have hno : c ∉ rest.map Prod.fst := by
        rw [← he]
        exact hnd.1
      have hrest : eraseEntry c rest = rest := by
        rw [eraseEntry_eq_filter, List.filter_eq_self]
        intro x hx
        have : x.1 ≠ c := fun hxc => hno (hxc ▸ List.mem_map_of_mem Prod.fst hx)
        simpa using this
      simp only [eraseEntry, he, if_true, hrest, hee]
      exact List.Perm.refl _
    · simp only [lookupEntry, he, if_false] at h
      simp only [eraseEntry, he, if_false]
      exact ((ih hnd.2 h).cons e).trans (List.Perm.swap _ _ _)

/-- C6. `Remove` destroys and does not restore. For a plain trash name whose record
file is in the metadata area (the name of the record within the length limit of the
file system, as every name of an existing entry is; whatever the payload entry of
that name is, file or directory tree; the metadata area, as every directory, holding
each name once, each a single path element), `Remove` succeeds and afterwards the
payload and the record are gone. `List` succeeds before and after, and the listing
after is the listing before, in its order, with nothing added; when the record
decodes to an item, the item was listed before, the listing before is the item
together with the listing after, and the item is absent from the listing after
exactly when no other record of the store decodes to the very same item. The listing
after is empty when the record was the only entry, and no path that was absent
exists afterwards, the original path in particular. -/
theorem remove_destroys (j : Codec) (root : Path) (trashName : String) (fs : Node)
    (s1 s2 : Nat) (es1 es2 : List (String × Node)) (data : List Nat)
    (hpl : PlainName trashName)
    (hfd : stat fs (mkManager root).filesDir = .ok (.dir s1 es1))
    (hid : stat fs (mkManager root).infoDir = .ok (.dir s2 es2))
    (hrec : lookupEntry (trashName ++ ".json") es2 = some (.file data))
    (hnames : ∀ e ∈ es2, PlainName e.1) (hnd : (es2.map Prod.fst).Nodup)
    (hfit : nameBytes (trashName ++ ".json") ≤ nameMax) :
    ∃ (fs2 : Node) (before after : List Item),
      (mkManager root).Remove fs trashName = (fs2, none) ∧
      stat fs2 ((mkManager root).filesDir ++ [trashName]) = .error .ENOENT ∧
      stat fs2 ((mkManager root).infoDir ++ [trashName ++ ".json"]) = .error .ENOENT ∧
      (mkManager root).List j fs = .ok before ∧
      (mkManager root).List j fs2 = .ok after ∧
      after.Sublist before ∧
      (∀ item, j.unmarshal data = some item →
        item ∈ before ∧ before.Perm (item :: after) ∧
        (item ∉ after ↔
          ∀ e ∈ es2, e.1 ≠ trashName ++ ".json" → recordOf j e ≠ some item)) ∧
      ((∀ e ∈ es2, e.1 = trashName ++ ".json") → after = []) ∧
      ∀ (original : Path) (e : Errno), stat fs original = .error e →
        ∃ e1, stat fs2 original = .error e1 := by
  have hshort : nameBytes trashName ≤ nameMax := by
    have := nameBytes_json trashName
    omega
  obtain ⟨fs2, h1, h2, h3, _, h5⟩ :=
    remove_spec root trashName fs s1 s2 es1 es2 data hpl hfd hid hrec (fun _ => hshort)
  have hnames2 : ∀ e ∈ eraseEntry (trashName ++ ".json") es2, PlainName e.1 :=
    fun e he => hnames e ((mem_eraseEntry _ _ _).mp he).1
  have hb := list_eq_records j (mkManager root) fs s2 es2 hid hnames hnd
  have ha := list_eq_records j (mkManager root) fs2 s2 _ h3 hnames2
    (nodup_eraseEntry _ _ hnd)
  have hperm := perm_cons_eraseEntry _ _ _ hnd hrec
  refine ⟨fs2, _, _, h1, ?_, ?_, hb, ha, ?_, ?_, ?_, h5⟩
  · exact enoent_of_lookup_none _ _ _ _ _ [] h2 (by simp [lookupEntry_eraseEntry]) hshort
  · exact enoent_of_lookup_none _ _ _ _ _ [] h3 (by simp [lookupEntry_eraseEntry]) hfit
  · rw [sort_eraseEntry _ _ hnd]
    exact (List.filter_sublist _).filterMap _
  · intro item hitem
    have hrecOf : recordOf j (trashName ++ ".json", Node.file data) = some item := by
      simp [recordOf, ext_json, hitem]
    have hp : ((es2.insertionSort nameLE).filterMap (recordOf j)).Perm
        (item :: ((eraseEntry (trashName ++ ".json") es2).insertionSort nameLE).filterMap
          (recordOf j)) := by
      have h4 : (es2.insertionSort nameLE).Perm
          ((trashName ++ ".json", Node.file data) ::
            (eraseEntry (trashName ++ ".json") es2).insertionSort nameLE) :=
        (List.perm_insertionSort nameLE es2).trans
          (hperm.trans ((List.perm_insertionSort nameLE _).symm.cons _))
      have h6 := h4.filterMap (recordOf j)
      rw [List.filterMap_cons, hrecOf] at h6
      exact h6
    refine ⟨hp.symm.subset (List.mem_cons_self _ _), hp, ?_⟩
    constructor
    · intro hno e he hne hr
      apply hno
      rw [List.mem_filterMap]
      exact ⟨e, (List.perm_insertionSort nameLE _).mem_iff.mpr
        ((mem_eraseEntry _ _ _).mpr ⟨he, hne⟩), hr⟩
    · intro hall hin
      rw [List.mem_filterMap] at hin
      obtain ⟨e, he, hr⟩ := hin
      have he2 := (mem_eraseEntry _ _ _).mp ((List.perm_insertionSort nameLE _).mem_iff.mp he)
      exact hall e he2.1 he2.2 hr
  · intro hall
    have : eraseEntry (trashName ++ ".json") es2 = [] := by
      rw [eraseEntry_eq_filter, List.filter_eq_nil_iff]
      intro e he
      simp [hall e he]
    rw [this]
    rfl

/-- An instance of C6 on a store of two items: `Remove` of the first item of
`demoTwoTrashed`; the listing before holds both items, the listing after the second
only. -/
theorem remove_destroys_witness :
    PlainName "20240102_030405_a.txt" ∧
      stat demoTwoTrashed (mkManager ["t"]).filesDir =
        .ok (.dir 4096 [("20240102_030405_a.txt", .file [104, 105, 10]),
          ("20240102_030405_a.txt_1", .file [1, 2])]) ∧
      stat demoTwoTrashed (mkManager ["t"]).infoDir =
        .ok (.dir 4096 [("20240102_030405_a.txt.json", .file (demoCodec.marshal
            ⟨["w", "a.txt"], ["t", "files", "20240102_030405_a.txt"], demoTime, 3⟩)),
          ("20240102_030405_a.txt_1.json", .file (demoCodec.marshal
            ⟨["v", "a.txt"], ["t", "files", "20240102_030405_a.txt_1"], demoTime, 2⟩))]) ∧
      (mkManager ["t"]).List demoCodec demoTwoTrashed =
        .ok [⟨["w", "a.txt"], ["t", "files", "20240102_030405_a.txt"], demoTime, 3⟩,
          ⟨["v", "a.txt"], ["t", "files", "20240102_030405_a.txt_1"], demoTime, 2⟩] ∧
      (mkManager ["t"]).List demoCodec
          ((mkManager ["t"]).Remove demoTwoTrashed "20240102_030405_a.txt").1 =
        .ok [⟨["v", "a.txt"], ["t", "files", "20240102_030405_a.txt_1"], demoTime, 2⟩] ∧
      ∃ (fs2 : Node) (before after : List Item),
        (mkManager ["t"]).Remove demoTwoTrashed "20240102_030405_a.txt" = (fs2, none) ∧
        stat fs2 ((mkManager ["t"]).filesDir ++ ["20240102_030405_a.txt"]) = .error .ENOENT ∧
        stat fs2 ((mkManager ["t"]).infoDir ++ ["20240102_030405_a.txt" ++ ".json"]) =
          .error .ENOENT ∧
        (mkManager ["t"]).List demoCodec demoTwoTrashed = .ok before ∧
        (mkManager ["t"]).List demoCodec fs2 = .ok after ∧
        after.Sublist before ∧
        (∀ item, demoCodec.unmarshal (demoCodec.marshal
            ⟨["w", "a.txt"], ["t", "files", "20240102_030405_a.txt"], demoTime, 3⟩) =
              some item →
          item ∈ before ∧ before.Perm (item :: after) ∧
          (item ∉ after ↔
            ∀ e ∈ [("20240102_030405_a.txt.json", Node.file (demoCodec.marshal
                ⟨["w", "a.txt"], ["t", "files", "20240102_030405_a.txt"], demoTime, 3⟩)),
              ("20240102_030405_a.txt_1.json", Node.file (demoCodec.marshal
                ⟨["v", "a.txt"], ["t", "files", "20240102_030405_a.txt_1"], demoTime, 2⟩))],
              e.1 ≠ "20240102_030405_a.txt" ++ ".json" →
                recordOf demoCodec e ≠ some item)) ∧
        ((∀ e ∈ [("20240102_030405_a.txt.json", Node.file (demoCodec.marshal
              ⟨["w", "a.txt"], ["t", "files", "20240102_030405_a.txt"], demoTime, 3⟩)),
            ("20240102_030405_a.txt_1.json", Node.file (demoCodec.marshal
              ⟨["v", "a.txt"], ["t", "files", "20240102_030405_a.txt_1"], demoTime, 2⟩))],
            e.1 = "20240102_030405_a.txt" ++ ".json") → after = []) ∧
        ∀ (original : Path) (e : Errno), stat demoTwoTrashed original = .error e →
          ∃ e1, stat fs2 original = .error e1 :=
  ⟨⟨by decide, by decide, by decide, by decide⟩, rfl, rfl, rfl, rfl,
    remove_destroys demoCodec ["t"] "20240102_030405_a.txt" demoTwoTrashed 4096 4096
      [("20240102_030405_a.txt", .file [104, 105, 10]),
        ("20240102_030405_a.txt_1", .file [1, 2])]
      [("20240102_030405_a.txt.json", .file (demoCodec.marshal
          ⟨["w", "a.txt"], ["t", "files", "20240102_030405_a.txt"], demoTime, 3⟩)),
        ("20240102_030405_a.txt_1.json", .file (demoCodec.marshal
          ⟨["v", "a.txt"], ["t", "files", "20240102_030405_a.txt_1"], demoTime, 2⟩))]
      (demoCodec.marshal
        ⟨["w", "a.txt"], ["t", "files", "20240102_030405_a.txt"], demoTime, 3⟩)
      ⟨by decide, by decide, by decide, by decide⟩ rfl rfl rfl
      (by
        intro e he
        simp only [List.mem_cons, List.mem_singleton, List.not_mem_nil, or_false] at he
        rcases he with rfl | rfl <;> exact ⟨by decide, by decide, by decide, by decide⟩)
      (by decide) (by decide)⟩

/-! ## C12: the size recorded by `Put` -/

/-- `Put` of an entry, file or directory, into a fresh store, when the name of the
record is within the length limit: the record written holds the size `stat` gives
for the entry itself, and `Size` afterwards is the recursive sum over the entry. -/
theorem put_records_size (j : Codec) (hj : j.Lawful) (root : Path) (wd path : String)
    (fs node : Node) (now now2 : Time) (s1 s2 : Nat)
    (hfd : stat fs (root ++ ["files"]) = .ok (.dir s1 []))
    (hid : stat fs (root ++ ["info"]) = .ok (.dir s2 []))
    (hsrc : stat fs (abs wd path) = .ok node)
    (ha1 : ¬ abs wd path <+: (root ++ ["files"])) (ha2 : ¬ abs wd path <+: (root ++ ["info"]))
    (hfit : nameBytes (now.format ++ "_" ++ base (abs wd path) ++ ".json") ≤ nameMax) :
    ∃ fs1, (mkManager root).Put j wd fs path now now2 = (fs1, none) ∧
      (mkManager root).List j fs1 = .ok [⟨abs wd path,
        root ++ ["files"] ++ [now.format ++ "_" ++ base (abs wd path)], now2, node.size⟩] ∧
      (mkManager root).Size fs1 = (node.du, none) := by
  have ho1 := fresh_outside _ _ _ _ _ hfd hsrc ha1
  have ho2 := fresh_outside _ _ _ _ _ hid hsrc ha2
  have hane : abs wd path ≠ [] := fun e => ha1 (e ▸ List.nil_prefix)
  have hpl : PlainName (now.format ++ "_" ++ base (abs wd path)) :=
    trashName_plain _ _ (format_noSlash now) (abs_plain wd path _ (base_mem _ hane)).1
  have hfree : stat fs (join (root ++ ["files"]) (now.format ++ "_" ++ base (abs wd path))) =
      .error .ENOENT := by
    rw [join_plain _ _ hpl]
    exact enoent_of_lookup_none _ _ _ _ _ [] hfd rfl (by rw [nameBytes_json] at hfit; omega)
  obtain ⟨f, hf⟩ := probeFuel_pos fs (root ++ ["files"])
  have hprobe := probe_free fs (root ++ ["files"]) now.format (base (abs wd path)) f 1 _ hfree
  rw [← hf] at hprobe
  obtain ⟨fs1, h1, _, _, h4, h5, _⟩ := put_spec j root wd path fs now now2 _ s1 s2 [] []
    _ hsrc hfd hid ho1 ho2 ha1 ha2 (by intro s es h; simp [lookupEntry] at h) hprobe
    (fun _ => hfit)
  refine ⟨fs1, h1, ?_, ?_⟩
  · rw [list_eq j root fs1 _ _ h5]
    have hl : lookupEntry (now.format ++ "_" ++ base (abs wd path) ++ ".json")
        (setEntry (now.format ++ "_" ++ base (abs wd path) ++ ".json")
          (.file (j.marshal ⟨abs wd path,
            root ++ ["files"] ++ [now.format ++ "_" ++ base (abs wd path)], now2, node.size⟩))
          []) = some (.file (j.marshal ⟨abs wd path,
            root ++ ["files"] ++ [now.format ++ "_" ++ base (abs wd path)], now2,
            node.size⟩)) := by
      simp [setEntry, lookupEntry]
    have hrec := listEntry_record j root fs1 _ _ _ _ h5 hpl.1 hl
    simp only [setEntry, List.insertionSort, List.orderedInsert, List.filterMap_cons, hrec, hj _,
      List.filterMap_nil]
  · rw [size_eq root fs1 _ _ h4]
    simp [Node.duList]

/-- For a regular file put into a fresh store, the name of the record being within
the length limit, the recorded size is the number of bytes of the file, and so is
what `Size` returns right after. -/
theorem put_file_records_size (j : Codec) (hj : j.Lawful) (root : Path) (wd path : String)
    (fs : Node) (bytes : List Nat) (now now2 : Time) (hfresh : Fresh (mkManager root) fs)
    (hsrc : stat fs (abs wd path) = .ok (.file bytes))
    (hfit : nameBytes (now.format ++ "_" ++ base (abs wd path) ++ ".json") ≤ nameMax) :
    ∃ fs1 item, (mkManager root).Put j wd fs path now now2 = (fs1, none) ∧
      (mkManager root).List j fs1 = .ok [item] ∧ item.size = bytes.length ∧
      (mkManager root).Size fs1 = (item.size, none) := by
  obtain ⟨s1, s2, hfd, hid⟩ := hfresh
  obtain ⟨fs1, h1, h2, h3⟩ := put_records_size j hj root wd path fs _ now now2 s1 s2 hfd hid hsrc
    (file_not_above _ _ _ _ _ _ hsrc hfd) (file_not_above _ _ _ _ _ _ hsrc hid) hfit
  exact ⟨fs1, _, h1, h2, rfl, by rw [h3]; simp [Node.du, Node.size]⟩

/-- C12. The size recorded for a directory is not the recursive sum: `Put` of the
directory `/w/d`, which holds one file of three bytes, into the empty store at `/t`
succeeds; the only item `List` returns afterwards has the size 4096, the size of the
directory entry itself, while `Size` right after the `Put` returns 3. -/
theorem recorded_size_directory :
    Fresh (mkManager ["t"]) demoDirFs ∧
      stat demoDirFs (abs "/w" "d") = .ok (.dir 4096 [("a.txt", .file [104, 105, 10])]) ∧
      (mkManager ["t"]).Put demoCodec "/w" demoDirFs "d" demoTime demoTime =
        (demoDirTrashed, none) ∧
      (mkManager ["t"]).List demoCodec demoDirTrashed =
        .ok [⟨["w", "d"], ["t", "files", "20240102_030405_d"], demoTime, 4096⟩] ∧
      (mkManager ["t"]).Size demoDirTrashed = (3, none) :=
  ⟨⟨4096, 4096, rfl, rfl⟩, rfl, rfl, rfl, rfl⟩

/-! ## C13: trash names are unique among the entries present -/

/-- What a successful `Put` tells about the name it assigned. -/
theorem put_name_inv (j : Codec) (m : Manager) (wd path : String) (fs fs2 : Node)
    (now now2 : Time) (h : m.Put j wd fs path now now2 = (fs2, none)) :
    ∃ tn node, m.assignedName j wd fs path now now2 = some tn ∧ PlainName tn ∧
      stat fs (abs wd path) = .ok node ∧
      stat fs (m.filesDir ++ [tn]) = .error .ENOENT ∧
      stat fs2 (m.infoDir ++ [tn ++ ".json"]) = .ok (.file (j.marshal
        ⟨abs wd path, m.filesDir ++ [tn], now2, node.size⟩)) := by
  obtain ⟨node, tn, fs1, hs, hp, hr⟩ := put_inv j m wd path fs fs2 now now2 h
  obtain ⟨hfree, _⟩ := probe_some _ _ _ _ _ _ _ _ hp
  obtain ⟨_, _, _, hane, _, _, _, _⟩ := rename_ok_inv fs fs1 _ _ _ hr hfree
  obtain ⟨hpl, hfree2⟩ := probe_plain fs _ now _ _ tn hane
    (fun c hc => abs_plain wd path c hc) hp
  refine ⟨tn, node, ?_, hpl, hs, hfree2, ?_⟩
  · simp only [Manager.assignedName, hs, hp, h, Option.isNone_none, if_true]
  · rw [join_plain _ _ hpl] at hr
    simp only [Manager.Put, hs, hp, join_plain _ _ hpl, join_plain _ _ (json_plain _ hpl.1),
      hr, saveItemInfo, getSize] at h
    cases hw : writeFile fs1 (m.infoDir ++ [tn ++ ".json"]) (j.marshal
        ⟨abs wd path, m.filesDir ++ [tn], now2, node.size⟩) with
    | error e => simp [hw] at h
    | ok fs3 =>
      simp only [hw, Prod.mk.injEq, and_true] at h
      subst h
      unfold writeFile at hw
      split at hw
      · cases hw
      · exact updateAt_some_stat _ _ _ _ hw
      · exact updateAt_some_stat _ _ _ _ hw
      · cases hw

/-- C13 as stated fails. On a store holding nothing, `Put` of `/w/a.txt`, `Restore` of
the item and `Put` of `/w/a.txt` again in the same second all succeed, and both calls
of `Put` assign the name `20240102_030405_a.txt`; the same happens when the first item
is removed, or the store emptied, before a file of the same base name is put. -/
theorem name_reuse_counterexample :
    runAll demoCodec (mkManager ["t"]) "/w" demoFs
        [.put "a.txt" demoTime demoTime, .restore "20240102_030405_a.txt",
          .put "a.txt" demoTime demoTime] = some demoTrashed ∧
      assignedNames demoCodec (mkManager ["t"]) "/w" demoFs
        [.put "a.txt" demoTime demoTime, .restore "20240102_030405_a.txt",
          .put "a.txt" demoTime demoTime] =
        ["20240102_030405_a.txt", "20240102_030405_a.txt"] ∧
      (runAll demoCodec (mkManager ["t"]) "/" demoTwoFs
        [.put "/w/a.txt" demoTime demoTime, .remove "20240102_030405_a.txt",
          .put "/v/a.txt" demoTime demoTime]).isSome = true ∧
      assignedNames demoCodec (mkManager ["t"]) "/" demoTwoFs
        [.put "/w/a.txt" demoTime demoTime, .remove "20240102_030405_a.txt",
          .put "/v/a.txt" demoTime demoTime] =
        ["20240102_030405_a.txt", "20240102_030405_a.txt"] ∧
      (runAll demoCodec (mkManager ["t"]) "/" demoTwoFs
        [.put "/w/a.txt" demoTime demoTime, .empty,
          .put "/v/a.txt" demoTime demoTime]).isSome = true ∧
      assignedNames demoCodec (mkManager ["t"]) "/" demoTwoFs
        [.put "/w/a.txt" demoTime demoTime, .empty,
          .put "/v/a.txt" demoTime demoTime] =
        ["20240102_030405_a.txt", "20240102_030405_a.txt"] ∧
      ¬ (assignedNames demoCodec (mkManager ["t"]) "/w" demoFs
        [.put "a.txt" demoTime demoTime, .restore "20240102_030405_a.txt",
          .put "a.txt" demoTime demoTime]).Nodup := by
  have h : assignedNames demoCodec (mkManager ["t"]) "/w" demoFs
        [.put "a.txt" demoTime demoTime, .restore "20240102_030405_a.txt",
          .put "a.txt" demoTime demoTime] =
        ["20240102_030405_a.txt", "20240102_030405_a.txt"] := rfl
  refine ⟨rfl, rfl, rfl, rfl, rfl, rfl, ?_⟩
  rw [h]
  simp

/-- C13, amended. Trash names are unique among the entries present: when the
payload area is a directory, a successful `Put` assigns a name that is a single path
element and is not the name of any payload entry existing at the time of the call,
and the record it writes under that name decodes to an item whose trash path has
the name as its base name. -/
theorem put_name_unique (j : Codec) (hj : j.Lawful) (m : Manager) (wd path : String)
    (fs fs2 : Node) (now now2 : Time) (s1 : Nat) (es1 : List (String × Node))
    (hfd : stat fs m.filesDir = .ok (.dir s1 es1))
    (h : m.Put j wd fs path now now2 = (fs2, none)) :
    ∃ tn item, m.assignedName j wd fs path now now2 = some tn ∧ PlainName tn ∧
      tn ∉ es1.map Prod.fst ∧
      loadItemInfo j fs2 (join m.infoDir (tn ++ ".json")) = .ok item ∧
      item.trashPath = m.filesDir ++ [tn] ∧ base item.trashPath = tn := by
  obtain ⟨tn, node, h1, hpl, _, hfree, hrec⟩ := put_name_inv j m wd path fs fs2 now now2 h
  refine ⟨tn, ⟨abs wd path, m.filesDir ++ [tn], now2, node.size⟩, h1, hpl, ?_, ?_, rfl,
    base_append_singleton _ _⟩
  · rw [mem_keys_iff_lookup]
    simp [lookup_none_of_enoent _ _ _ _ _ hfd hfree]
  · rw [join_plain _ _ (json_plain _ hpl.1)]
    exact loadItemInfo_record j fs2 _ _ _ hrec (hj _)

/-- The second `Put` of the counterexample run: on the state holding the item
`20240102_030405_a.txt` it assigns a name no payload entry has. -/
theorem put_name_unique_witness :
    ∃ tn item, (mkManager ["t"]).assignedName demoCodec "/w" demoOccupied "a.txt" demoTime
        demoTime = some tn ∧ PlainName tn ∧
      tn ∉ [("20240102_030405_a.txt", Node.file [104, 105, 10])].map Prod.fst ∧
      loadItemInfo demoCodec
        ((mkManager ["t"]).Put demoCodec "/w" demoOccupied "a.txt" demoTime demoTime).1
        (join (mkManager ["t"]).infoDir (tn ++ ".json")) = .ok item ∧
      item.trashPath = (mkManager ["t"]).filesDir ++ [tn] ∧ base item.trashPath = tn :=
  put_name_unique demoCodec demoCodec_lawful (mkManager ["t"]) "/w" "a.txt" demoOccupied _
    demoTime demoTime 4096 [("20240102_030405_a.txt", .file [104, 105, 10])] rfl rfl

/-! ## C14: `Set` and `Get` of the configuration agree -/

/-- C14. Config `Set` and `Get` agree: for every configuration, key and value,
`Set` returns true exactly when the key is one of `trash_dir`, `confirm_delete`,
`use_fancy_ui`, `auto_empty_days`, `max_trash_size_mb` and the value has the type of
that key (string, bool, bool, int, int); when it returns true, `Get` of the key on the
configuration it leaves returns the value; and for a key outside those five `Set`
returns false and `Get` returns nil, before and after the call. -/
theorem set_get_agree (c : Config) (key : String) (value : Value) :
    ((c.Set key value).2 = true ↔
      ((key = "trash_dir" ∧ ∃ s, value = .str s) ∨
       (key = "confirm_delete" ∧ ∃ b, value = .bool b) ∨
       (key = "use_fancy_ui" ∧ ∃ b, value = .bool b) ∨
       (key = "auto_empty_days" ∧ ∃ n, value = .int n) ∨
       (key = "max_trash_size_mb" ∧ ∃ n, value = .int n))) ∧
    ((c.Set key value).2 = true → (c.Set key value).1.Get key = value) ∧
    (key ∉ ["trash_dir", "confirm_delete", "use_fancy_ui", "auto_empty_days",
        "max_trash_size_mb"] →
      (c.Set key value).2 = false ∧ c.Get key = .nil ∧ (c.Set key value).1.Get key = .nil) := by
  by_cases h1 : key = "trash_dir"
  · subst h1
    cases value <;> simp [Config.Set, Config.Get]
  by_cases h2 : key = "confirm_delete"
  · subst h2
    cases value <;> simp [Config.Set, Config.Get]
  by_cases h3 : key = "use_fancy_ui"
  · subst h3
    cases value <;> simp [Config.Set, Config.Get]
  by_cases h4 : key = "auto_empty_days"
  · subst h4
    cases value <;> simp [Config.Set, Config.Get]
  by_cases h5 : key = "max_trash_size_mb"
  · subst h5
    cases value <;> simp [Config.Set, Config.Get]
  simp [Config.Set, Config.Get, h1, h2, h3, h4, h5]

/-- The calls of the test `TestConfigGetSet` of the repository, on the default
configuration, and a value of the wrong type. -/
theorem config_get_set_example :
    demoConfig.Get "confirm_delete" = .bool true ∧ demoConfig.Get "invalid_key" = .nil ∧
      demoConfig.Set "confirm_delete" (.bool false) =
        ({ demoConfig with ConfirmDelete := false }, true) ∧
      demoConfig.Set "auto_empty_days" (.int 60) =
        ({ demoConfig with AutoEmptyDays := 60 }, true) ∧
      demoConfig.Set "invalid_key" (.str "value") = (demoConfig, false) ∧
      demoConfig.Set "auto_empty_days" (.str "60") = (demoConfig, false) := by
  decide

/-! ## C15: the probe and the first free slot -/

/-- The probe picks the first free slot when that name is within the length limit of
a file name: when the payload area is a directory with the entries `es`, neither the
timestamp string `ts` nor the base file name `b` contains a separator, and the first
candidate that no payload entry is named has at most `nameMax` bytes, the probing
loop of `Put` returns a name, the same for every amount of fuel above the number of
entries.  The name is `ts_b` when no payload entry has that name; otherwise it is
`ts_b_n` for the least `n ≥ 1` such that no payload entry is named `ts_b_n`.  In both
cases no payload entry has the name returned. -/
theorem probe_first_free (fs : Node) (fd : Path) (ts b : String) (s : Nat)
    (es : List (String × Node)) (hfd : stat fs fd = .ok (.dir s es))
    (hts : '/' ∉ ts.data) (hb : '/' ∉ b.data)
    (hfit : ∀ n, lookupEntry (candidate ts b n) es = none →
      (∀ k, k < n → lookupEntry (candidate ts b k) es ≠ none) →
      nameBytes (candidate ts b n) ≤ nameMax) :
    ∃ name, probe fs fd ts b (probeFuel fs fd) 1 (ts ++ "_" ++ b) = some name ∧
      (∀ fuel, es.length < fuel → probe fs fd ts b fuel 1 (ts ++ "_" ++ b) = some name) ∧
      name ∉ es.map Prod.fst ∧
      (ts ++ "_" ++ b ∉ es.map Prod.fst → name = ts ++ "_" ++ b) ∧
      (ts ++ "_" ++ b ∈ es.map Prod.fst →
        ∃ n, 1 ≤ n ∧ name = ts ++ "_" ++ b ++ "_" ++ Nat.repr n ∧
          ∀ k, 1 ≤ k → k < n → ts ++ "_" ++ b ++ "_" ++ Nat.repr k ∈ es.map Prod.fst) := by
  obtain ⟨n, hn, hfree, hbusy, hret, _⟩ := probe_total fs fd ts b s es hfd hts hb
  have hshort : nameBytes (candidate ts b n) ≤ nameMax := hfit n hfree hbusy
  have hfuel := probeFuel_gt fs fd s es hfd
  refine ⟨candidate ts b n, hret hshort _ (by omega), fun fuel hf => hret hshort fuel (by omega),
    ?_, ?_, ?_⟩
  · rw [mem_keys_iff_lookup]
    simp [hfree]
  · intro h0
    cases n with
    | zero => rfl
    | succ k =>
      exfalso
      apply h0
      exact mem_keys_of_lookup _ _ (hbusy 0 (by omega))
  · intro h0
    cases n with
    | zero =>
      exfalso
      rw [mem_keys_iff_lookup] at h0
      exact h0 hfree
    | succ k =>
      refine ⟨k + 1, by omega, rfl, ?_⟩
      intro i hi1 hi2
      obtain ⟨i0, rfl⟩ : ∃ i0, i = i0 + 1 := ⟨i - 1, by omega⟩
      exact mem_keys_of_lookup _ _ (hbusy (i0 + 1) hi2)

set_option maxRecDepth 100000 in
/-- C15. The probe does not terminate for a long base name.  On the fresh store of
`demoLongFs 240` the payload area is empty and the file `/w/aaa...a` has a name of 240
bytes, which the file system allows; the first name the loop of `Put` tries,
`20240102_030405_` followed by the base name, has 256 bytes, one more than a file
name may have.  `stat` of it fails with `ENAMETOOLONG`, which is not the
`os.IsNotExist` error the loop waits for, and so it is with every later candidate:
the loop returns for no amount of fuel, and `Put` never returns. -/
theorem probe_long_name_spins :
    Fresh (mkManager ["t"]) (demoLongFs 240) ∧
      stat (demoLongFs 240) (abs "/w" (longName 240)) = .ok (.file [1]) ∧
      base (abs "/w" (longName 240)) = longName 240 ∧
      nameBytes (longName 240) = 240 ∧
      nameBytes (demoTime.format ++ "_" ++ longName 240) = 256 ∧
      stat (demoLongFs 240)
        (join (mkManager ["t"]).filesDir (demoTime.format ++ "_" ++ longName 240)) =
        .error .ENAMETOOLONG ∧
      (∀ fuel, probe (demoLongFs 240) (mkManager ["t"]).filesDir demoTime.format (longName 240)
        fuel 1 (demoTime.format ++ "_" ++ longName 240) = none) ∧
      (mkManager ["t"]).Put demoCodec "/w" (demoLongFs 240) (longName 240) demoTime demoTime =
        (demoLongFs 240, some .hang) := by
  have hb : base (abs "/w" (longName 240)) = longName 240 := rfl
  have h := put_hang_spec demoCodec ["t"] "/w" (longName 240) (demoLongFs 240) demoTime demoTime
    (.file [1]) 4096 [] rfl
    (by rw [show abs "/w" (longName 240) = ["w", longName 240] from rfl]; simp) rfl
    (by rw [hb]; decide)
  rw [hb] at h
  exact ⟨⟨4096, 4096, rfl, rfl⟩, rfl, rfl, rfl, rfl, rfl, h.1, h.2⟩

/-! ## C16: what a failing `Remove` leaves behind -/

/-- C16 as stated fails. On the state holding one item, `Remove` of the empty name
returns the not-found error, there being no record for that name, and has deleted
the payload directory with the payload in it.  On the state where the payload
`20240102_030405_a.txt` has lost its record, `Remove` of that name returns the
not-found error and has deleted the payload. -/
theorem remove_failure_counterexample :
    ¬ HasRecord demoCodec (mkManager ["t"]) demoTrashed "" ∧
      ((mkManager ["t"]).Remove demoTrashed "").2 = some (.sys .ENOENT) ∧
      entriesAt demoTrashed (mkManager ["t"]).filesDir =
        some [("20240102_030405_a.txt", .file [104, 105, 10])] ∧
      entriesAt ((mkManager ["t"]).Remove demoTrashed "").1 (mkManager ["t"]).filesDir = none ∧
      ¬ HasRecord demoCodec (mkManager ["t"]) demoBroken "20240102_030405_a.txt" ∧
      ((mkManager ["t"]).Remove demoBroken "20240102_030405_a.txt").2 = some (.sys .ENOENT) ∧
      stat demoBroken ((mkManager ["t"]).filesDir ++ ["20240102_030405_a.txt"]) =
        .ok (.file [104, 105, 10]) ∧
      stat ((mkManager ["t"]).Remove demoBroken "20240102_030405_a.txt").1
        ((mkManager ["t"]).filesDir ++ ["20240102_030405_a.txt"]) = .error .ENOENT := by
  refine ⟨?_, rfl, rfl, rfl, ?_, rfl, rfl, rfl⟩
  · rintro ⟨s, es, data, item, h1, h2, _⟩
    have h0 : stat demoTrashed (mkManager ["t"]).infoDir =
        .ok (.dir 4096 [("20240102_030405_a.txt.json", .file (demoCodec.marshal
          ⟨["w", "a.txt"], ["t", "files", "20240102_030405_a.txt"], demoTime, 3⟩))]) := rfl
    rw [h0] at h1
    cases h1
    have h3 : lookupEntry ("" ++ ".json")
        [("20240102_030405_a.txt.json", Node.file (demoCodec.marshal
          ⟨["w", "a.txt"], ["t", "files", "20240102_030405_a.txt"], demoTime, 3⟩))] = none := rfl
    rw [h3] at h2
    cases h2
  · rintro ⟨s, es, data, item, h1, h2, _⟩
    have h0 : stat demoBroken (mkManager ["t"]).infoDir =
        .ok (.dir 4096 [("20240102_030405_20240102_030405_a.txt.json.json",
          .file (demoCodec.marshal ⟨["t", "info", "20240102_030405_a.txt.json"],
            ["t", "files", "20240102_030405_20240102_030405_a.txt.json"], demoTime, 47⟩))]) :=
      rfl
    rw [h0] at h1
    cases h1
    have h3 : lookupEntry ("20240102_030405_a.txt" ++ ".json")
        [("20240102_030405_20240102_030405_a.txt.json.json",
          Node.file (demoCodec.marshal ⟨["t", "info", "20240102_030405_a.txt.json"],
            ["t", "files", "20240102_030405_20240102_030405_a.txt.json"], demoTime, 47⟩))] =
        none := rfl
    rw [h3] at h2
    cases h2

/-- C16, amended. A failing `Remove` changes at most the payload entry of that name:
in a store whose two directories exist, for a plain trash name (a single path
element) with no entry `trashName.json` in the metadata area, `Remove` returns the
error of the missing record, `missing (trashName ++ ".json")`: the not-found error
`ENOENT` whenever the record name is within the 255 bytes of a file name, the
name-too-long error beyond.  The metadata area is as it was, the payload area is as
it was except that the entry of that name, if there was one, is gone, every path
that is neither that entry, nor below it, nor above it holds what it held; and when
the payload area has no entry of that name, the whole file system is unchanged. -/
theorem remove_failure_effect (root : Path) (trashName : String) (fs : Node)
    (s1 s2 : Nat) (es1 es2 : List (String × Node)) (hpl : PlainName trashName)
    (hfd : stat fs (mkManager root).filesDir = .ok (.dir s1 es1))
    (hid : stat fs (mkManager root).infoDir = .ok (.dir s2 es2))
    (hno : lookupEntry (trashName ++ ".json") es2 = none) :
    ∃ fs1, (mkManager root).Remove fs trashName =
        (fs1, some (.sys (missing (trashName ++ ".json")))) ∧
      (nameBytes (trashName ++ ".json") ≤ nameMax →
        (mkManager root).Remove fs trashName = (fs1, some (.sys .ENOENT))) ∧
      stat fs1 (mkManager root).infoDir = .ok (.dir s2 es2) ∧
      stat fs1 (mkManager root).filesDir = .ok (.dir s1 (eraseEntry trashName es1)) ∧
      (∀ q, ¬ ((mkManager root).filesDir ++ [trashName]) <+: q →
        ¬ q <+: ((mkManager root).filesDir ++ [trashName]) → stat fs1 q = stat fs q) ∧
      (lookupEntry trashName es1 = none → fs1 = fs) := by
  obtain ⟨fs1, hu1, hr⟩ := remove_norecord_spec root trashName fs s1 s2 es1 es2 hpl hfd hid hno
  obtain ⟨_, _, h1a, h1b⟩ := updateAt_ok_listing _ _ _ _ _ hu1
  have hfd0 : stat fs (root ++ ["files"]) = .ok (.dir s1 es1) := hfd
  rw [hfd0] at h1a
  cases h1a
  refine ⟨fs1, hr, fun hfit => by rw [hr, missing_of_le _ hfit], ?_, h1b, ?_, ?_⟩
  · have : stat fs1 (root ++ ["info"]) = stat fs (root ++ ["info"]) :=
      updateAt_frame _ _ _ _ _ hu1 (by simp) (by simp)
    exact this.trans hid
  · intro q q1 q2
    exact updateAt_frame _ _ _ _ _ hu1 q1 q2
  · intro hl
    have hidm : updateAt none fs (root ++ ["files"] ++ [trashName]) = .ok fs := by
      rw [modifyAt_eq_updateAt]
      exact modifyAt_id _ _ _ _ _ hfd0 (eraseEntry_of_lookup_none _ _ hl)
    rw [hidm] at hu1
    cases hu1
    rfl

/-- An instance of the amended C16: the name `20240102_030405_a.txt` on the state where
that payload has lost its record. -/
theorem remove_failure_effect_witness :
    ∃ fs1, (mkManager ["t"]).Remove demoBroken "20240102_030405_a.txt" =
        (fs1, some (.sys (missing ("20240102_030405_a.txt" ++ ".json")))) ∧
      (nameBytes ("20240102_030405_a.txt" ++ ".json") ≤ nameMax →
        (mkManager ["t"]).Remove demoBroken "20240102_030405_a.txt" =
          (fs1, some (.sys .ENOENT))) ∧
      stat fs1 (mkManager ["t"]).infoDir =
        .ok (.dir 4096 [("20240102_030405_20240102_030405_a.txt.json.json",
          .file (demoCodec.marshal ⟨["t", "info", "20240102_030405_a.txt.json"],
            ["t", "files", "20240102_030405_20240102_030405_a.txt.json"], demoTime, 47⟩))]) ∧
      stat fs1 (mkManager ["t"]).filesDir = .ok (.dir 4096 (eraseEntry "20240102_030405_a.txt"
        [("20240102_030405_a.txt", .file [104, 105, 10]),
          ("20240102_030405_20240102_030405_a.txt.json", .file (demoCodec.marshal
            ⟨["w", "a.txt"], ["t", "files", "20240102_030405_a.txt"], demoTime, 3⟩))])) ∧
      (∀ q, ¬ ((mkManager ["t"]).filesDir ++ ["20240102_030405_a.txt"]) <+: q →
        ¬ q <+: ((mkManager ["t"]).filesDir ++ ["20240102_030405_a.txt"]) →
        stat fs1 q = stat demoBroken q) ∧
      (lookupEntry "20240102_030405_a.txt"
        [("20240102_030405_a.txt", Node.file [104, 105, 10]),
          ("20240102_030405_20240102_030405_a.txt.json", .file (demoCodec.marshal
            ⟨["w", "a.txt"], ["t", "files", "20240102_030405_a.txt"], demoTime, 3⟩))] = none →
        fs1 = demoBroken) :=
  remove_failure_effect ["t"] "20240102_030405_a.txt" demoBroken 4096 4096 _ _
    ⟨by decide, by decide, by decide, by decide⟩ rfl rfl rfl

end GoCycled
